import Mathlib

/-!
# VOXEL adaptive-bitrate control loop: embedding and verified properties

Shallow embedding of the ABR policies of the streaming client
(`net/tools/quic/{abr,bola,tput,mpc}.cc`).

Number model.
* C++ `double` is embedded as `ℚ`.  The definitions without the suffix `Fl` compute
  with exact arithmetic: rounding, infinities and NaN are not represented.  Where the
  rounding decides a property, the definition with the suffix `Fl` takes the rounding
  `fl` of every result of the arithmetic of `double` as a parameter: `fl = id` is the
  exact arithmetic, and `fl = roundDouble` is IEEE 754 binary64 with rounding to the
  nearest, ties to even.  A division by zero (a map entry of size `0`, a throughput of
  `0`) gives an infinity or NaN in C++ and `0` in `ℚ`; the statements below either
  exclude that case or do not depend on the quotient.
* `size_t` is embedded as `Nat`, `int` as `Int`.  The `int` arithmetic of the frame
  orders and of the loss accounting is reduced to 32 bits (`wrapInt`), as the compiled
  code does; elsewhere the statements keep the values inside the range of `int`.
* `std::vector<double>` is a `List ℚ`; an index outside the vector is undefined
  in C++ and reads `0` here.
* `std::map<double, SSIMBasedQuality>` is the list of its entries in iteration
  order, that is by strictly ascending key.
* Calls that end the process (`exit`, an uncaught `std::out_of_range`, a failed
  `assert`) make the embedded function return `none`.
* Writes to `std::cerr` are dropped.
-/

namespace Voxel

/-! ## Shared data (abr.h) -/

/-- One line of the per-decision log kept by every policy. -/
structure AbrLogLine where
  playhead_time_ : ℚ
  buffer_level_ : ℚ
  throughput_ : ℚ
  quality_ : Int
  bitrate_ : ℚ
  pause_ : ℚ

/-- Element access `v[i]` of a `std::vector<double>` with an `int` index. -/
def vecAt (v : List ℚ) (i : Int) : ℚ :=
  if 0 ≤ i then v.getD i.toNat 0 else 0

/-- Conversion `double -> int` (truncation toward zero). -/
def truncToInt (x : ℚ) : Int :=
  if 0 ≤ x then Int.floor x else Int.ceil x

/-- Conversion `double -> size_t`: truncation of a value in `[0, 2^64)`.  Outside that
range the conversion is undefined in C++; for a negative value the code the compiler
emits for the conversion on x86-64 yields the truncated value modulo `2^64`, which is
what is embedded here. -/
def toSizeT (x : ℚ) : Nat :=
  if 0 ≤ x then (Int.floor x).toNat else ((Int.ceil x) % 2 ^ 64).toNat

/-! ## The arithmetic of `double` -/

/-- Rounding of a rational to the nearest integer, a tie going to the even one. -/
def roundHalfEven (q : ℚ) : Int :=
  if q - (Int.floor q : ℚ) < 1 / 2 then Int.floor q
  else if 1 / 2 < q - (Int.floor q : ℚ) then Int.floor q + 1
  else if Int.floor q % 2 = 0 then Int.floor q
  else Int.floor q + 1

/-- Rounding of a real result to `double` (IEEE 754 binary64, to the nearest, ties to
even): the value is scaled to a significand of 53 bits, which is rounded to an integer.
Subnormal values, overflow to an infinity and the sign of zero are not represented. -/
def roundDouble (x : ℚ) : ℚ :=
  if x = 0 then 0
  else
    (if x < 0 then -1 else 1) * (roundHalfEven (|x| / 2 ^ (Int.log 2 |x| - 52)) : ℚ)
      * 2 ^ (Int.log 2 |x| - 52)

/-- The log line pushed by every `GetQuality`. -/
def mkLogLine (log : List AbrLogLine) (buffer_level segment_duration throughput : ℚ)
    (quality : Int) (bitrate pause : ℚ) : AbrLogLine :=
  { playhead_time_ :=
      match log.getLast? with
      | none => -buffer_level
      | some back => back.playhead_time_ + segment_duration + back.buffer_level_ - buffer_level
    buffer_level_ := buffer_level
    throughput_ := throughput
    quality_ := quality
    bitrate_ := bitrate
    pause_ := pause }

/-- The log line pushed by every `GetQuality`, with the rounding `fl` of the arithmetic
of `double`. -/
def mkLogLineFl (fl : ℚ → ℚ) (log : List AbrLogLine)
    (buffer_level segment_duration throughput : ℚ) (quality : Int) (bitrate pause : ℚ) :
    AbrLogLine :=
  { playhead_time_ :=
      match log.getLast? with
      | none => -buffer_level
      | some back =>
        fl (fl (fl (back.playhead_time_ + segment_duration) + back.buffer_level_)
          - buffer_level)
    buffer_level_ := buffer_level
    throughput_ := throughput
    quality_ := quality
    bitrate_ := bitrate
    pause_ := pause }

/-! ## ThroughputAbr (tput.h, tput.cc) -/

/-- State of `ThroughputAbr` (with the `BaseAbr` members). -/
structure ThroughputAbr where
  buffer_size_ : ℚ
  startup : Bool
  pause : Int
  buffer_level_ : ℚ
  segment_duration_ : ℚ
  bitrates_ : List ℚ
  log_ : List AbrLogLine

namespace ThroughputAbr

/-- The safety factor `kSafetyFactor = 0.9`. -/
def kSafetyFactor : ℚ := 9 / 10

/-- Constructor `ThroughputAbr(segment_duration, buffer_size, bitrates)`; the
member `pause` is left uninitialised by the source and is `0` here. -/
def create (segment_duration buffer_size : ℚ) (bitrates : List ℚ) : ThroughputAbr :=
  { buffer_size_ := buffer_size
    startup := true
    pause := 0
    buffer_level_ := 0
    segment_duration_ := segment_duration
    bitrates_ := bitrates
    log_ := [] }

/-- The loop `for (i = 1; i < size; ++i) if (bitrates_[i] > throughput) return i - 1;`
followed by `return size - 1`.  `rest` holds `bitrates_[i], bitrates_[i+1], ...`. -/
def qualityLoop (size : Nat) (throughput : ℚ) : List ℚ → Nat → Int
  | [], _ => (size : Int) - 1
  | r :: rest, i => if r > throughput then (i : Int) - 1 else qualityLoop size throughput rest (i + 1)

/-- The method `ThroughputAbr::QualityFromThroughput`. -/
def QualityFromThroughput (s : ThroughputAbr) (throughput : ℚ) : Int :=
  qualityLoop s.bitrates_.length throughput (s.bitrates_.drop 1) 1

/-- The method `ThroughputAbr::GetQuality` in exact arithmetic: returns the quality, the
value written to `*pause` and the new state.  The product `throughput * kSafetyFactor`
is not rounded here; `GetQualityFl` is the method with the rounding of `double`. -/
def GetQuality (s : ThroughputAbr) (throughput : ℚ) : Int × ℚ × ThroughputAbr :=
  let quality := s.QualityFromThroughput (throughput * kSafetyFactor)
  let pause : ℚ :=
    if s.buffer_level_ + s.segment_duration_ > s.buffer_size_ then
      s.buffer_level_ + s.segment_duration_ - s.buffer_size_
    else 0
  let log_line := mkLogLine s.log_ s.buffer_level_ s.segment_duration_ throughput quality
    (vecAt s.bitrates_ quality) pause
  (quality, pause, { s with log_ := s.log_ ++ [log_line], pause := truncToInt pause })

/-- The method `ThroughputAbr::GetQuality` with the rounding `fl` of the arithmetic of
`double`: the constant `kSafetyFactor` is the `double` `fl (9/10)`, and the argument of
`QualityFromThroughput` is the rounded product `fl (throughput * fl (9/10))`.  Returns
the quality, the value written to `*pause` and the new state. -/
def GetQualityFl (fl : ℚ → ℚ) (s : ThroughputAbr) (throughput : ℚ) : Int × ℚ × ThroughputAbr :=
  let quality := s.QualityFromThroughput (fl (throughput * fl kSafetyFactor))
  let level := fl (s.buffer_level_ + s.segment_duration_)
  let pause : ℚ := if level > s.buffer_size_ then fl (level - s.buffer_size_) else 0
  let log_line := mkLogLineFl fl s.log_ s.buffer_level_ s.segment_duration_ throughput quality
    (vecAt s.bitrates_ quality) pause
  (quality, pause, { s with log_ := s.log_ ++ [log_line], pause := truncToInt pause })

/-- The method `ThroughputAbr::GetPause`. -/
def GetPause (s : ThroughputAbr) : Int :=
  s.pause

/-- The method `ThroughputAbr::GetBuffer`, which returns the level as an `int`. -/
def GetBuffer (s : ThroughputAbr) : Int :=
  truncToInt s.buffer_level_

/-- The method `ThroughputAbr::PreUpdate`. -/
def PreUpdate (s : ThroughputAbr) (_pause : ℚ) (_walltime : Nat) : ThroughputAbr :=
  let s1 := if s.buffer_level_ < 0 then { s with buffer_level_ := 0 } else s
  { s1 with startup := false, buffer_level_ := s1.buffer_level_ + s1.segment_duration_ }

end ThroughputAbr

/-! ## MpcAbr (mpc.h, mpc.cc) -/

/-- State of `MpcAbr` (with the `BaseAbr` members). -/
structure MpcAbr where
  buffer_size_ : ℚ
  startup : Bool
  pause : Int
  buffer_level_ : ℚ
  last_quality_ : Int
  segment_duration_ : ℚ
  bitrates_ : List ℚ
  log_ : List AbrLogLine
  estimate_throughput_ : ℚ
  estimate_error_ : ℚ
  past_errors_ : List ℚ

namespace MpcAbr

/-- The search depth `kSearchDepth`. -/
def kSearchDepth : Nat := 5

/-- The error window `kErrorWindow`. -/
def kErrorWindow : Nat := 5

/-- Constructor `MpcAbr(segment_duration, buffer_size, bitrates)`; the member
`pause` is left uninitialised by the source and is `0` here. -/
def create (segment_duration buffer_size : ℚ) (bitrates : List ℚ) : MpcAbr :=
  { buffer_size_ := buffer_size
    startup := true
    pause := 0
    buffer_level_ := 0
    last_quality_ := 0
    segment_duration_ := segment_duration
    bitrates_ := bitrates
    log_ := []
    estimate_throughput_ := 0
    estimate_error_ := 0
    past_errors_ := [] }

/-- The method `MpcAbr::Evaluate`, with `lambda = 1` and `mu = 3`. -/
def Evaluate (s : MpcAbr) (prev_quality quality : Int) (rebuffer : ℚ) : ℚ :=
  let lambda : ℚ := 1
  let mu : ℚ := 3
  let score := vecAt s.bitrates_ quality
  let score := score - lambda * |vecAt s.bitrates_ quality - vecAt s.bitrates_ prev_quality|
  let score := score - mu * rebuffer
  score

/-- The loop `best = 0.0; for (q = 0; q < size; ++q) { v = f(q); if (q == 0 || v > best) best = v; }`. -/
def bestLoop (f : Nat → ℚ) (size : Nat) : ℚ :=
  (List.range size).foldl (fun best q => if q = 0 ∨ f q > best then f q else best) 0

/-- The method `MpcAbr::Search`.  The first argument is `depth`; `--depth` on `0`
leaves a value that is not `> 0`, as it does on the source's `int`. -/
def Search (s : MpcAbr) : Nat → ℚ → ℚ → Int → Int → ℚ
  | 0, throughput, buffer_level, prev_quality, quality =>
    let buffer_level :=
      if buffer_level + s.segment_duration_ > s.buffer_size_ then
        s.buffer_size_ - s.segment_duration_
      else buffer_level
    let time := (vecAt s.bitrates_ quality * s.segment_duration_) / throughput
    let buffer_level := buffer_level - time
    let rebuffer : ℚ := if buffer_level < 0 then 0 + -buffer_level else 0
    s.Evaluate prev_quality quality rebuffer
  | depth + 1, throughput, buffer_level, prev_quality, quality =>
    let buffer_level :=
      if buffer_level + s.segment_duration_ > s.buffer_size_ then
        s.buffer_size_ - s.segment_duration_
      else buffer_level
    let time := (vecAt s.bitrates_ quality * s.segment_duration_) / throughput
    let buffer_level := buffer_level - time
    let rebuffer : ℚ := if buffer_level < 0 then 0 + -buffer_level else 0
    let buffer_level := if buffer_level < 0 then 0 else buffer_level
    let buffer_level := buffer_level + s.segment_duration_
    let value := s.Evaluate prev_quality quality rebuffer
    if depth > 0 then
      value + bestLoop (fun q => Search s depth throughput buffer_level quality (q : Int))
        s.bitrates_.length
    else value

/-- The root loop of `MpcAbr::GetQuality`: the pair `(best, quality)` after the loop. -/
def rootLoop (f : Nat → ℚ) (size : Nat) : ℚ × Int :=
  (List.range size).foldl
    (fun acc q => if q = 0 ∨ f q > acc.1 then (f q, (q : Int)) else acc) (0, 0)

/-- The method `MpcAbr::GetQuality`: returns the quality, the value written to
`*pause` and the new state. -/
def GetQuality (s : MpcAbr) (throughput : ℚ) : Int × ℚ × MpcAbr :=
  let tput_e := throughput / (1 + s.estimate_error_)
  let quality :=
    (rootLoop (fun q => s.Search kSearchDepth tput_e s.buffer_level_ s.last_quality_ (q : Int))
      s.bitrates_.length).2
  let pause : ℚ :=
    if s.buffer_level_ + s.segment_duration_ > s.buffer_size_ then
      s.buffer_level_ + s.segment_duration_ - s.buffer_size_
    else 0
  let log_line := mkLogLine s.log_ s.buffer_level_ s.segment_duration_ throughput quality
    (vecAt s.bitrates_ quality) pause
  (quality, pause,
    { s with
      last_quality_ := quality
      estimate_throughput_ := throughput
      log_ := s.log_ ++ [log_line]
      pause := truncToInt pause })

/-- The method `MpcAbr::GetPause`. -/
def GetPause (s : MpcAbr) : Int :=
  s.pause

/-- The method `MpcAbr::GetBuffer`, which returns the level as an `int`. -/
def GetBuffer (s : MpcAbr) : Int :=
  truncToInt s.buffer_level_

/-- The method `MpcAbr::PreUpdate`; `segment_size` is in bytes. -/
def PreUpdate (s : MpcAbr) (_pause : ℚ) (walltime : Nat) (segment_size : ℚ) : MpcAbr :=
  let throughput := 8 * segment_size / (walltime : ℚ)
  let error := |s.estimate_throughput_ - throughput| / throughput
  let past := s.past_errors_ ++ [error]
  let past := if past.length > kErrorWindow then past.drop 1 else past
  let estimate_error := past.foldl (fun acc e => if e > acc then e else acc) 0
  let buffer_level := if s.buffer_level_ < 0 then 0 else s.buffer_level_
  { s with
    past_errors_ := past
    estimate_error_ := estimate_error
    startup := false
    buffer_level_ := buffer_level + s.segment_duration_ }

end MpcAbr

/-! ## BolaAbr (bola.h, bola.cc) -/

/-- The record `SSIMBasedQuality` of abr.h. -/
structure SSIMBasedQuality where
  size : Nat
  reliable_size : Nat
  quality : Int
  required_frames : Nat

/-- The type `std::map<double, SSIMBasedQuality>`: its entries by ascending key. -/
abbrev SsimMap := List (ℚ × SSIMBasedQuality)

/-- The record `DownloadProgress` of bola.h. -/
structure DownloadProgress where
  in_progress : Bool
  quality : Int
  ssim : ℚ
  size : Nat
  downloaded : Nat
  reliable : Bool

/-- The constant `kNewDownload = {false, 0, 0.0, 0, 0, true}`. -/
def kNewDownload : DownloadProgress :=
  { in_progress := false, quality := 0, ssim := 0, size := 0, downloaded := 0, reliable := true }

/-- Subtraction on `size_t` (64 bit, wrapping). -/
def sizeSub (a b : Nat) : Nat :=
  (a % 2 ^ 64 + 2 ^ 64 - b % 2 ^ 64) % 2 ^ 64

/-- Lookup `ssim_map.at(k)`; `none` stands for the `std::out_of_range` it throws. -/
def mapAt (m : SsimMap) (k : ℚ) : Option SSIMBasedQuality :=
  (m.find? (fun e => e.1 == k)).map (fun e => e.2)

/-- Lookup `ssim_map.find(k)`: the entry the iterator points at and the entries before
it, nearest first (what repeated `--iter` visits).  `none` is `end()`. -/
def findIter (k : ℚ) : SsimMap → SsimMap → Option (SsimMap × (ℚ × SSIMBasedQuality))
  | [], _ => none
  | e :: rest, before => if e.1 = k then some (before, e) else findIter k rest (e :: before)

/-- State of `BolaAbr` (with the `BaseAbr` members). -/
structure BolaAbr where
  buffer_size_ : ℚ
  startup : Bool
  pause : Int
  buffer_level_ : ℚ
  last_quality_ : Int
  placeholder_ : ℚ
  vp_ : ℚ
  gp_ : ℚ
  segment_duration_ : ℚ
  ibr_safety_factor_target_ : ℚ
  ibr_safety_factor_ : ℚ
  bitrates_ : List ℚ
  utilities_ : List ℚ
  average_ssim_ : List ℚ
  log_ : List AbrLogLine

namespace BolaAbr

/-- The constant `kBufferLow = 10000`. -/
def kBufferLow : ℚ := 10000

/-- The constant `kMinThreshold = 2000`. -/
def kMinThreshold : ℚ := 2000

/-- The constant `kSafetyFactor = 0.9`. -/
def kSafetyFactor : ℚ := 9 / 10

/-- The constant `kIbrSafetyFactor = 0.5`. -/
def kIbrSafetyFactor : ℚ := 1 / 2

/-- Constructor `BolaAbr(segment_duration, buffer_size, bitrates, ssims)` for a
non-empty `ssims`, where the utilities are the average SSIMs.  With an empty `ssims`
the source takes `log(bitrates_[i] / bitrates_[0])`, which has no rational value:
that branch is outside the embedding and gives `none`.  The members `vp_` and `gp_` are
computed in exact arithmetic; `createWith` is the constructor on both branches with the
rounding of `double`.  The members `pause`, `ibr_safety_factor_` and
`ibr_safety_factor_target_` are left uninitialised by the source and are `0` here. -/
def create (segment_duration buffer_size : ℚ) (bitrates ssims : List ℚ) : Option BolaAbr :=
  if ssims.isEmpty then none
  else
    let utilities := ssims
    let alpha := (vecAt bitrates 0 * vecAt utilities 1 - vecAt bitrates 1 * vecAt utilities 0)
      / (vecAt bitrates 1 - vecAt bitrates 0)
    let buffer_target := buffer_size - segment_duration
    let minimum_target := kBufferLow + kMinThreshold * (bitrates.length : ℚ)
    let buffer_target := if buffer_target < minimum_target then minimum_target else buffer_target
    some
      { buffer_size_ := buffer_size
        startup := true
        pause := 0
        buffer_level_ := 0
        last_quality_ := -1
        placeholder_ := 0
        vp_ := (buffer_target - kBufferLow) / (utilities.getLastD 0 + alpha)
        gp_ := (utilities.getLastD 0 * kBufferLow + alpha * buffer_target)
          / (buffer_target - kBufferLow)
        segment_duration_ := segment_duration
        ibr_safety_factor_target_ := 0
        ibr_safety_factor_ := 0
        bitrates_ := bitrates
        utilities_ := utilities
        average_ssim_ := ssims
        log_ := [] }

/-- The method `BolaAbr::GetPause`. -/
def GetPause (s : BolaAbr) : Int :=
  s.pause

/-- The method `BolaAbr::GetBuffer`, which returns the level as an `int`. -/
def GetBuffer (s : BolaAbr) : Int :=
  truncToInt s.buffer_level_

/-- The method `BolaAbr::Score` in exact arithmetic (`ScoreFl` has the rounding of
`double`). -/
def Score (s : BolaAbr) (buffer_level size_bits util : ℚ) : ℚ :=
  (s.vp_ * (util + s.gp_) - buffer_level) / size_bits

/-- The method `BolaAbr::BufferLevelForZeroScore` in exact arithmetic
(`BufferLevelForZeroScoreFl` has the rounding of `double`). -/
def BufferLevelForZeroScore (s : BolaAbr) (utility : ℚ) : ℚ :=
  s.vp_ * (utility + s.gp_)

/-- The method `BolaAbr::MinBufferLevelForQuality` in exact arithmetic
(`MinBufferLevelForQualityFl` has the rounding of `double`). -/
def MinBufferLevelForQuality (s : BolaAbr) (quality : Int) : ℚ :=
  if quality = 0 then 0
  else
    let a := (vecAt s.bitrates_ (quality - 1) * vecAt s.utilities_ quality -
        vecAt s.bitrates_ quality * vecAt s.utilities_ (quality - 1))
      / (vecAt s.bitrates_ quality - vecAt s.bitrates_ (quality - 1))
    s.vp_ * (s.gp_ - a)

/-- The loop of `BolaAbr::QualityFromBufferLevel` over the entries in key order, in
exact arithmetic; the accumulator is `(best_ssim, score)`.  Two scores that differ by
less than the rounding error of `double` are compared here by their exact values;
`bufferLevelLoopFl` is the loop with the rounding of `double`. -/
def bufferLevelLoop (s : BolaAbr) (buffer_level : ℚ) (favor_quality : Int)
    (favor_ssim_penalty : ℚ) : SsimMap → ℚ × ℚ → ℚ × ℚ
  | [], acc => acc
  | ssim_entry :: rest, (best_ssim, score) =>
    let quality := ssim_entry.2.quality
    let ssim := ssim_entry.1
    let effective_ssim := if quality < favor_quality then ssim - favor_ssim_penalty else ssim
    let size_bits := (ssim_entry.2.size : ℚ) * 8
    let sc := s.Score buffer_level size_bits effective_ssim
    if best_ssim = 0 ∨ sc > score then
      bufferLevelLoop s buffer_level favor_quality favor_ssim_penalty rest (ssim, sc)
    else
      bufferLevelLoop s buffer_level favor_quality favor_ssim_penalty rest (best_ssim, score)

/-- The penalty `(utilities_.back() - utilities_.front()) / (utilities_.size() - 1)`. -/
def favorSsimPenalty (s : BolaAbr) : ℚ :=
  (s.utilities_.getLastD 0 - s.utilities_.headD 0) / ((s.utilities_.length - 1 : Nat) : ℚ)

/-- The method `BolaAbr::QualityFromBufferLevel` in exact arithmetic
(`QualityFromBufferLevelFl` has the rounding of `double`).  The test on `max_quality` is
commented out in the source, so the argument is not read. -/
def QualityFromBufferLevel (s : BolaAbr) (buffer_level : ℚ) (ssim_map : SsimMap)
    (_max_quality favor_quality : Int) : ℚ :=
  (bufferLevelLoop s buffer_level favor_quality s.favorSsimPenalty ssim_map (0, 0)).1

/-- The loop of the vector-based `BolaAbr::QualityFromThroughput`; `rest` holds
`bitrates_[i], bitrates_[i+1], ...`; `none` is the exception of `sizes_bits.at(i)`. -/
def throughputLoop (s : BolaAbr) (throughput : ℚ) (sizes_bits : List ℚ) :
    List ℚ → Nat → Option Int
  | [], _ => some ((s.bitrates_.length : Int) - 1)
  | r :: rest, i =>
    let rate? : Option ℚ :=
      if sizes_bits.isEmpty then some r
      else (sizes_bits.get? i).map (fun b => b / s.segment_duration_)
    match rate? with
    | none => none
    | some rate =>
      if rate > throughput then some ((i : Int) - 1)
      else throughputLoop s throughput sizes_bits rest (i + 1)

/-- The method `BolaAbr::QualityFromThroughput(double, const std::vector<double>&)`. -/
def QualityFromThroughput (s : BolaAbr) (throughput : ℚ) (sizes_bits : List ℚ) : Option Int :=
  throughputLoop s throughput sizes_bits (s.bitrates_.drop 1) 1

/-- The method `BolaAbr::SafeDownloadSizeBits`. -/
def SafeDownloadSizeBits (s : BolaAbr) (buffer_level throughput : ℚ) : ℚ :=
  throughput * s.ibr_safety_factor_ * buffer_level

/-- What the body of the progress loop of `BolaE` computes in its loop variable. -/
def adjustedEntry (progress : DownloadProgress) (ssim_entry : ℚ × SSIMBasedQuality) :
    ℚ × SSIMBasedQuality :=
  if ssim_entry.2.quality = progress.quality then
    if ssim_entry.1 ≥ progress.ssim then
      let size1 :=
        if !progress.reliable then sizeSub ssim_entry.2.size ssim_entry.2.reliable_size
        else ssim_entry.2.size
      if progress.downloaded ≥ size1 then (ssim_entry.1, { ssim_entry.2 with size := 1 })
      else (ssim_entry.1, { ssim_entry.2 with size := sizeSub size1 progress.downloaded })
    else ssim_entry
  else ssim_entry

/-- The progress loop `for (auto ssim_entry : ssim_map_copy) { ... }` of `BolaE`.  The
loop variable is declared `auto`, not `auto&`: every iteration works on a copy of the
element, and the assignments of the body reach that copy only.  The map is returned as
it was. -/
def progressLoop (progress : DownloadProgress) (ssim_map_copy : SsimMap) : SsimMap :=
  ssim_map_copy.foldl
    (fun the_map ssim_entry =>
      let _ssim_entry := adjustedEntry progress ssim_entry
      the_map)
    ssim_map_copy

/-- The loop `while (max_quality < size && throughput <= bitrates_[max_quality]) ++max_quality;`
of `BolaE`; `rest` holds `bitrates_[max_quality], ...`. -/
def maxQualityLoop (throughput : ℚ) : List ℚ → Int → Int
  | [], max_quality => max_quality
  | r :: rest, max_quality =>
    if throughput ≤ r then maxQualityLoop throughput rest (max_quality + 1) else max_quality

/-- The safe-size walk of `BolaE`: `while (iter != begin && cur_size > safe_size_bytes)`.
The state is `(ssim, quality, cur_size)`; the list holds the entries before `iter`,
nearest first. -/
def safeSizeWalk (safe_size_bytes : Nat) : ℚ × Int × Nat → SsimMap → ℚ × Int × Nat
  | cur, [] => cur
  | (ssim, quality, cur_size), e :: before =>
    if cur_size > safe_size_bytes then
      let new_size := e.2.size
      if new_size < cur_size then safeSizeWalk safe_size_bytes (e.1, e.2.quality, new_size) before
      else safeSizeWalk safe_size_bytes (ssim, quality, cur_size) before
    else (ssim, quality, cur_size)

/-- The block `if (!progress.in_progress) { ... }` that ends `BolaE`: the update of
`ibr_safety_factor_`, `placeholder_` and `last_quality_` for the chosen `ssim` and
`quality`.  Returns the value left in `*pause` and the new state; the pair
`(placeholder_, *pause)` is carried through the two adjustments. -/
def newDownloadUpdate (s : BolaAbr) (buffer_level ssim : ℚ) (quality : Int) : ℚ × BolaAbr :=
  let ibr := s.ibr_safety_factor_ * kSafetyFactor
  let ibr := if ibr < s.ibr_safety_factor_target_ then s.ibr_safety_factor_target_ else ibr
  let level := s.BufferLevelForZeroScore ssim
  let level := if level < kBufferLow then kBufferLow else level
  let pp : ℚ × ℚ :=
    if buffer_level + s.placeholder_ > level then
      let placeholder := level - buffer_level
      if placeholder < 0 then (0, -placeholder) else (placeholder, 0)
    else (s.placeholder_, 0)
  let overrun := s.buffer_level_ - pp.2 + s.segment_duration_ - s.buffer_size_
  let pp : ℚ × ℚ := if overrun > 0 then (pp.1 + overrun, pp.2 + overrun) else pp
  (pp.2, { s with ibr_safety_factor_ := ibr, placeholder_ := pp.1, last_quality_ := quality })

/-- The map a call of `BolaE` works on: `ssim_map_copy` after the progress loop when a
download is in progress, `ssim_map_par` otherwise. -/
def workingMap (progress : DownloadProgress) (ssim_map_par : SsimMap) : SsimMap :=
  let ssim_map_copy : SsimMap :=
    if progress.in_progress then progressLoop progress ssim_map_par else []
  if progress.in_progress then ssim_map_copy else ssim_map_par

/-- The map-based `BolaAbr::BolaE`.  Returns the ssim, the value written to `*pause`
and the new state.  In the initialisation branch `assert(!progress.in_progress)` is
taken as active, and `exit(1)` follows when no entry has the initial quality. -/
def BolaE (s : BolaAbr) (buffer_level throughput : ℚ) (ssim_map_par : SsimMap)
    (_retry : Int) (progress : DownloadProgress) : Option (ℚ × ℚ × BolaAbr) :=
  let ssim_map := workingMap progress ssim_map_par
  if s.last_quality_ = -1 then
    if progress.in_progress then none
    else
      let target :=
        if s.buffer_size_ > s.segment_duration_ then
          let t := s.segment_duration_ / (s.buffer_size_ - s.segment_duration_)
          if t < kIbrSafetyFactor then kIbrSafetyFactor
          else if t > kSafetyFactor then kSafetyFactor
          else t
        else kSafetyFactor
      match s.QualityFromThroughput (kSafetyFactor * throughput) [] with
      | none => none
      | some quality =>
        let s1 : BolaAbr :=
          { s with
            ibr_safety_factor_ := 1
            ibr_safety_factor_target_ := target
            placeholder_ := s.MinBufferLevelForQuality quality
            last_quality_ := quality }
        match ssim_map.reverse.find? (fun e => e.2.quality == quality) with
        | some e => some (e.1, 0, s1)
        | none => none
  else
    let max_quality := maxQualityLoop throughput s.bitrates_ 0
    let max_quality := if s.last_quality_ > max_quality then s.last_quality_ else max_quality
    let ssim := s.QualityFromBufferLevel (buffer_level + s.placeholder_) ssim_map max_quality
      s.last_quality_
    match findIter ssim ssim_map [] with
    | none => none
    | some (before, entry) =>
      let quality := entry.2.quality
      let safety_buffer_level :=
        if buffer_level > s.buffer_size_ - s.segment_duration_ then
          s.buffer_size_ - s.segment_duration_
        else buffer_level
      let safe_size_bytes := toSizeT (s.SafeDownloadSizeBits safety_buffer_level throughput / 8)
      let walked := safeSizeWalk safe_size_bytes (ssim, quality, entry.2.size) before
      let ssim := walked.1
      let quality := walked.2.1
      if !progress.in_progress then
        let updated := s.newDownloadUpdate buffer_level ssim quality
        some (ssim, updated.1, updated.2)
      else some (ssim, 0, s)

/-- The method `BolaAbr::GetQuality`: returns the ssim, the value written to `*pause`
and the new state. -/
def GetQuality (s : BolaAbr) (throughput : ℚ) (retry : Int) (ssim_map : SsimMap) :
    Option (ℚ × ℚ × BolaAbr) :=
  match s.BolaE s.buffer_level_ throughput ssim_map retry kNewDownload with
  | none => none
  | some (ssim, pause, s1) =>
    match mapAt ssim_map ssim with
    | none => none
    | some e =>
      let quality := e.quality
      let log_line := mkLogLine s1.log_ s1.buffer_level_ s1.segment_duration_ throughput quality
        (vecAt s1.bitrates_ quality) pause
      some (ssim, pause, { s1 with log_ := s1.log_ ++ [log_line], pause := truncToInt pause })

/-- The method `BolaAbr::PreUpdate`; `none` is `exit(-4)`. -/
def PreUpdate (s : BolaAbr) (_pause : ℚ) (_walltime : Nat) (retry : Int) : Option BolaAbr :=
  if s.buffer_level_ < 0 ∧ s.buffer_level_ < -100000 then none
  else
    let buffer_level := if s.buffer_level_ < 0 then 0 else s.buffer_level_
    let buffer_level := if retry = 0 then buffer_level + s.segment_duration_ else buffer_level
    some { s with startup := false, buffer_level_ := buffer_level }

end BolaAbr

/-! ## Dispatcher (abr.cc)

The values `tp`, `time` and `segment_size` are what the transport returns from
`AddThroughput()`, `GetTime(true)` and the two `GetSegmentSize` calls. -/

namespace Dispatcher

end Dispatcher

/-! ## The policy behind `Abr` (abr.h)

`Abr::GetQuality(retry, ssim_map)` calls `abr_->accept(disp, GQ, retry, ssim_map)`; each
subclass forwards to the `Dispatcher::GetQuality` overload for its own type. -/

/-- The class `BaseAbr` with its three subclasses. -/
inductive BaseAbr where
  | bola (b : BolaAbr)
  | tput (t : ThroughputAbr)
  | mpc (m : MpcAbr)

namespace BaseAbr

/-- The member `buffer_size_`. -/
def buffer_size_ : BaseAbr → ℚ
  | bola b => b.buffer_size_
  | tput t => t.buffer_size_
  | mpc m => m.buffer_size_

/-- The member `buffer_level_` of the subclass. -/
def buffer_level_ : BaseAbr → ℚ
  | bola b => b.buffer_level_
  | tput t => t.buffer_level_
  | mpc m => m.buffer_level_

/-- The member `segment_duration_` of the subclass. -/
def segment_duration_ : BaseAbr → ℚ
  | bola b => b.segment_duration_
  | tput t => t.segment_duration_
  | mpc m => m.segment_duration_

end BaseAbr

/-! ## BPPMovingAverage (bola.h, bola.cc)

`std::pow(0.5, x)` has no rational value in general; the functions that call it take
it as the parameter `pow_half`. -/

/-- State of `BPPMovingAverage`. -/
structure BPPMovingAverage where
  throughput_ : ℚ
  cumulative_time_ : ℚ
  cumulative_size_ : Nat
  warmed_up_1_ : Bool
  warmed_up_2_ : Bool

namespace BPPMovingAverage

/-- The constant `kHalfLife = 500`. -/
def kHalfLife : ℚ := 500

/-- The constant `alpha = 0.9`. -/
def alpha : ℚ := 9 / 10

/-- The constructor `BPPMovingAverage()`, which is also the state `Reset()` leaves. -/
def create : BPPMovingAverage :=
  { throughput_ := 0, cumulative_time_ := 0, cumulative_size_ := 0,
    warmed_up_1_ := false, warmed_up_2_ := false }

/-- The method `BPPMovingAverage::AddMeasurement`; `size_diff * 8` is computed on
`size_t`.  For a `time_diff` of zero the quotient is an infinity or NaN in C++, which
is not equal to `0`, and it is `0` here, so that the state after such a measurement is
not the one of the source; the statements about the state after a measurement keep
`time_diff` away from zero. -/
def AddMeasurement (s : BPPMovingAverage) (received_bytes : Nat) (time : ℚ) : BPPMovingAverage :=
  let time_diff := time - s.cumulative_time_
  let size_diff := sizeSub received_bytes s.cumulative_size_
  let throughput : ℚ := (((size_diff * 8) % 2 ^ 64 : Nat) : ℚ) / time_diff
  if s.warmed_up_1_ = false ∧ throughput = 0 then { s with warmed_up_1_ := true }
  else if time_diff < 0 then { s with warmed_up_1_ := true }
  else
    let smoothed := alpha * s.throughput_ + (1 - alpha) * throughput
    { s with
      warmed_up_1_ := true
      throughput_ := if s.warmed_up_2_ = false then throughput else smoothed
      warmed_up_2_ := true
      cumulative_time_ := time
      cumulative_size_ := received_bytes }

/-- The method `BPPMovingAverage::GetThroughput`; `pow_half x` stands for
`std::pow(0.5, x)`. -/
def GetThroughput (pow_half : ℚ → ℚ) (s : BPPMovingAverage) : ℚ :=
  if s.cumulative_time_ ≤ 0 then 0
  else
    let zero_factor := 1 - pow_half (s.cumulative_time_ / kHalfLife)
    s.throughput_ / zero_factor

end BPPMovingAverage

/-! ## The vector-based overloads of `BolaE` (bola.cc) -/

/-- Assignment `ssim_map[k] = v` on a `std::map`: the entry is inserted at its place in
key order, or replaces the entry of the same key. -/
def mapInsert (k : ℚ) (v : SSIMBasedQuality) : SsimMap → SsimMap
  | [] => [(k, v)]
  | e :: rest =>
    if k < e.1 then (k, v) :: e :: rest
    else if k = e.1 then (k, v) :: rest
    else e :: mapInsert k v rest

/-- Read access `ssim_map[k]` on a non-const `std::map`: the entry of the key, or a
value-initialised one when the key is absent. -/
def mapIndex (m : SsimMap) (k : ℚ) : SSIMBasedQuality :=
  (mapAt m k).getD { size := 0, reliable_size := 0, quality := 0, required_frames := 0 }

namespace BolaAbr

/-- The loop `while (ssim_map.find(ssim) != ssim_map.end()) ssim += 0.000000001;`.  The
first argument bounds the number of rounds; one more than the size of the map is enough,
since every round meets another key of the map. -/
def freshKey (ssim_map : SsimMap) : Nat → ℚ → ℚ
  | 0, ssim => ssim
  | fuel + 1, ssim =>
    if (mapAt ssim_map ssim).isSome then freshKey ssim_map fuel (ssim + 1 / 1000000000)
    else ssim

/-- The loop `for (unsigned q = 0; q < utilities_.size(); ++q)` that builds the map of
the vector-based `BolaE`; the list holds `utilities_[q], utilities_[q+1], ...`.  The
member `reliable_size` of the entry is left uninitialised by the source and is `0`
here. -/
def fillLoop (s : BolaAbr) (sizes_bits : List ℚ) : List ℚ → Nat → SsimMap → SsimMap
  | [], _, ssim_map => ssim_map
  | utility :: rest, q, ssim_map =>
    let ssim := freshKey ssim_map (ssim_map.length + 1) utility
    let bits : ℚ :=
      if sizes_bits.isEmpty then vecAt s.bitrates_ (q : Int) * s.segment_duration_
      else vecAt sizes_bits (q : Int)
    let sq : SSIMBasedQuality :=
      { size := toSizeT (bits / 8), reliable_size := 0, quality := (q : Int),
        required_frames := 100 }
    fillLoop s sizes_bits rest (q + 1) (mapInsert ssim sq ssim_map)

end BolaAbr

/-! ## The abandonment monitor (quic_client_base.cc) -/

/-- Modelled from the spec: the declaration of `DownloadConfig` (quic_client_base.h) is
not among the sources.  The members are those the specification lists in section 3 and
the functions below read and write; the pointers to the client and to the adaptation
set are left out, and the policy behind `abr_instance` is passed next to the record.
`size` is taken as a `size_t` and `buffer_occ`, `quality`, `segment_duration` as `int`,
the types of the values the client initialises them with. -/
structure DownloadConfig where
  abr : String
  size : Nat
  fallback_size : Nat
  buffer_occ : Int
  quality : Int
  bitrates : List ℚ
  reliable : Bool
  segment_duration : Int
  segment_no : Nat
  ssim_map : SsimMap
  ret__kept : Bool
  ret__quality : Int
  ret__ssim : ℚ
  ret__pause : ℚ

/-- The constant `GRACE_TIME_THRESHOLD = 500`. -/
def GRACE_TIME_THRESHOLD : Int := 500

/-- The constant `kBandwidthSafetyFactor = 0.9`. -/
def kBandwidthSafetyFactor : ℚ := 9 / 10

/-- Conversion `int -> size_t` (sign extension to 64 bits). -/
def intToSizeT (i : Int) : Nat :=
  (i % 2 ^ 64).toNat

/-- Conversion `int -> uint32_t`. -/
def intToUInt32 (i : Int) : Nat :=
  (i % 2 ^ 32).toNat

namespace QuicClientBase

/-- The method `QuicClientBase::BPPShouldAbandon`.  The second argument is the member
`bpp_moving_average_`.  `remaining_buffer` is a `uint32_t`.  `none` is the end of the
process inside `BolaE`.  Returns the result, `bpp_moving_average_`, the policy and the
record. -/
def BPPShouldAbandon (pow_half : ℚ → ℚ) (bpp_moving_average_ : BPPMovingAverage)
    (bola : BolaAbr) (received : Nat) (time : Int) (dc : DownloadConfig) :
    Option (Bool × BPPMovingAverage × BolaAbr × DownloadConfig) :=
  let avg := bpp_moving_average_.AddMeasurement received (time : ℚ)
  if time > GRACE_TIME_THRESHOLD ∧ received < dc.size then
    let measuredBandwidthInKbps := avg.GetThroughput pow_half
    if measuredBandwidthInKbps = 0 then some (false, avg, bola, dc)
    else
      let estimatedRemainingDownloadTime : ℚ :=
        (((sizeSub dc.size received * 8) % 2 ^ 64 : Nat) : ℚ) / measuredBandwidthInKbps
      let remaining_buffer : Nat := intToUInt32 (dc.buffer_occ - time)
      if estimatedRemainingDownloadTime < (remaining_buffer : ℚ) then some (false, avg, bola, dc)
      else if dc.quality > 0 then
        let dp : DownloadProgress :=
          { in_progress := true, quality := dc.quality, ssim := 0, size := dc.size,
            downloaded := received, reliable := dc.reliable }
        match bola.BolaE (remaining_buffer : ℚ)
            (measuredBandwidthInKbps * kBandwidthSafetyFactor) dc.ssim_map 0 dp with
        | none => none
        | some (ssim, pause, bola2) =>
          let ssim_q := mapIndex dc.ssim_map ssim
          let dc2 := { dc with ret__ssim := ssim, ret__pause := pause,
                               ret__quality := ssim_q.quality }
          if ssim_q.quality < dc.quality then some (true, avg, bola2, dc2)
          else if dc.reliable = false ∧ ssim_q.quality = dc.quality ∧ received ≥ ssim_q.size then
            some (true, avg, bola2, { dc2 with ret__kept := true })
          else some (false, avg, bola2, dc2)
      else some (false, avg, bola, dc)
  else some (false, avg, bola, dc)

end QuicClientBase

/-! ## Strings and integer conversions (quic_simple_client_bin.cc, quic_simple_server_stream.cc)

A `std::string` is embedded as the list of its characters.  The library functions the
code calls (`std::to_string`, `std::stoi`, `std::getline`, `find`, `substr`, `replace`)
are embedded with the behaviour the C++ standard gives them; an exception they throw is
`none`. -/

/-- Conversion of an unsigned value to `int` (32 bit, two's complement). -/
def toInt32 (n : Nat) : Int :=
  (((n + 2 ^ 31) % 2 ^ 32 : Nat) : Int) - 2 ^ 31

/-- Reduction of an integer to `int` (32 bit, two's complement).  Signed overflow is
undefined in C++; the compiled arithmetic wraps, and the `int` operations of the frame
orders and of the loss accounting are embedded with this reduction. -/
def wrapInt (x : Int) : Int :=
  (x + 2 ^ 31) % 2 ^ 32 - 2 ^ 31

/-- The function `std::to_string` on a non-negative value: its decimal digits. -/
def natToString (n : Nat) : List Char :=
  if n = 0 then ['0'] else (Nat.digits 10 n).reverse.map (fun d => Char.ofNat (48 + d))

/-- The function `std::to_string(int)`. -/
def intToString (i : Int) : List Char :=
  if i < 0 then '-' :: natToString i.natAbs else natToString i.toNat

/-- The predicate `isspace` of the C locale. -/
def isSpace (c : Char) : Bool :=
  c.toNat = 32 ∨ (9 ≤ c.toNat ∧ c.toNat ≤ 13)

/-- The value `strtol` gives a character as a digit, whatever the base. -/
def digitValue (c : Char) : Option Nat :=
  if 48 ≤ c.toNat ∧ c.toNat ≤ 57 then some (c.toNat - 48)
  else if 97 ≤ c.toNat ∧ c.toNat ≤ 122 then some (c.toNat - 87)
  else if 65 ≤ c.toNat ∧ c.toNat ≤ 90 then some (c.toNat - 55)
  else none

/-- Whether a character is a digit of the given base. -/
def isDigitOf (base : Nat) (c : Char) : Bool :=
  match digitValue c with
  | some d => d < base
  | none => false

/-- The call `std::stoi(s, nullptr, 0)`: leading white space is skipped, a sign is
accepted, the base is 16 after `0x`, 8 after a leading `0` and 10 otherwise, and the
longest run of digits is converted.  The result `none` stands for
`std::invalid_argument` (no digit) and for `std::out_of_range` (the value does not fit
`int`). -/
def stoi (s : List Char) : Option Int :=
  let s1 := s.dropWhile isSpace
  let neg : Bool := s1.head? = some '-'
  let s2 := if s1.head? = some '-' ∨ s1.head? = some '+' then s1.tail else s1
  let hex : Bool :=
    match s2 with
    | c0 :: cx :: ch :: _ => c0 = '0' ∧ (cx = 'x' ∨ cx = 'X') ∧ isDigitOf 16 ch
    | _ => false
  let base : Nat := if hex then 16 else if s2.head? = some '0' then 8 else 10
  let s3 := if hex then s2.drop 2 else s2
  let ds := s3.takeWhile (isDigitOf base)
  if ds = [] then none
  else
    let v : Nat := ds.foldl (fun acc c => acc * base + (digitValue c).getD 0) 0
    let r : Int := if neg then -(v : Int) else (v : Int)
    if r < -2147483648 ∨ 2147483647 < r then none else some r

/-- The pieces read by `while (std::getline(iss, r, ','))`: the text is cut at every
comma, and a last piece is read when characters remain after the last comma.  The
second argument holds, in reverse, the characters read for the current piece. -/
def getlineLoop : List Char → List Char → List (List Char)
  | [], cur => if cur = [] then [] else [cur.reverse]
  | c :: rest, cur =>
    if c = ',' then cur.reverse :: getlineLoop rest [] else getlineLoop rest (c :: cur)

/-- The call `s.find(c)`: the index of the first occurrence, `npos` when there is
none. -/
def findSizeT (c : Char) (s : List Char) : Nat :=
  if c ∈ s then s.indexOf c else 2 ^ 64 - 1

/-- The call `s.substr(pos, count)`; `none` stands for `std::out_of_range`. -/
def substr (s : List Char) (pos count : Nat) : Option (List Char) :=
  if s.length < pos then none else some ((s.drop pos).take count)

/-- The call `s.substr(pos)`; `none` stands for `std::out_of_range`. -/
def substrFrom (s : List Char) (pos : Nat) : Option (List Char) :=
  if s.length < pos then none else some (s.drop pos)

/-- The call `s.replace(pos, len, str, subpos, sublen)`: the characters `[pos, pos+len)`
of `s`, clamped to `s`, are replaced by the characters `[subpos, subpos+sublen)` of
`str`, clamped to `str`; `none` stands for `std::out_of_range` (`pos > s.size()` or
`subpos > str.size()`). -/
def stringReplace (s : List Char) (pos len : Nat) (str : List Char) (subpos sublen : Nat) :
    Option (List Char) :=
  if s.length < pos ∨ str.length < subpos then none
  else some (s.take pos ++ (str.drop subpos).take sublen ++
    s.drop (pos + min len (s.length - pos)))

/-! ## Frame orders and splicing (quic_simple_client_bin.cc) -/

/-- The record `frame_order`. -/
structure frame_order where
  to_st : Int
  to_len : Int
  from_st : Int
  from_len : Int

/-- The body of the loop of `append_frame_order` and of the multirange loop of the
server: the two numbers of a piece `r`, that is `std::stoi(r.substr(0, sep))` and
`std::stoi(r.substr(sep + 1))` for `int sep = r.find("-")`. -/
def parseRange (r : List Char) : Option (Int × Int) := do
  let sep := toInt32 (findSizeT '-' r)
  let s1 ← substr r 0 (intToSizeT sep)
  let v1 ← stoi s1
  let s2 ← substrFrom r (intToSizeT (wrapInt (sep + 1)))
  let v2 ← stoi s2
  pure (v1, v2)

/-- The loop of `append_frame_order` over the pieces of the range list; `st`, `en`,
`len` and `idx` are `int`. -/
def appendLoop (offset : Int) : List (List Char) → Int → List frame_order →
    Option (List frame_order)
  | [], _, fo => some fo
  | r :: rest, idx, fo =>
    (parseRange r).bind (fun v =>
      let st := wrapInt (v.1 - offset)
      let en := wrapInt (v.2 - offset)
      let len := wrapInt (wrapInt (en - st) + 1)
      appendLoop offset rest (wrapInt (idx + len))
        (fo ++ [{ to_st := st, to_len := len, from_st := idx, from_len := len }]))

/-- The function `append_frame_order`; the vector `*fo` is passed in and returned. -/
def append_frame_order (range : List Char) (offset : Int) (fo : List frame_order) :
    Option (List frame_order) :=
  appendLoop offset (getlineLoop range []) 0 fo

/-- The function `fill_segment_body`; the new `segment_body` is returned. -/
def fill_segment_body (segment_body response_body : List Char) :
    List frame_order → Option (List Char)
  | [] => some segment_body
  | it :: rest =>
    match stringReplace segment_body (intToSizeT it.to_st) (intToSizeT it.to_len)
        response_body (intToSizeT it.from_st) (intToSizeT it.from_len) with
    | none => none
    | some b => fill_segment_body b response_body rest

/-! ## The multirange response of the server (quic_simple_server_stream.cc) -/

/-- Modelled from the spec: the record `FrameTiming{ arrival_time, length, was_lost }`
kept per stream offset.  The arrival time is not read by the code embedded here and is
left out; `length` is read into an `int`. -/
structure FrameTiming where
  length : Int
  was_lost : Bool

/-- The loop `while (rem_loss > 0)` of `generate_loss_information`, started at the
iterator `it`; the list holds the frame ranges from `it` on, and `none` stands for the
dereference of `frames_order.end()`.  All the variables are `int`.  The result is the
state the loop leaves: the two texts, the final `rem_loss` and the frame ranges from the
final iterator on (`[]` for `frames_order.end()`). -/
def lossWhile (offset loss_pos : Int) :
    List frame_order → Int → List Char → List Char →
      Option (List Char × List Char × Int × List frame_order)
  | [], rem_loss, hole_range, loss_report =>
    if rem_loss > 0 then none else some (hole_range, loss_report, rem_loss, [])
  | it :: rest, rem_loss, hole_range, loss_report =>
    if rem_loss > 0 then
      let video_frame_range_end := wrapInt (it.from_st + it.from_len)
      let loss_offset_in_request := if loss_pos > it.from_st then loss_pos else it.from_st
      let possible_loss_in_range := wrapInt (video_frame_range_end - loss_offset_in_request)
      let actual_loss_in_range := min rem_loss possible_loss_in_range
      let loss_offset_in_range := wrapInt (loss_offset_in_request - it.from_st)
      let loss_offset_in_output := wrapInt (wrapInt (offset + it.to_st) + loss_offset_in_range)
      lossWhile offset loss_pos rest (wrapInt (rem_loss - actual_loss_in_range))
        (hole_range ++ (intToString loss_offset_in_output ++ '-' ::
          intToString (wrapInt (wrapInt (loss_offset_in_output + actual_loss_in_range) - 1))
            ++ [',']))
        (loss_report ++ (' ' :: intToString loss_offset_in_output ++ ',' ::
          intToString actual_loss_in_range))
    else some (hole_range, loss_report, rem_loss, it :: rest)

/-- The loop over `frames_order` of `generate_loss_information` for one lost frame: the
first frame range that contains `loss_pos` starts the inner loop, and the loop is left
after it (`break`), with the two texts the inner loop has written. -/
def lossFor (offset loss_pos loss_len : Int) :
    List frame_order → List Char → List Char → Option (List Char × List Char)
  | [], hole_range, loss_report => some (hole_range, loss_report)
  | it :: rest, hole_range, loss_report =>
    if it.from_st ≤ loss_pos ∧ loss_pos < wrapInt (it.from_st + it.from_len) then
      (lossWhile offset loss_pos (it :: rest) loss_len hole_range loss_report).map
        (fun out => (out.1, out.2.1))
    else lossFor offset loss_pos loss_len rest hole_range loss_report

/-- The loop over `response_timings` of `generate_loss_information`. -/
def lossFrames (first_frame_offset : Nat) (offset : Int) (frames_order : List frame_order) :
    List (Nat × FrameTiming) → List Char → List Char → Int →
      Option (List Char × List Char × Int)
  | [], hole_range, loss_report, loss_size => some (hole_range, loss_report, loss_size)
  | e :: rest, hole_range, loss_report, loss_size =>
    if e.2.was_lost = true then
      let loss_pos := toInt32 (sizeSub e.1 first_frame_offset)
      let loss_len := wrapInt e.2.length
      match lossFor offset loss_pos loss_len frames_order hole_range loss_report with
      | none => none
      | some (hole_range2, loss_report2) =>
        lossFrames first_frame_offset offset frames_order rest hole_range2 loss_report2
          (wrapInt (loss_size + loss_len))
    else
      lossFrames first_frame_offset offset frames_order rest hole_range loss_report loss_size

/-- The call `s.clear()`. -/
def stringClear (_s : List Char) : List Char :=
  []

/-- The function `generate_loss_information`.  The map `response_timings` is the list of
its entries by ascending stream offset; the three output variables are passed in with
their previous contents and returned.  The result `none` stands for the dereference of
`begin()` of an empty map and of `frames_order.end()`. -/
def generate_loss_information (response_timings : List (Nat × FrameTiming)) (offset : Int)
    (frames_order : List frame_order) (hole_range _loss_report : List Char)
    (_loss_size : Int) : Option (List Char × List Char × Int) :=
  match response_timings with
  | [] => none
  | quic_frame :: _ =>
    let first_frame_offset := quic_frame.1
    let hole_range := stringClear hole_range
    let loss_report := ['[', 'l', 'o', 's', 's', ']']
    let loss_size := 0
    match lossFrames first_frame_offset offset frames_order response_timings
        hole_range loss_report loss_size with
    | none => none
    | some (hole_range2, loss_report2, loss_size2) =>
      some (if hole_range2 ≠ [] then hole_range2.dropLast else hole_range2,
        loss_report2, loss_size2)

/-! ## The `no_drop` reshape of the SSIM maps (quic_simple_client_bin.cc) -/

/-- The loop over `segment_ssim_map.rbegin() .. rend()` of the `no_drop` reshape; the
first argument holds the entries in that order.  The result `none` stands for an access
to `temp_map` outside its bounds. -/
def reshapeLoop : List (ℚ × SSIMBasedQuality) → List (ℚ × SSIMBasedQuality) →
    Option (List (ℚ × SSIMBasedQuality))
  | [], temp_map => some temp_map
  | it :: rest, temp_map =>
    if 0 ≤ it.2.quality ∧ it.2.quality.toNat < temp_map.length then
      if (temp_map.getD it.2.quality.toNat
            (0, { size := 0, reliable_size := 0, quality := 0, required_frames := 0
              })).2.required_frames < it.2.required_frames then
        reshapeLoop rest (temp_map.set it.2.quality.toNat (it.1, it.2))
      else reshapeLoop rest temp_map
    else none

/-- The `no_drop` reshape of one segment's SSIM map: `temp_map` starts with
`bitrates.size()` value-initialised pairs, takes the entries of the map from the highest
key down, and is inserted into the cleared map. -/
def noDropReshape (bitrates_size : Nat) (segment_ssim_map : SsimMap) : Option SsimMap :=
  match reshapeLoop segment_ssim_map.reverse
      (List.replicate bitrates_size
        (0, { size := 0, reliable_size := 0, quality := 0, required_frames := 0 })) with
  | none => none
  | some temp_map =>
    some (temp_map.foldl (fun m temp_entry => mapInsert temp_entry.1 temp_entry.2 m) [])

/-- The function `check_404`.  The header block is the list of its `(key, value)`
pairs, and `find` yields the first pair of the key. -/
def check_404 (shb : List (String × String)) (keep : Bool) : Except Int Unit :=
  let die : Bool := false
  let status := shb.find? (fun e => e.1 == ":status")
  let die : Bool :=
    match status with
    | some st => if st.2 = "404" then true else die
    | none => if keep = true then true else die
  if die = true then Except.error (-1) else Except.ok ()

/-- The method `BolaAbr::PreUpdate` with its exit code: `Except.error (-4)` is
`exit(-4)`. -/
def BolaAbr.PreUpdateCode (s : BolaAbr) (_pause : ℚ) (_walltime : Nat) (retry : Int) :
    Except Int BolaAbr :=
  if s.buffer_level_ < 0 ∧ s.buffer_level_ < -100000 then Except.error (-4)
  else
    let buffer_level := if s.buffer_level_ < 0 then 0 else s.buffer_level_
    let buffer_level := if retry = 0 then buffer_level + s.segment_duration_ else buffer_level
    Except.ok { s with startup := false, buffer_level_ := buffer_level }

/-! ## Sub-segment timings (quic_spdy_client_base.cc) -/

/-- Modelled from the spec: the record
`SubSegmentTiming{ throughput, segment_size, received_size, time, time_rough }`, whose
declaration is not among the sources.  The members are taken as unsigned integers, as
the casts `(double) i.time_` and `(uint32_t) ... segment_size_` of the code suggest. -/
structure SubSegmentTiming where
  throughput_ : Nat
  segment_size_ : Nat
  received_size_ : Nat
  time_ : Nat
  time_rough_ : Nat

/-- The end of `QuicSpdyClientBase::SendRequestAndWaitForResponse`, after the frame
timings have been summed up: `time_rough` is the wall-clock duration in ms, `measured`
the value of `(latest - earliest).ToMilliseconds()`, `received_size` the sum of the
lengths of the frames that were not lost, `body_size` the value of
`latest_response_body_.size()`.  The result `none` stands for the division by a
duration of zero. -/
def recordTiming (fine_ : Bool) (time_rough measured received_size body_size : Nat) :
    Option SubSegmentTiming :=
  let time_ := measured
  let time_rough_ := if time_rough = 0 then 1 else time_rough
  if fine_ = false then
    let time_ := time_rough
    if time_ = 0 then none
    else
      some { throughput_ := (body_size * 8) % 2 ^ 64 / time_, segment_size_ := body_size,
             received_size_ := received_size, time_ := time_, time_rough_ := time_rough_ }
  else
    let time_ := if time_ = 0 then 1 else time_
    if time_ = 0 then none
    else
      some { throughput_ := (received_size * 8) % 2 ^ 64 / time_, segment_size_ := body_size,
             received_size_ := received_size, time_ := time_, time_rough_ := time_rough_ }

/-! ## BolaAbr in the arithmetic of `double` (bola.cc)

The constructor on both of its branches and the methods that score a buffer level, with
the rounding `fl` of every result of the arithmetic of `double`; `log` stands for
`std::log`. -/

namespace BolaAbr

/-- The utilities the constructor derives: `log(bitrates_[i] / bitrates_[0])` for every
bitrate when `ssims` is empty, and `ssims` otherwise. -/
def utilitiesOf (fl log : ℚ → ℚ) (bitrates ssims : List ℚ) : List ℚ :=
  if ssims.isEmpty then bitrates.map (fun r => log (fl (r / vecAt bitrates 0))) else ssims

/-- The local `alpha` of the constructor. -/
def alphaOf (fl : ℚ → ℚ) (bitrates utilities : List ℚ) : ℚ :=
  fl (fl (fl (vecAt bitrates 0 * vecAt utilities 1) - fl (vecAt bitrates 1 * vecAt utilities 0))
    / fl (vecAt bitrates 1 - vecAt bitrates 0))

/-- The local `buffer_target` of the constructor, after the comparison with
`minimum_target`. -/
def bufferTargetOf (fl : ℚ → ℚ) (segment_duration buffer_size : ℚ) (bitrates : List ℚ) : ℚ :=
  let buffer_target := fl (buffer_size - segment_duration)
  let minimum_target := fl (kBufferLow + fl (kMinThreshold * fl (bitrates.length : ℚ)))
  if buffer_target < minimum_target then minimum_target else buffer_target

/-- Constructor `BolaAbr(segment_duration, buffer_size, bitrates, ssims)` on both
branches.  The members `pause`, `ibr_safety_factor_` and `ibr_safety_factor_target_` are
left uninitialised by the source and are `0` here. -/
def createWith (fl log : ℚ → ℚ) (segment_duration buffer_size : ℚ) (bitrates ssims : List ℚ) :
    BolaAbr :=
  let utilities := utilitiesOf fl log bitrates ssims
  let alpha := alphaOf fl bitrates utilities
  let buffer_target := bufferTargetOf fl segment_duration buffer_size bitrates
  { buffer_size_ := buffer_size
    startup := true
    pause := 0
    buffer_level_ := 0
    last_quality_ := -1
    placeholder_ := 0
    vp_ := fl (fl (buffer_target - kBufferLow) / fl (utilities.getLastD 0 + alpha))
    gp_ := fl (fl (fl (utilities.getLastD 0 * kBufferLow) + fl (alpha * buffer_target))
      / fl (buffer_target - kBufferLow))
    segment_duration_ := segment_duration
    ibr_safety_factor_target_ := 0
    ibr_safety_factor_ := 0
    bitrates_ := bitrates
    utilities_ := utilities
    average_ssim_ := ssims
    log_ := [] }

/-- The method `BolaAbr::Score`. -/
def ScoreFl (fl : ℚ → ℚ) (s : BolaAbr) (buffer_level size_bits util : ℚ) : ℚ :=
  fl (fl (fl (s.vp_ * fl (util + s.gp_)) - buffer_level) / size_bits)

/-- The penalty `(utilities_.back() - utilities_.front()) / (utilities_.size() - 1)`. -/
def favorSsimPenaltyFl (fl : ℚ → ℚ) (s : BolaAbr) : ℚ :=
  fl (fl (s.utilities_.getLastD 0 - s.utilities_.headD 0)
    / fl ((s.utilities_.length - 1 : Nat) : ℚ))

/-- The loop of `BolaAbr::QualityFromBufferLevel` over the entries in key order; the
accumulator is `(best_ssim, score)`. -/
def bufferLevelLoopFl (fl : ℚ → ℚ) (s : BolaAbr) (buffer_level : ℚ) (favor_quality : Int)
    (favor_ssim_penalty : ℚ) : SsimMap → ℚ × ℚ → ℚ × ℚ
  | [], acc => acc
  | ssim_entry :: rest, (best_ssim, score) =>
    let quality := ssim_entry.2.quality
    let ssim := ssim_entry.1
    let effective_ssim :=
      if quality < favor_quality then fl (ssim - favor_ssim_penalty) else ssim
    let size_bits := fl (fl (ssim_entry.2.size : ℚ) * 8)
    let sc := ScoreFl fl s buffer_level size_bits effective_ssim
    if best_ssim = 0 ∨ sc > score then
      bufferLevelLoopFl fl s buffer_level favor_quality favor_ssim_penalty rest (ssim, sc)
    else
      bufferLevelLoopFl fl s buffer_level favor_quality favor_ssim_penalty rest
        (best_ssim, score)

/-- The method `BolaAbr::QualityFromBufferLevel`.  The test on `max_quality` is
commented out in the source, so the argument is not read. -/
def QualityFromBufferLevelFl (fl : ℚ → ℚ) (s : BolaAbr) (buffer_level : ℚ)
    (ssim_map : SsimMap) (_max_quality favor_quality : Int) : ℚ :=
  (bufferLevelLoopFl fl s buffer_level favor_quality (favorSsimPenaltyFl fl s) ssim_map
    (0, 0)).1

end BolaAbr

/-! ## MovingAverage (abr.h, abr.cc)

The class is embedded over an ordered field `K` that stands for `double`: the rationals
for evaluation, the reals for statements about `std::pow`, which is passed as the
parameter `pow_half` (`pow_half x` is `std::pow(0.5, x)`). -/

/-- State of `MovingAverage`. -/
structure MovingAverage (K : Type) where
  throughput_slow_ : K
  throughput_fast_ : K
  cumulative_time_ : K

namespace MovingAverage

variable {K : Type} [LinearOrderedField K]

/-- The constant `kHalfLifeSlow = 8000`. -/
def kHalfLifeSlow : K := 8000

/-- The constant `kHalfLifeFast = 3000`. -/
def kHalfLifeFast : K := 3000

/-- The constructor `MovingAverage()`. -/
def create : MovingAverage K :=
  { throughput_slow_ := 0, throughput_fast_ := 0, cumulative_time_ := 0 }

/-- The method `MovingAverage::AddMeasurement`. -/
def AddMeasurement (pow_half : K → K) (s : MovingAverage K) (throughput time : K) :
    MovingAverage K :=
  let alpha := pow_half (time / kHalfLifeSlow)
  let throughput_slow := alpha * s.throughput_slow_ + (1 - alpha) * throughput
  let alpha := pow_half (time / kHalfLifeFast)
  let throughput_fast := alpha * s.throughput_fast_ + (1 - alpha) * throughput
  { throughput_slow_ := throughput_slow, throughput_fast_ := throughput_fast,
    cumulative_time_ := s.cumulative_time_ + time }

/-- The method `MovingAverage::GetThroughput`. -/
def GetThroughput (pow_half : K → K) (s : MovingAverage K) : K :=
  if s.cumulative_time_ ≤ 0 then 0
  else
    let zero_factor := 1 - pow_half (s.cumulative_time_ / kHalfLifeSlow)
    let slow := s.throughput_slow_ / zero_factor
    let zero_factor := 1 - pow_half (s.cumulative_time_ / kHalfLifeFast)
    let fast := s.throughput_fast_ / zero_factor
    min slow fast

/-- The state after `AddMeasurement(tp, dt)` for every `dt` of a list, in order. -/
def addAll (pow_half : K → K) (tp : K) (s : MovingAverage K) (dts : List K) : MovingAverage K :=
  dts.foldl (fun acc dt => AddMeasurement pow_half acc tp dt) s

end MovingAverage

/-! ## Required and optional frame ranges (quic_simple_client_bin.cc) -/

/-- The call `s.find(c, pos)`: the index of the first occurrence at or behind `pos`,
`npos` when there is none. -/
def findFromSizeT (c : Char) (s : List Char) (pos : Nat) : Nat :=
  if c ∈ s.drop pos then pos + (s.drop pos).indexOf c else 2 ^ 64 - 1

/-- The loop `while (pos < range.size() && ranges_found < count)` of `get_subrange`; the
first argument is `count - ranges_found`, the number of ranges still to be found.
Returns `pos` and `ranges_found`. -/
def subrangeLoop (range : List Char) : Nat → Nat → Nat → Nat × Nat
  | 0, pos, ranges_found => (pos, ranges_found)
  | todo + 1, pos, ranges_found =>
    if pos < range.length then
      let next := findFromSizeT ',' range pos
      let pos := if next = 2 ^ 64 - 1 then range.length else (next + 1) % 2 ^ 64
      subrangeLoop range todo pos (ranges_found + 1)
    else (pos, ranges_found)

/-- The function `get_subrange`; `none` stands for `exit(1)`. -/
def get_subrange (range : List Char) (count : Nat) : Option (List Char) :=
  if count = 0 then some []
  else
    let r := subrangeLoop range count 0 0
    let pos := r.1
    let ranges_found := r.2
    if ranges_found < count then none
    else if pos = range.length then some range
    else substr range 0 (sizeSub pos 1)

/-- The optional range `main` derives from the required one: the value of
`optional_unreliable_frames` after the split. -/
def optionalRange (unreliable_frames required_unreliable_frames : List Char) :
    Option (List Char) :=
  let optional_unreliable_frames : List Char := []
  if required_unreliable_frames.length < unreliable_frames.length then
    if required_unreliable_frames.isEmpty then some unreliable_frames
    else substr unreliable_frames (required_unreliable_frames.length + 1)
      (unreliable_frames.length - required_unreliable_frames.length)
  else some optional_unreliable_frames

/-! ## The SSIM maps of the manifest (quic_simple_client_bin.cc) -/

/-- The loop `for (auto &&value : ssim_values)` of the `SegmentURL` branch of `main`,
on the triples `(ssim, frames, size)` read from the texts `ssim:frames:size`: the vector
`ssim_map` gets a map for the current segment when it has none, and every triple is
assigned into that map under its `ssim`.  The result `none` stands for `exit(1)`. -/
def ssimsLoop (rel_size : Int) (current_repr_bw curr_segment_no : Nat) :
    List (ℚ × Nat × Nat) → List SsimMap → Option (List SsimMap)
  | [], ssim_map => some ssim_map
  | value :: rest, ssim_map =>
    let ssim := value.1
    let frames := value.2.1
    let size := value.2.2
    let ssim_map1 :=
      if ssim_map.length < curr_segment_no + 1 then ssim_map ++ [[]] else ssim_map
    if ssim_map.length < curr_segment_no + 1 ∧ ssim_map1.length ≠ curr_segment_no + 1 then none
    else
      let entry : SSIMBasedQuality :=
        { size := (size + intToSizeT rel_size) % 2 ^ 64, reliable_size := intToSizeT rel_size,
          quality := toInt32 current_repr_bw, required_frames := frames }
      ssimsLoop rel_size current_repr_bw curr_segment_no rest
        (ssim_map1.set curr_segment_no
          (mapInsert ssim entry (ssim_map1.getD curr_segment_no [])))

/-! ## Definitions that follow the wording of the specification

They are compared with the definitions taken from the source. -/

/-- The maximum of `f 0, ..., f (n - 1)`. -/
def maxOver (f : Nat → ℚ) (n : Nat) : ℚ :=
  ((List.range n).map f).foldl max (f 0)

/-- The MPC value as the specification words it (section 4.3): download time
`T = R[q] * D / tp_e`, `rebuffer = max(0, T - buffer)`,
`buffer' = min(B - D, max(0, buffer - T)) + D`, immediate reward
`R[q] - 1 * |R[q] - R[prev_q]| - 3 * rebuffer`, plus the maximal child value when the
depth is above one. -/
def MpcAbr.SearchClaimed (s : MpcAbr) : Nat → ℚ → ℚ → Int → Int → ℚ
  | 0, _, _, _, _ => 0
  | depth + 1, tp_e, buffer, prev_q, q =>
    let T := vecAt s.bitrates_ q * s.segment_duration_ / tp_e
    let rebuffer := max 0 (T - buffer)
    let buffer2 := min (s.buffer_size_ - s.segment_duration_) (max 0 (buffer - T))
      + s.segment_duration_
    let reward := vecAt s.bitrates_ q - 1 * |vecAt s.bitrates_ q - vecAt s.bitrates_ prev_q|
      - 3 * rebuffer
    if depth > 0 then
      reward + maxOver (fun q2 => MpcAbr.SearchClaimed s depth tp_e buffer2 q (q2 : Int))
        s.bitrates_.length
    else reward

/-- The score the loop of `QualityFromBufferLevel` computes for an entry:
`Score(buffer_level, 8 * size, effective_ssim)`, where `effective_ssim` is the key less
the favor penalty when the quality of the entry is below `favor_quality`. -/
def BolaAbr.entryScore (s : BolaAbr) (buffer_level : ℚ) (favor_quality : Int)
    (e : ℚ × SSIMBasedQuality) : ℚ :=
  s.Score buffer_level ((e.2.size : ℚ) * 8)
    (if e.2.quality < favor_quality then e.1 - s.favorSsimPenalty else e.1)

/-- The text `a-b` of a byte range. -/
def formatRange (r : Nat × Nat) : List Char :=
  natToString r.1 ++ '-' :: natToString r.2

/-- The text `a_1-b_1,a_2-b_2,...` of a list of byte ranges. -/
def formatRanges : List (Nat × Nat) → List Char
  | [] => []
  | [r] => formatRange r
  | r :: r2 :: rest => formatRange r ++ ',' :: formatRanges (r2 :: rest)

/-- The length `b - a + 1` of a byte range. -/
def rangeLen (r : Nat × Nat) : Int :=
  (r.2 : Int) - r.1 + 1

/-- The frame order the specification gives for a list of byte ranges and an offset:
one record per range, with `to_st = a_i - o`, `to_len = from_len = b_i - a_i + 1` and
`from_st` the sum of the lengths of the preceding ranges. -/
def frameOrderClaimed (ranges : List (Nat × Nat)) (o : Int) : List frame_order :=
  (List.range ranges.length).map (fun i =>
    { to_st := ((ranges.getD i (0, 0)).1 : Int) - o,
      to_len := rangeLen (ranges.getD i (0, 0)),
      from_st := ((ranges.take i).map rangeLen).sum,
      from_len := rangeLen (ranges.getD i (0, 0)) })

/-- The frame order of a list of byte ranges, the first record taking `from_st = idx`. -/
def frameOrderFrom (o : Int) : List (Nat × Nat) → Int → List frame_order
  | [], _ => []
  | r :: rest, idx =>
    { to_st := (r.1 : Int) - o, to_len := rangeLen r, from_st := idx, from_len := rangeLen r }
      :: frameOrderFrom o rest (idx + rangeLen r)

/-- The holes the specification gives for a lost frame at request-relative position `p`
with length `l`: one per frame range that `[p, p + l)` overlaps, in the order of the
frame ranges, each being the overlap translated to
`offset + to_st + (position - from_st)`, as the pair of its first and last byte. -/
def holesClaimed (frames_order : List frame_order) (offset p l : Int) : List (Int × Int) :=
  frames_order.filterMap (fun f =>
    if max p f.from_st < min (p + l) (f.from_st + f.from_len) then
      some (offset + f.to_st + (max p f.from_st - f.from_st),
        offset + f.to_st + (max p f.from_st - f.from_st)
          + (min (p + l) (f.from_st + f.from_len) - max p f.from_st) - 1)
    else none)

/-- The holes of all lost frames of a timing map, in the order of the map; the position
of a frame is its stream offset less `first`, the stream offset of the first frame. -/
def holesOfFrames (frames_order : List frame_order) (offset : Int) (first : Nat) :
    List (Nat × FrameTiming) → List (Int × Int)
  | [] => []
  | e :: rest =>
    (if e.2.was_lost = true then
      holesClaimed frames_order offset ((e.1 : Int) - (first : Int)) e.2.length else [])
      ++ holesOfFrames frames_order offset first rest

/-- The sum of the lengths of the lost frames of a timing map. -/
def lostSize : List (Nat × FrameTiming) → Int
  | [] => 0
  | e :: rest => (if e.2.was_lost = true then e.2.length else 0) + lostSize rest

/-- The text `first-last` of a hole. -/
def formatHole (h : Int × Int) : List Char :=
  intToString h.1 ++ '-' :: intToString h.2

/-- The text `first-last,first-last,...` of a list of holes. -/
def formatHoles : List (Int × Int) → List Char
  | [] => []
  | [h] => formatHole h
  | h :: h2 :: rest => formatHole h ++ ',' :: formatHoles (h2 :: rest)

/-- The texts of a list of holes, each followed by a comma. -/
def holesText : List (Int × Int) → List Char
  | [] => []
  | h :: rest => formatHole h ++ ',' :: holesText rest

/-- The entries ` first,length` of the loss report for a list of holes. -/
def reportText : List (Int × Int) → List Char
  | [] => []
  | h :: rest => ' ' :: intToString h.1 ++ ',' :: intToString (h.2 - h.1 + 1) ++ reportText rest

/-- A frame order with contiguous from-offsets that start at `c`: every record starts
where the one before it ends, and no record has a negative length. -/
def contiguousFrom : Int → List frame_order → Bool
  | _, [] => true
  | c, f :: rest =>
    decide (f.from_st = c) && decide (0 ≤ f.from_len) && contiguousFrom (c + f.from_len) rest

/-- The total requested length of a frame order. -/
def requestedLength (frames_order : List frame_order) : Int :=
  (frames_order.map (fun f => f.from_len)).sum

/-- The texts of a list joined by commas. -/
def joinComma : List (List Char) → List Char
  | [] => []
  | [p] => p
  | p :: q :: rest => p ++ ',' :: joinComma (q :: rest)

/-! ## Concrete inputs used by the witnesses and counterexamples -/

/-- An SSIM-map entry with `required_frames = 100`. -/
def exEntry (size reliable_size : Nat) (quality : Int) : SSIMBasedQuality :=
  { size := size, reliable_size := reliable_size, quality := quality, required_frames := 100 }

/-- A `BolaAbr` for `D = 4000`, `B = 20000`, bitrates `[500, 1000, 2000]` after its first
decision, with the `Vp = 40000` and `gp = -1/2` its constructor derives from the average
SSIMs `[0.8, 0.85, 0.9]`: the zero-score level of an ssim `x` is `40000 * x - 20000`. -/
def exBola : BolaAbr :=
  { buffer_size_ := 20000
    startup := false
    pause := 0
    buffer_level_ := 8000
    last_quality_ := 0
    placeholder_ := 10000
    vp_ := 40000
    gp_ := -1 / 2
    segment_duration_ := 4000
    ibr_safety_factor_target_ := 1 / 2
    ibr_safety_factor_ := 1 / 2
    bitrates_ := [500, 1000, 2000]
    utilities_ := [4 / 5, 17 / 20, 9 / 10]
    average_ssim_ := [4 / 5, 17 / 20, 9 / 10]
    log_ := [] }

/-- A segment map with two entries per quality for the qualities `0` and `1`. -/
def exMap : SsimMap :=
  [(1 / 2, exEntry 100000 20000 0), (4 / 5, exEntry 250000 50000 0),
   (17 / 20, exEntry 400000 60000 1), (9 / 10, exEntry 500000 80000 1)]

/-- A download of quality `1` in progress on its unreliable half, `350000` bytes in. -/
def exProgress : DownloadProgress :=
  { in_progress := true, quality := 1, ssim := 0, size := 400000, downloaded := 350000,
    reliable := false }

/-- The state of `exBola` while a segment of quality `1` is being downloaded with
`2000` ms of buffer left. -/
def exBolaBusy : BolaAbr :=
  { exBola with buffer_level_ := 2000, last_quality_ := 1, placeholder_ := 0 }

/-- A `BolaAbr` built without SSIMs for the bitrates `[500, 1000]`: the utilities are
`log(R[q] / R[0])`, so the first is `0`; the second is taken as `7/10`, for which the
constructor derives `Vp = 30000/7` and `gp = 91/30`. -/
def exBolaLog : BolaAbr :=
  { buffer_size_ := 20000
    startup := false
    pause := 0
    buffer_level_ := 4000
    last_quality_ := 0
    placeholder_ := 0
    vp_ := 30000 / 7
    gp_ := 91 / 30
    segment_duration_ := 4000
    ibr_safety_factor_target_ := 1 / 2
    ibr_safety_factor_ := 1 / 2
    bitrates_ := [500, 1000]
    utilities_ := [0, 7 / 10]
    average_ssim_ := []
    log_ := [] }

/-- The map the vector-based `BolaE` builds for `exBolaLog`: one entry per quality,
keyed by its utility, of size `bitrates_[q] * segment_duration_ / 8`. -/
def exMapLog : SsimMap :=
  [(0, exEntry 250000 0 0), (7 / 10, exEntry 500000 0 1)]

/-- A map with an entry of quality `2` that is no larger than the entry below it. -/
def exMapHigh : SsimMap :=
  [(4 / 5, exEntry 300000 20000 0), (19 / 20, exEntry 300000 1000 2)]

/-- A stand-in for `std::pow(0.5, x)` that agrees with it at the non-negative integers:
`0.5` to the power of the integer part of `x`. -/
def powHalfFloor (x : ℚ) : ℚ :=
  (1 / 2) ^ (Int.floor x).toNat

/-- A request record for the unreliable half of a segment of `exMap`: the entry of key
`4/5` (size `250000`, of which `50000` reliable) at quality `0`, with `1800` ms of
buffer when the request started. -/
def exConfig : DownloadConfig :=
  { abr := "bpp"
    size := 200000
    fallback_size := 0
    buffer_occ := 1800
    quality := 0
    bitrates := [500, 1000, 2000]
    reliable := false
    segment_duration := 4000
    segment_no := 2
    ssim_map := exMap
    ret__kept := false
    ret__quality := 0
    ret__ssim := 0
    ret__pause := 0 }

/-- A request record for the unreliable half of a segment at quality `1` (the entry of
key `17/20` of `exMap`), with `1000` ms of buffer when the request started. -/
def exConfigDry : DownloadConfig :=
  { exConfig with size := 340000, buffer_occ := 1000, quality := 1 }

/-- An SSIM map over two qualities: one entry of quality `0` that requires no frame, and
two entries of quality `1` that require `40` and `70` frames. -/
def exMapNoDrop : SsimMap :=
  [(4 / 5, { size := 250000, reliable_size := 50000, quality := 0, required_frames := 0 }),
   (9 / 10, { size := 400000, reliable_size := 60000, quality := 1, required_frames := 40 }),
   (19 / 20, { size := 500000, reliable_size := 60000, quality := 1, required_frames := 70 })]

/-- The frame timings of a response of `4000` requested bytes of which the frames at
positions `500` and `2000`, of `500` bytes each, were lost. -/
def exTimings : List (Nat × FrameTiming) :=
  [(0, { length := 500, was_lost := false }), (500, { length := 500, was_lost := true }),
   (1000, { length := 1000, was_lost := false }), (2000, { length := 500, was_lost := true }),
   (2500, { length := 1500, was_lost := false })]

/-- A `ThroughputAbr` whose buffer level has fallen to `-200000` ms. -/
def exTput : ThroughputAbr :=
  { buffer_size_ := 20000, startup := false, pause := 0, buffer_level_ := -200000,
    segment_duration_ := 4000, bitrates_ := [500, 1000, 2000], log_ := [] }

/-- An `MpcAbr` whose buffer level has fallen to `-200000` ms. -/
def exMpc : MpcAbr :=
  { buffer_size_ := 20000, startup := false, pause := 0, buffer_level_ := -200000,
    last_quality_ := 0, segment_duration_ := 4000, bitrates_ := [500, 1000, 2000],
    log_ := [], estimate_throughput_ := 1000, estimate_error_ := 0, past_errors_ := [] }

/-- The `double` values nearest to the average SSIMs `0.8`, `0.85` and `0.9`. -/
def exSsimsDouble : List ℚ :=
  [3602879701896397 / 4503599627370496, 7656119366529843 / 9007199254740992,
   8106479329266893 / 9007199254740992]

/-- The `BolaAbr` the constructor builds in the arithmetic of `double` for `D = 4000`,
`B = 20000`, the bitrates `[500, 1000, 2000]` and the average SSIMs `exSsimsDouble`:
`Vp` is `39999.99999999999` and `gp` is `-0.5`. -/
def exBolaDouble : BolaAbr :=
  { buffer_size_ := 20000
    startup := true
    pause := 0
    buffer_level_ := 0
    last_quality_ := -1
    placeholder_ := 0
    vp_ := 5497558138879999 / 137438953472
    gp_ := -(1 / 2)
    segment_duration_ := 4000
    ibr_safety_factor_target_ := 0
    ibr_safety_factor_ := 0
    bitrates_ := [500, 1000, 2000]
    utilities_ := exSsimsDouble
    average_ssim_ := exSsimsDouble
    log_ := [] }

/-- A map of two entries of `150000` bytes: the key `0.6` at quality `1` and the key
`0.65` at quality `0` (the keys are the nearest `double` values). -/
def exMapTie : SsimMap :=
  [(5404319552844595 / 9007199254740992,
    { size := 150000, reliable_size := 0, quality := 1, required_frames := 100 }),
   (5854679515581645 / 9007199254740992,
    { size := 150000, reliable_size := 0, quality := 0, required_frames := 100 })]

/-! # Verified properties -/

/-! ## Auxiliary facts -/

theorem getD_lt_of_pairwise {l : List ℚ} (h : l.Pairwise (fun a b => a < b)) {i j : Nat}
    (hij : i < j) (hj : j < l.length) : l.getD i 0 < l.getD j 0 := by
  rw [List.getD_eq_getElem l 0 (lt_trans hij hj), List.getD_eq_getElem l 0 hj]
  exact (List.pairwise_iff_getElem.mp h) i j (lt_trans hij hj) hj hij

theorem getD_le_of_pairwise {l : List ℚ} (h : l.Pairwise (fun a b => a < b)) {i j : Nat}
    (hij : i ≤ j) (hj : j < l.length) : l.getD i 0 ≤ l.getD j 0 := by
  rcases Nat.lt_or_eq_of_le hij with hlt | heq
  · exact le_of_lt (getD_lt_of_pairwise h hlt hj)
  · subst heq; exact le_refl _

theorem vecAt_natCast (v : List ℚ) (i : Nat) : vecAt v (i : Int) = v.getD i 0 := by
  unfold vecAt
  rw [if_pos (Int.natCast_nonneg i), Int.toNat_natCast]

/-- Where the scan of `QualityFromThroughput` stops: after `k` rates that are all at
most the throughput, at a rate above it or at the end of the vector. -/
theorem ThroughputAbr.qualityLoop_stop (size : Nat) (tp : ℚ) :
    ∀ (rest : List ℚ) (i : Nat), size = i + rest.length →
      ∃ k : Nat, k ≤ rest.length ∧
        ThroughputAbr.qualityLoop size tp rest i = (i : Int) - 1 + (k : Int) ∧
        (∀ j : Nat, j < k → rest.getD j 0 ≤ tp) ∧
        (k < rest.length → tp < rest.getD k 0) := by
  intro rest
  induction rest with
  | nil =>
    intro i hsz
    refine ⟨0, le_refl _, ?_, ?_, ?_⟩
    · simp only [ThroughputAbr.qualityLoop, List.length_nil, Nat.add_zero] at hsz ⊢
      subst hsz; simp
    · intro j hj; exact absurd hj (Nat.not_lt_zero j)
    · intro h; exact absurd h (Nat.lt_irrefl _)
  | cons r rest ih =>
    intro i hsz
    by_cases hr : r > tp
    · refine ⟨0, Nat.zero_le _, ?_, ?_, ?_⟩
      · simp only [ThroughputAbr.qualityLoop, if_pos hr]; simp
      · intro j hj; exact absurd hj (Nat.not_lt_zero j)
      · intro _; simpa using hr
    · obtain ⟨k, hk, heq, hle, hgt⟩ := ih (i + 1) (by simp only [List.length_cons] at hsz; omega)
      refine ⟨k + 1, by simp only [List.length_cons]; omega, ?_, ?_, ?_⟩
      · simp only [ThroughputAbr.qualityLoop, if_neg hr, heq]; push_cast; ring
      · intro j hj
        cases j with
        | zero => simpa using not_lt.mp hr
        | succ j => rw [List.getD_cons_succ]; exact hle j (by omega)
      · intro hlt
        rw [List.getD_cons_succ]
        exact hgt (by simp only [List.length_cons] at hlt; omega)

/-- A value within half a unit of an integer rounds to that integer. -/
theorem roundHalfEven_eq (q : ℚ) (m : Int) (h : |q - m| < 1 / 2) : roundHalfEven q = m := by
  have h1 := abs_lt.mp h
  unfold roundHalfEven
  by_cases hq : (m : ℚ) ≤ q
  · have hf : Int.floor q = m := by
      rw [Int.floor_eq_iff]
      constructor
      · exact hq
      · linarith [h1.2]
    rw [hf, if_pos (by linarith [h1.2])]
  · have hf : Int.floor q = m - 1 := by
      rw [Int.floor_eq_iff]
      push_cast
      constructor
      · linarith [h1.1]
      · linarith [not_le.mp hq]
    rw [hf]
    push_cast
    rw [if_neg (by linarith [h1.1]), if_pos (by linarith [h1.1])]
    ring

/-- The `double` nearest to a positive value `x` of the binade `[2^(e+52), 2^(e+53))`:
the multiple `m * 2^e` of the unit `2^e` of that binade that lies within half a unit of
`x`. -/
theorem roundDouble_eq (x : ℚ) (m : Int) (e : Int)
    (hlo : (2 : ℚ) ^ (e + 52) ≤ x) (hhi : x < 2 ^ (e + 52 + 1))
    (hnear : |x - m * 2 ^ e| < 2 ^ e / 2) : roundDouble x = m * 2 ^ e := by
  have hpos : (0 : ℚ) < x := lt_of_lt_of_le (by positivity) hlo
  have he : (0 : ℚ) < 2 ^ e := by positivity
  have hlog : Int.log 2 |x| = e + 52 := by
    rw [abs_of_pos hpos]
    apply le_antisymm
    · have := (Int.lt_zpow_iff_log_lt (b := 2) (by norm_num) hpos (x := e + 52 + 1)).mp
        (by exact_mod_cast hhi)
      omega
    · exact (Int.zpow_le_iff_le_log (b := 2) (by norm_num) hpos).mp (by exact_mod_cast hlo)
  unfold roundDouble
  rw [if_neg (ne_of_gt hpos), if_neg (not_lt.mpr (le_of_lt hpos)), hlog, abs_of_pos hpos]
  have e1 : e + 52 - 52 = e := by ring
  rw [e1, roundHalfEven_eq (x / 2 ^ e) m (by
    have : x / 2 ^ e - m = (x - m * 2 ^ e) / 2 ^ e := by
      field_simp
      ring
    rw [this, abs_div, abs_of_pos he, div_lt_iff₀ he]
    linarith [hnear])]
  ring

/-- The `double` nearest to a negative value is the opposite of the `double` nearest to
its opposite. -/
theorem roundDouble_neg_eq (x : ℚ) (m : Int) (e : Int)
    (hlo : (2 : ℚ) ^ (e + 52) ≤ -x) (hhi : -x < 2 ^ (e + 52 + 1))
    (hnear : |-x - m * 2 ^ e| < 2 ^ e / 2) : roundDouble x = -(m * 2 ^ e) := by
  have hpos : (0 : ℚ) < -x := lt_of_lt_of_le (by positivity) hlo
  have hneg : x < 0 := by linarith
  have h := roundDouble_eq (-x) m e hlo hhi hnear
  unfold roundDouble at h ⊢
  rw [if_neg (ne_of_gt hpos), if_neg (not_lt.mpr (le_of_lt hpos)), abs_neg] at h
  rw [if_neg (ne_of_lt hneg), if_pos hneg]
  linarith

/-- A value halfway between two integers rounds to the even one. -/
theorem roundHalfEven_tie (f : Int) :
    roundHalfEven ((f : ℚ) + 1 / 2) = if f % 2 = 0 then f else f + 1 := by
  have hf : Int.floor ((f : ℚ) + 1 / 2) = f := by
    rw [Int.floor_eq_iff]
    constructor <;> linarith
  unfold roundHalfEven
  rw [hf]
  have e : (f : ℚ) + 1 / 2 - (f : ℚ) = 1 / 2 := by ring
  rw [e, if_neg (lt_irrefl _), if_neg (lt_irrefl _)]

/-- The `double` nearest to a positive value halfway between two neighbouring `double`
values of its binade: the one with the even significand. -/
theorem roundDouble_tie (x : ℚ) (f : Int) (e : Int)
    (hlo : (2 : ℚ) ^ (e + 52) ≤ x) (hhi : x < 2 ^ (e + 52 + 1))
    (hx : x = ((f : ℚ) + 1 / 2) * 2 ^ e) :
    roundDouble x = ((if f % 2 = 0 then f else f + 1 : Int) : ℚ) * 2 ^ e := by
  have hpos : (0 : ℚ) < x := lt_of_lt_of_le (by positivity) hlo
  have he : (0 : ℚ) < 2 ^ e := by positivity
  have hlog : Int.log 2 |x| = e + 52 := by
    rw [abs_of_pos hpos]
    apply le_antisymm
    · have := (Int.lt_zpow_iff_log_lt (b := 2) (by norm_num) hpos (x := e + 52 + 1)).mp
        (by exact_mod_cast hhi)
      omega
    · exact (Int.zpow_le_iff_le_log (b := 2) (by norm_num) hpos).mp (by exact_mod_cast hlo)
  unfold roundDouble
  rw [if_neg (ne_of_gt hpos), if_neg (not_lt.mpr (le_of_lt hpos)), hlog, abs_of_pos hpos]
  have e1 : e + 52 - 52 = e := by ring
  have hq : x / 2 ^ e = (f : ℚ) + 1 / 2 := by
    rw [hx]
    field_simp
    ring
  rw [e1, hq, roundHalfEven_tie]
  ring

/-- The `double` nearest to a negative value halfway between two neighbouring `double`
values of its binade: the one with the even significand. -/
theorem roundDouble_neg_tie (x : ℚ) (f : Int) (e : Int)
    (hlo : (2 : ℚ) ^ (e + 52) ≤ -x) (hhi : -x < 2 ^ (e + 52 + 1))
    (hx : -x = ((f : ℚ) + 1 / 2) * 2 ^ e) :
    roundDouble x = -(((if f % 2 = 0 then f else f + 1 : Int) : ℚ) * 2 ^ e) := by
  have hpos : (0 : ℚ) < -x := lt_of_lt_of_le (by positivity) hlo
  have hneg : x < 0 := by linarith
  have h := roundDouble_tie (-x) f e hlo hhi hx
  unfold roundDouble at h ⊢
  rw [if_neg (ne_of_gt hpos), if_neg (not_lt.mpr (le_of_lt hpos)), abs_neg] at h
  rw [if_neg (ne_of_lt hneg), if_pos hneg]
  linarith

/-- With the identity as rounding, `GetQualityFl` is `GetQuality`. -/
theorem ThroughputAbr.GetQualityFl_id (s : ThroughputAbr) (tp : ℚ) :
    s.GetQualityFl id tp = s.GetQuality tp := by
  unfold ThroughputAbr.GetQualityFl ThroughputAbr.GetQuality mkLogLineFl mkLogLine
  simp only [id]

/-- On a non-empty, strictly ascending bitrate vector `QualityFromThroughput` returns a
valid index that is the largest index whose bitrate is at most its argument, and `0`
when no bitrate is at most its argument. -/
theorem ThroughputAbr.QualityFromThroughput_largest (s : ThroughputAbr) (T : ℚ)
    (hne : s.bitrates_ ≠ []) (hasc : s.bitrates_.Pairwise (fun a b => a < b)) :
    0 ≤ s.QualityFromThroughput T ∧ s.QualityFromThroughput T < (s.bitrates_.length : Int) ∧
    (∀ i : Nat, i < s.bitrates_.length → s.bitrates_.getD i 0 ≤ T →
      (i : Int) ≤ s.QualityFromThroughput T) ∧
    ((∃ i : Nat, i < s.bitrates_.length ∧ s.bitrates_.getD i 0 ≤ T) →
      vecAt s.bitrates_ (s.QualityFromThroughput T) ≤ T) ∧
    ((¬ ∃ i : Nat, i < s.bitrates_.length ∧ s.bitrates_.getD i 0 ≤ T) →
      s.QualityFromThroughput T = 0) := by
  obtain ⟨R, hR⟩ : ∃ R, s.bitrates_ = R := ⟨_, rfl⟩
  have hq : s.QualityFromThroughput T = ThroughputAbr.qualityLoop R.length T (R.drop 1) 1 := by
    simp only [ThroughputAbr.QualityFromThroughput, hR]
  rw [hq, hR]
  rw [hR] at hne hasc
  cases R with
  | nil => exact absurd rfl hne
  | cons r0 rest =>
    obtain ⟨k, hk, heq, hle, hgt⟩ :=
      ThroughputAbr.qualityLoop_stop (r0 :: rest).length T rest 1
        (by simp only [List.length_cons]; omega)
    simp only [List.drop_succ_cons, List.drop_zero]
    rw [heq]
    have hlen : (r0 :: rest).length = rest.length + 1 := List.length_cons r0 rest
    have hkq : ((1 : Nat) : Int) - 1 + (k : Int) = (k : Int) := by push_cast; ring
    rw [hkq, vecAt_natCast]
    have hmax : ∀ i : Nat, i < (r0 :: rest).length → (r0 :: rest).getD i 0 ≤ T →
        i ≤ k := by
      intro i hi hle_i
      by_contra hcon
      have hki : k + 1 ≤ i := by omega
      have hklt : k < rest.length := by omega
      have h1 : T < (r0 :: rest).getD (k + 1) 0 := by
        rw [List.getD_cons_succ]; exact hgt hklt
      have h2 := getD_le_of_pairwise hasc hki hi
      linarith
    have hqle : 1 ≤ k → (r0 :: rest).getD k 0 ≤ T := by
      intro h1
      obtain ⟨k', rfl⟩ : ∃ k', k = k' + 1 := ⟨k - 1, by omega⟩
      rw [List.getD_cons_succ]
      exact hle k' (by omega)
    refine ⟨by omega, by omega, ?_, ?_, ?_⟩
    · intro i hi hle_i
      exact_mod_cast hmax i hi hle_i
    · rintro ⟨i, hi, hle_i⟩
      rcases Nat.eq_zero_or_pos k with hk0 | hkpos
      · have h0 := getD_le_of_pairwise hasc (Nat.zero_le i) hi
        rw [hk0]; linarith
      · exact hqle hkpos
    · intro hnone
      rcases Nat.eq_zero_or_pos k with hk0 | hkpos
      · rw [hk0]; rfl
      · exact absurd ⟨k, by omega, hqle hkpos⟩ hnone

/-- C8 (as amended). On a non-empty, strictly ascending bitrate vector, and for every
rounding `fl` of the arithmetic of `double`, `ThroughputAbr::GetQuality` returns a valid
index `q` that is the largest index whose bitrate is at most the product
`fl (tp * fl (9/10))` as the machine computes it; when no bitrate is at most that
product it returns `0`. -/
theorem ThroughputAbr.GetQuality_largest_sustainable (fl : ℚ → ℚ) (s : ThroughputAbr)
    (tp : ℚ) (hne : s.bitrates_ ≠ []) (hasc : s.bitrates_.Pairwise (fun a b => a < b)) :
    0 ≤ (s.GetQualityFl fl tp).1 ∧ (s.GetQualityFl fl tp).1 < (s.bitrates_.length : Int) ∧
    (∀ i : Nat, i < s.bitrates_.length → s.bitrates_.getD i 0 ≤ fl (tp * fl (9 / 10)) →
      (i : Int) ≤ (s.GetQualityFl fl tp).1) ∧
    ((∃ i : Nat, i < s.bitrates_.length ∧ s.bitrates_.getD i 0 ≤ fl (tp * fl (9 / 10))) →
      vecAt s.bitrates_ (s.GetQualityFl fl tp).1 ≤ fl (tp * fl (9 / 10))) ∧
    ((¬ ∃ i : Nat, i < s.bitrates_.length ∧ s.bitrates_.getD i 0 ≤ fl (tp * fl (9 / 10))) →
      (s.GetQualityFl fl tp).1 = 0) :=
  ThroughputAbr.QualityFromThroughput_largest s (fl (tp * fl (9 / 10))) hne hasc

/-- Witness for C8 (as amended): the bitrate ladder of the scenarios of the
specification, in the arithmetic of `double`. -/
theorem ThroughputAbr.GetQuality_largest_sustainable_witness :
    0 ≤ ((ThroughputAbr.create 4000 20000 [500, 1000, 2000, 4000]).GetQualityFl roundDouble
      1500).1 ∧
    ((ThroughputAbr.create 4000 20000 [500, 1000, 2000, 4000]).GetQualityFl roundDouble
      1500).1 <
      (((ThroughputAbr.create 4000 20000 [500, 1000, 2000, 4000]).bitrates_.length : Nat) : Int) :=
  let h := ThroughputAbr.GetQuality_largest_sustainable roundDouble
    (ThroughputAbr.create 4000 20000 [500, 1000, 2000, 4000]) 1500
    (by simp [ThroughputAbr.create]) (by norm_num [ThroughputAbr.create])
  ⟨h.1, h.2.1⟩

/-- C8 (counterexample). For the bitrates `[500, 1500, 3000]` and the throughput
`1666.6666666666665` (the `double` `3665038759253333 / 2199023255552`), the product
with the `double` nearest to `0.9` rounds to `1500`, and `GetQuality` returns the index
`1`; the real product `0.9 * tp` is below `1500`, so that the largest index `i` with
`R[i] <= 0.9 * tp` is `0`. -/
theorem ThroughputAbr.GetQuality_rounded_product :
    ((ThroughputAbr.create 4000 20000 [500, 1500, 3000]).GetQualityFl roundDouble
      (3665038759253333 / 2199023255552)).1 = 1 ∧
    roundDouble (3665038759253333 / 2199023255552 * roundDouble (9 / 10)) = 1500 ∧
    (500 : ℚ) ≤ 9 / 10 * (3665038759253333 / 2199023255552) ∧
    (9 / 10 : ℚ) * (3665038759253333 / 2199023255552) < 1500 := by
  have r1 : roundDouble (9 / 10) = 8106479329266893 / 9007199254740992 := by
    rw [roundDouble_eq (9 / 10) 8106479329266893 (-53) (by norm_num) (by norm_num)
      (by rw [abs_lt]; constructor <;> norm_num)]
    norm_num
  have r2 : roundDouble (29710560942849124628426956804369 / 19807040628566084398385987584) = 1500 := by
    rw [roundDouble_eq (29710560942849124628426956804369 / 19807040628566084398385987584) 6597069766656000 (-42) (by norm_num) (by norm_num)
      (by rw [abs_lt]; constructor <;> norm_num)]
    norm_num
  refine ⟨?_, ?_, by norm_num, by norm_num⟩
  · norm_num [ThroughputAbr.GetQualityFl, ThroughputAbr.QualityFromThroughput,
      ThroughputAbr.create, ThroughputAbr.kSafetyFactor, ThroughputAbr.qualityLoop,
      r1, r2]
  · norm_num [r1, r2]

/-- C9. `MpcAbr::GetQuality` and `ThroughputAbr::GetQuality` both write
`max(0, buffer_level + D - B)` to `*pause`; a `ThroughputAbr` put in the buffer state of
an `MpcAbr` writes the same pause, whatever the throughputs, the bitrates and the chosen
qualities. -/
theorem GetQuality_pause_eq (m : MpcAbr) (t : ThroughputAbr) (tp_m tp_t : ℚ) :
    (m.GetQuality tp_m).2.1 = max 0 (m.buffer_level_ + m.segment_duration_ - m.buffer_size_) ∧
    (t.GetQuality tp_t).2.1 = max 0 (t.buffer_level_ + t.segment_duration_ - t.buffer_size_) ∧
    (ThroughputAbr.GetQuality
        { t with
          buffer_level_ := m.buffer_level_
          segment_duration_ := m.segment_duration_
          buffer_size_ := m.buffer_size_ } tp_t).2.1 = (m.GetQuality tp_m).2.1 := by
  have hm : ∀ (m : MpcAbr) (tp : ℚ), (m.GetQuality tp).2.1 =
      max 0 (m.buffer_level_ + m.segment_duration_ - m.buffer_size_) := by
    intro m tp
    simp only [MpcAbr.GetQuality]
    split_ifs with h
    · rw [max_eq_right]; linarith
    · rw [max_eq_left]; linarith
  have ht : ∀ (t : ThroughputAbr) (tp : ℚ), (t.GetQuality tp).2.1 =
      max 0 (t.buffer_level_ + t.segment_duration_ - t.buffer_size_) := by
    intro t tp
    simp only [ThroughputAbr.GetQuality]
    split_ifs with h
    · rw [max_eq_right]; linarith
    · rw [max_eq_left]; linarith
  exact ⟨hm m tp_m, ht t tp_t, by rw [ht, hm]⟩

/-- The loop `best = 0.0; for q ... if (q == 0 || v > best) best = v;` leaves in `best`
the maximum of the values, on a non-empty range. -/
theorem MpcAbr.bestLoop_isMax (f : Nat → ℚ) :
    ∀ n : Nat, 0 < n →
      (∀ q : Nat, q < n → f q ≤ MpcAbr.bestLoop f n) ∧
      (∃ q : Nat, q < n ∧ f q = MpcAbr.bestLoop f n) := by
  intro n
  induction n with
  | zero => intro h; exact absurd h (Nat.lt_irrefl 0)
  | succ n ih =>
    intro _
    rcases Nat.eq_zero_or_pos n with hn | hn
    · subst hn
      have h1 : MpcAbr.bestLoop f 1 = f 0 := by
        simp [MpcAbr.bestLoop, List.range_succ]
      rw [h1]
      refine ⟨?_, 0, Nat.one_pos, rfl⟩
      intro q hq
      have : q = 0 := by omega
      rw [this]
    · obtain ⟨hle, q0, hq0, heq⟩ := ih hn
      have hstep : MpcAbr.bestLoop f (n + 1) =
          if f n > MpcAbr.bestLoop f n then f n else MpcAbr.bestLoop f n := by
        have hn0 : n ≠ 0 := Nat.pos_iff_ne_zero.mp hn
        simp only [MpcAbr.bestLoop, List.range_succ, List.foldl_append, List.foldl_cons,
          List.foldl_nil, hn0, false_or]
      rw [hstep]
      by_cases hgt : f n > MpcAbr.bestLoop f n
      · rw [if_pos hgt]
        refine ⟨?_, n, Nat.lt_succ_self n, rfl⟩
        intro q hq
        rcases Nat.lt_succ_iff_lt_or_eq.mp hq with h | h
        · exact le_of_lt (lt_of_le_of_lt (hle q h) hgt)
        · rw [h]
      · rw [if_neg hgt]
        refine ⟨?_, q0, Nat.lt_succ_of_lt hq0, heq⟩
        intro q hq
        rcases Nat.lt_succ_iff_lt_or_eq.mp hq with h | h
        · exact hle q h
        · rw [h]; exact not_lt.mp hgt

/-- The value `MpcAbr::Search` gives to the segment itself: the buffer level is first
capped at `B - D`, then charged the download time. -/
theorem MpcAbr.Search_unfold (s : MpcAbr) (depth : Nat) (tp buffer : ℚ) (prev_q q : Int) :
    s.Search (depth + 1) tp buffer prev_q q =
      (vecAt s.bitrates_ q - |vecAt s.bitrates_ q - vecAt s.bitrates_ prev_q|
        - 3 * max 0 (vecAt s.bitrates_ q * s.segment_duration_ / tp
            - min buffer (s.buffer_size_ - s.segment_duration_)))
      + (if depth > 0 then
          MpcAbr.bestLoop (fun q2 => s.Search depth tp
            (max 0 (min buffer (s.buffer_size_ - s.segment_duration_)
              - vecAt s.bitrates_ q * s.segment_duration_ / tp) + s.segment_duration_)
            q (q2 : Int)) s.bitrates_.length
        else 0) := by
  have hmin : (if buffer + s.segment_duration_ > s.buffer_size_ then
        s.buffer_size_ - s.segment_duration_ else buffer)
      = min buffer (s.buffer_size_ - s.segment_duration_) := by
    split_ifs with h
    · rw [min_eq_right]; linarith
    · rw [min_eq_left]; linarith
  have hreb : ∀ x : ℚ, (if x < 0 then 0 + -x else 0) = max 0 (-x) := by
    intro x
    split_ifs with h
    · rw [max_eq_right]; linarith; linarith
    · rw [max_eq_left]; linarith
  have hbuf : ∀ x : ℚ, (if x < 0 then 0 else x) = max 0 x := by
    intro x
    split_ifs with h
    · rw [max_eq_left]; linarith
    · rw [max_eq_right]; linarith
  rw [MpcAbr.Search]
  dsimp only [MpcAbr.Evaluate]
  rw [hmin, hreb, hbuf, neg_sub]
  split_ifs <;> ring

/-- C10 (as amended). For a positive predicted throughput, a non-negative buffer, a
depth of at least one and valid indices, `MpcAbr::Search` equals
`R[q] - |R[q] - R[prev_q]| - 3 * rebuffer`, plus, when the depth is above one, the
maximum over `q2` of `Search(depth - 1, tp_e, buffer2, q, q2)`, where the buffer is
capped at `B - D` before the download is charged: with `b = min(buffer, B - D)` and
`T = R[q] * D / tp_e`, `rebuffer = max(0, T - b)` and `buffer2 = max(0, b - T) + D`. -/
theorem MpcAbr.Search_value (s : MpcAbr) (depth : Nat) (tp_e buffer : ℚ) (prev_q q : Nat)
    (_htp : 0 < tp_e) (_hbuf : 0 ≤ buffer) (hdepth : 1 ≤ depth)
    (_hprev : prev_q < s.bitrates_.length) (hq : q < s.bitrates_.length) :
    ∃ best : ℚ,
      s.Search depth tp_e buffer (prev_q : Int) (q : Int) =
        s.bitrates_.getD q 0 - |s.bitrates_.getD q 0 - s.bitrates_.getD prev_q 0|
          - 3 * max 0 (s.bitrates_.getD q 0 * s.segment_duration_ / tp_e
              - min buffer (s.buffer_size_ - s.segment_duration_))
          + (if depth > 1 then best else 0) ∧
      (depth > 1 →
        (∀ q2 : Nat, q2 < s.bitrates_.length →
          s.Search (depth - 1) tp_e
            (max 0 (min buffer (s.buffer_size_ - s.segment_duration_)
              - s.bitrates_.getD q 0 * s.segment_duration_ / tp_e) + s.segment_duration_)
            (q : Int) (q2 : Int) ≤ best) ∧
        (∃ q2 : Nat, q2 < s.bitrates_.length ∧
          s.Search (depth - 1) tp_e
            (max 0 (min buffer (s.buffer_size_ - s.segment_duration_)
              - s.bitrates_.getD q 0 * s.segment_duration_ / tp_e) + s.segment_duration_)
            (q : Int) (q2 : Int) = best)) := by
  obtain ⟨d, rfl⟩ : ∃ d, depth = d + 1 := ⟨depth - 1, by omega⟩
  have hpos : 0 < s.bitrates_.length := Nat.lt_of_le_of_lt (Nat.zero_le q) hq
  refine ⟨MpcAbr.bestLoop (fun q2 => s.Search d tp_e
      (max 0 (min buffer (s.buffer_size_ - s.segment_duration_)
        - s.bitrates_.getD q 0 * s.segment_duration_ / tp_e) + s.segment_duration_)
      (q : Int) (q2 : Int)) s.bitrates_.length, ?_, ?_⟩
  · rw [MpcAbr.Search_unfold, vecAt_natCast, vecAt_natCast]
    by_cases hd : d > 0
    · rw [if_pos hd, if_pos (by omega)]
    · rw [if_neg hd, if_neg (by omega)]
  · intro _
    rw [Nat.add_sub_cancel]
    exact MpcAbr.bestLoop_isMax _ _ hpos

/-- Witness for C10 (as amended): a two-level search on the ladder `[500, 1000, 2000]`. -/
theorem MpcAbr.Search_value_witness :
    ∃ best : ℚ,
      (MpcAbr.create 4000 20000 [500, 1000, 2000]).Search 2 800 18000 ((0 : Nat) : Int)
          ((1 : Nat) : Int) =
        (MpcAbr.create 4000 20000 [500, 1000, 2000]).bitrates_.getD 1 0
          - |(MpcAbr.create 4000 20000 [500, 1000, 2000]).bitrates_.getD 1 0
              - (MpcAbr.create 4000 20000 [500, 1000, 2000]).bitrates_.getD 0 0|
          - 3 * max 0 ((MpcAbr.create 4000 20000 [500, 1000, 2000]).bitrates_.getD 1 0
                * (MpcAbr.create 4000 20000 [500, 1000, 2000]).segment_duration_ / 800
              - min 18000 ((MpcAbr.create 4000 20000 [500, 1000, 2000]).buffer_size_
                - (MpcAbr.create 4000 20000 [500, 1000, 2000]).segment_duration_))
          + (if 2 > 1 then best else 0) :=
  (MpcAbr.Search_value (MpcAbr.create 4000 20000 [500, 1000, 2000]) 2 800 18000 0 1
    (by norm_num) (by norm_num) (by norm_num) (by simp [MpcAbr.create])
    (by simp [MpcAbr.create])).imp (fun _ h => h.1)

/-- C10 (counterexample). With `D = 4000`, `B = 20000`, one bitrate `1000`,
`tp_e = 200` and `buffer = 18000`, the source caps the buffer at `B - D = 16000`
before charging `T = 20000` and charges a rebuffer of `4000`, value `-11000`; the
formula of the claim charges `max(0, T - buffer) = 2000`, value `-5000`. -/
theorem MpcAbr.Search_ne_claimed :
    (MpcAbr.create 4000 20000 [1000]).Search 1 200 18000 0 0 = -11000 ∧
    (MpcAbr.create 4000 20000 [1000]).SearchClaimed 1 200 18000 0 0 = -5000 ∧
    (MpcAbr.create 4000 20000 [1000]).Search 1 200 18000 0 0 ≠
      (MpcAbr.create 4000 20000 [1000]).SearchClaimed 1 200 18000 0 0 := by
  have h1 : (MpcAbr.create 4000 20000 [1000]).Search 1 200 18000 0 0 = -11000 := by
    norm_num [MpcAbr.create, MpcAbr.Search, MpcAbr.Evaluate, vecAt]
  have h2 : (MpcAbr.create 4000 20000 [1000]).SearchClaimed 1 200 18000 0 0 = -5000 := by
    norm_num [MpcAbr.create, MpcAbr.SearchClaimed, vecAt]
  refine ⟨h1, h2, ?_⟩
  rw [h1, h2]; norm_num

/-! ## BolaE: structure of a call -/

/-- The progress loop returns the map it was given. -/
theorem BolaAbr.progressLoop_eq (progress : DownloadProgress) (m : SsimMap) :
    BolaAbr.progressLoop progress m = m := by
  have h : ∀ (l acc : SsimMap),
      List.foldl (fun the_map ssim_entry =>
        let _ssim_entry := BolaAbr.adjustedEntry progress ssim_entry
        the_map) acc l = acc := by
    intro l
    induction l with
    | nil => intro acc; rfl
    | cons e rest ih => intro acc; exact ih acc
  exact h m m

/-- The map a call of `BolaE` works on is the map it was passed. -/
theorem BolaAbr.workingMap_eq (progress : DownloadProgress) (m : SsimMap) :
    BolaAbr.workingMap progress m = m := by
  unfold BolaAbr.workingMap
  by_cases h : progress.in_progress = true
  · simp only [h, if_true, BolaAbr.progressLoop_eq]
  · simp only [h, if_false]
    rfl

/-- The loop of `QualityFromBufferLevel` ends on its initial key or on a key of the map. -/
theorem BolaAbr.bufferLevelLoop_mem (s : BolaAbr) (bl : ℚ) (fq : Int) (pen : ℚ) :
    ∀ (m : SsimMap) (acc : ℚ × ℚ),
      (BolaAbr.bufferLevelLoop s bl fq pen m acc).1 = acc.1 ∨
      (BolaAbr.bufferLevelLoop s bl fq pen m acc).1 ∈ m.map Prod.fst := by
  intro m
  induction m with
  | nil => intro acc; left; rfl
  | cons e rest ih =>
    intro acc
    obtain ⟨best, score⟩ := acc
    simp only [BolaAbr.bufferLevelLoop]
    by_cases h : best = 0 ∨ s.Score bl ((e.2.size : ℚ) * 8)
        (if e.2.quality < fq then e.1 - pen else e.1) > score
    · rw [if_pos h]
      rcases ih (e.1, s.Score bl ((e.2.size : ℚ) * 8)
          (if e.2.quality < fq then e.1 - pen else e.1)) with h1 | h1
      · right; rw [h1]; simp
      · right; simp only [List.map_cons, List.mem_cons]; right; exact h1
    · rw [if_neg h]
      rcases ih (best, score) with h1 | h1
      · left; exact h1
      · right; simp only [List.map_cons, List.mem_cons]; right; exact h1

/-- On a non-empty map `QualityFromBufferLevel` returns a key of the map. -/
theorem BolaAbr.QualityFromBufferLevel_mem (s : BolaAbr) (bl : ℚ) (m : SsimMap)
    (mq fq : Int) (hne : m ≠ []) :
    s.QualityFromBufferLevel bl m mq fq ∈ m.map Prod.fst := by
  cases m with
  | nil => exact absurd rfl hne
  | cons e rest =>
    simp only [BolaAbr.QualityFromBufferLevel, BolaAbr.bufferLevelLoop, true_or, if_true]
    rcases BolaAbr.bufferLevelLoop_mem s bl fq s.favorSsimPenalty rest
        (e.1, s.Score bl ((e.2.size : ℚ) * 8)
          (if e.2.quality < fq then e.1 - s.favorSsimPenalty else e.1)) with h1 | h1
    · rw [h1]; simp
    · simp only [List.map_cons, List.mem_cons]; right; exact h1

/-- The value of `find(k)` on a map that holds the key `k`: the entry found and the
entries before it. -/
theorem findIter_of_mem (k : ℚ) :
    ∀ (m acc : SsimMap), k ∈ m.map Prod.fst →
      ∃ (pre : SsimMap) (entry : ℚ × SSIMBasedQuality) (post : SsimMap),
        m = pre ++ entry :: post ∧ entry.1 = k ∧
        findIter k m acc = some (pre.reverse ++ acc, entry) := by
  intro m
  induction m with
  | nil => intro acc h; simp at h
  | cons e rest ih =>
    intro acc h
    by_cases he : e.1 = k
    · exact ⟨[], e, rest, rfl, he, by simp [findIter, he]⟩
    · have hk : k ∈ rest.map Prod.fst := by
        simp only [List.map_cons, List.mem_cons] at h
        rcases h with h | h
        · exact absurd h.symm he
        · exact h
      obtain ⟨pre, entry, post, hm, hkey, hfind⟩ := ih (e :: acc) hk
      refine ⟨e :: pre, entry, post, by rw [hm]; rfl, hkey, ?_⟩
      simp only [findIter, if_neg he, hfind, List.reverse_cons, List.append_assoc,
        List.singleton_append]

/-- The safe-size walk ends on the entry it started from or on an entry it visited,
with a size that is within the safe size or minimal among the visited entries. -/
theorem BolaAbr.safeSizeWalk_spec (safe : Nat) :
    ∀ (before : SsimMap) (ssim : ℚ) (quality : Int) (cur_size : Nat),
      ((BolaAbr.safeSizeWalk safe (ssim, quality, cur_size) before = (ssim, quality, cur_size)) ∨
        (∃ e ∈ before, BolaAbr.safeSizeWalk safe (ssim, quality, cur_size) before =
          (e.1, e.2.quality, e.2.size))) ∧
      (BolaAbr.safeSizeWalk safe (ssim, quality, cur_size) before).2.2 ≤ cur_size ∧
      ((BolaAbr.safeSizeWalk safe (ssim, quality, cur_size) before).2.2 ≤ safe ∨
        ∀ e ∈ before, (BolaAbr.safeSizeWalk safe (ssim, quality, cur_size) before).2.2
          ≤ e.2.size) := by
  intro before
  induction before with
  | nil =>
    intro ssim quality cur_size
    simp [BolaAbr.safeSizeWalk]
  | cons e rest ih =>
    intro ssim quality cur_size
    simp only [BolaAbr.safeSizeWalk]
    by_cases hsafe : cur_size > safe
    · rw [if_pos hsafe]
      by_cases hnew : e.2.size < cur_size
      · rw [if_pos hnew]
        obtain ⟨h1, h2, h3⟩ := ih e.1 e.2.quality e.2.size
        refine ⟨?_, le_trans h2 (le_of_lt hnew), ?_⟩
        · right
          rcases h1 with h1 | ⟨e2, he2, h1⟩
          · exact ⟨e, List.mem_cons_self _ _, h1⟩
          · exact ⟨e2, List.mem_cons_of_mem _ he2, h1⟩
        · rcases h3 with h3 | h3
          · left; exact h3
          · right
            intro e2 he2
            rcases List.mem_cons.mp he2 with rfl | he2
            · exact h2
            · exact h3 e2 he2
      · rw [if_neg hnew]
        obtain ⟨h1, h2, h3⟩ := ih ssim quality cur_size
        refine ⟨?_, h2, ?_⟩
        · rcases h1 with h1 | ⟨e2, he2, h1⟩
          · left; exact h1
          · right; exact ⟨e2, List.mem_cons_of_mem _ he2, h1⟩
        · rcases h3 with h3 | h3
          · left; exact h3
          · right
            intro e2 he2
            rcases List.mem_cons.mp he2 with rfl | he2
            · exact le_trans h2 (not_lt.mp hnew)
            · exact h3 e2 he2
    · rw [if_neg hsafe]
      exact ⟨Or.inl rfl, le_refl _, Or.inl (not_lt.mp hsafe)⟩

/-- A call of `BolaE` after initialisation, on a non-empty map: the key that maximises
the score is found in the map, the safe-size walk starts there and visits the entries
before it, and the call returns. -/
theorem BolaAbr.BolaE_eq (s : BolaAbr) (bl tp : ℚ) (m : SsimMap) (retry : Int)
    (p : DownloadProgress) (hlq : s.last_quality_ ≠ -1) (hne : m ≠ []) :
    ∃ (pre : SsimMap) (entry : ℚ × SSIMBasedQuality) (post : SsimMap),
      m = pre ++ entry :: post ∧
      entry.1 = s.QualityFromBufferLevel (bl + s.placeholder_) m 0 s.last_quality_ ∧
      s.BolaE bl tp m retry p =
        some (if p.in_progress = true then
            ((BolaAbr.safeSizeWalk
              (toSizeT (s.SafeDownloadSizeBits (min bl (s.buffer_size_ - s.segment_duration_)) tp / 8))
              (entry.1, entry.2.quality, entry.2.size) pre.reverse).1, 0, s)
          else
            ((BolaAbr.safeSizeWalk
              (toSizeT (s.SafeDownloadSizeBits (min bl (s.buffer_size_ - s.segment_duration_)) tp / 8))
              (entry.1, entry.2.quality, entry.2.size) pre.reverse).1,
             (s.newDownloadUpdate bl
              (BolaAbr.safeSizeWalk
                (toSizeT (s.SafeDownloadSizeBits (min bl (s.buffer_size_ - s.segment_duration_)) tp / 8))
                (entry.1, entry.2.quality, entry.2.size) pre.reverse).1
              (BolaAbr.safeSizeWalk
                (toSizeT (s.SafeDownloadSizeBits (min bl (s.buffer_size_ - s.segment_duration_)) tp / 8))
                (entry.1, entry.2.quality, entry.2.size) pre.reverse).2.1))) := by
  have hmem := BolaAbr.QualityFromBufferLevel_mem s (bl + s.placeholder_) m 0 s.last_quality_ hne
  obtain ⟨pre, entry, post, hm, hkey, hfind⟩ := findIter_of_mem _ m [] hmem
  refine ⟨pre, entry, post, hm, hkey, ?_⟩
  have hmin : (if bl > s.buffer_size_ - s.segment_duration_ then
        s.buffer_size_ - s.segment_duration_ else bl)
      = min bl (s.buffer_size_ - s.segment_duration_) := by
    split_ifs with h
    · rw [min_eq_right]; linarith
    · rw [min_eq_left]; linarith
  have hq : ∀ mq : Int, s.QualityFromBufferLevel (bl + s.placeholder_) m mq s.last_quality_
      = s.QualityFromBufferLevel (bl + s.placeholder_) m 0 s.last_quality_ := fun _ => rfl
  unfold BolaAbr.BolaE
  simp only [BolaAbr.workingMap_eq, if_neg hlq, hq, hfind, hmin, List.append_nil, hkey]
  by_cases hp : p.in_progress = true
  · simp [hp]
  · simp [hp]

/-- The update block leaves the buffer level, the buffer size and the segment duration. -/
theorem BolaAbr.newDownloadUpdate_frame (s : BolaAbr) (bl ssim : ℚ) (quality : Int) :
    (s.newDownloadUpdate bl ssim quality).2.buffer_level_ = s.buffer_level_ ∧
    (s.newDownloadUpdate bl ssim quality).2.buffer_size_ = s.buffer_size_ ∧
    (s.newDownloadUpdate bl ssim quality).2.segment_duration_ = s.segment_duration_ ∧
    (s.newDownloadUpdate bl ssim quality).2.bitrates_ = s.bitrates_ ∧
    (s.newDownloadUpdate bl ssim quality).2.log_ = s.log_ :=
  ⟨rfl, rfl, rfl, rfl, rfl⟩

/-- The loop of `QualityFromBufferLevel`, started on a chosen key that is not `0`, over
entries whose keys are not `0`: it keeps the running maximum of the scores and moves
only to an entry that scores strictly above everything met before it. -/
theorem BolaAbr.bufferLevelLoop_max (s : BolaAbr) (bl : ℚ) (fq : Int) :
    ∀ (rest : SsimMap) (best score : ℚ), best ≠ 0 → (∀ e ∈ rest, e.1 ≠ 0) →
      (∀ e ∈ rest, s.entryScore bl fq e ≤
        (BolaAbr.bufferLevelLoop s bl fq s.favorSsimPenalty rest (best, score)).2) ∧
      score ≤ (BolaAbr.bufferLevelLoop s bl fq s.favorSsimPenalty rest (best, score)).2 ∧
      (BolaAbr.bufferLevelLoop s bl fq s.favorSsimPenalty rest (best, score) = (best, score) ∨
        ∃ (pre : SsimMap) (e : ℚ × SSIMBasedQuality) (post : SsimMap),
          rest = pre ++ e :: post ∧
          BolaAbr.bufferLevelLoop s bl fq s.favorSsimPenalty rest (best, score)
            = (e.1, s.entryScore bl fq e) ∧
          score < s.entryScore bl fq e ∧
          ∀ e2 ∈ pre, s.entryScore bl fq e2 < s.entryScore bl fq e) := by
  intro rest
  induction rest with
  | nil =>
    intro best score _ _
    exact ⟨fun e he => absurd he (List.not_mem_nil e), le_refl _, Or.inl rfl⟩
  | cons e rest ih =>
    intro best score hb hk
    have hke : e.1 ≠ 0 := hk e (List.mem_cons_self _ _)
    have hkr : ∀ e2 ∈ rest, e2.1 ≠ 0 := fun e2 h => hk e2 (List.mem_cons_of_mem _ h)
    have hstep : BolaAbr.bufferLevelLoop s bl fq s.favorSsimPenalty (e :: rest) (best, score) =
        if s.entryScore bl fq e > score then
          BolaAbr.bufferLevelLoop s bl fq s.favorSsimPenalty rest (e.1, s.entryScore bl fq e)
        else BolaAbr.bufferLevelLoop s bl fq s.favorSsimPenalty rest (best, score) := by
      simp only [BolaAbr.bufferLevelLoop, BolaAbr.entryScore, hb, false_or]
    rw [hstep]
    by_cases hgt : s.entryScore bl fq e > score
    · rw [if_pos hgt]
      obtain ⟨h1, h2, h3⟩ := ih e.1 (s.entryScore bl fq e) hke hkr
      refine ⟨?_, le_trans (le_of_lt hgt) h2, ?_⟩
      · intro e2 he2
        rcases List.mem_cons.mp he2 with rfl | he2
        · exact h2
        · exact h1 e2 he2
      · right
        rcases h3 with h3 | ⟨pre, e3, post, hsplit, heq, hlt, hpre⟩
        · exact ⟨[], e, rest, rfl, h3, hgt, fun e2 he2 => absurd he2 (List.not_mem_nil e2)⟩
        · refine ⟨e :: pre, e3, post, by rw [hsplit]; rfl, heq, lt_trans hgt hlt, ?_⟩
          intro e2 he2
          rcases List.mem_cons.mp he2 with rfl | he2
          · exact hlt
          · exact hpre e2 he2
    · rw [if_neg hgt]
      obtain ⟨h1, h2, h3⟩ := ih best score hb hkr
      refine ⟨?_, h2, ?_⟩
      · intro e2 he2
        rcases List.mem_cons.mp he2 with rfl | he2
        · exact le_trans (not_lt.mp hgt) h2
        · exact h1 e2 he2
      · rcases h3 with h3 | ⟨pre, e3, post, hsplit, heq, hlt, hpre⟩
        · left; exact h3
        · right
          refine ⟨e :: pre, e3, post, by rw [hsplit]; rfl, heq, hlt, ?_⟩
          intro e2 he2
          rcases List.mem_cons.mp he2 with rfl | he2
          · exact lt_of_le_of_lt (not_lt.mp hgt) hlt
          · exact hpre e2 he2

/-- The arg-max property on the maps without the key `0` (and with entries of positive
size, so that every score is a quotient of the source): `QualityFromBufferLevel` returns
the key of an entry whose score is maximal over the map, and every entry before it in
key order scores strictly less. -/
theorem BolaAbr.QualityFromBufferLevel_argmax_of_nonzero_keys (s : BolaAbr) (bl : ℚ)
    (m : SsimMap) (mq fq : Int) (hne : m ≠ []) (hk : ∀ e ∈ m, e.1 ≠ 0)
    (_hsize : ∀ e ∈ m, 0 < e.2.size) :
    ∃ (pre : SsimMap) (e : ℚ × SSIMBasedQuality) (post : SsimMap),
      m = pre ++ e :: post ∧
      s.QualityFromBufferLevel bl m mq fq = e.1 ∧
      (∀ e2 ∈ m, s.entryScore bl fq e2 ≤ s.entryScore bl fq e) ∧
      (∀ e2 ∈ pre, s.entryScore bl fq e2 < s.entryScore bl fq e) := by
  cases m with
  | nil => exact absurd rfl hne
  | cons e0 rest =>
    have hk0 : e0.1 ≠ 0 := hk e0 (List.mem_cons_self _ _)
    have hkr : ∀ e2 ∈ rest, e2.1 ≠ 0 := fun e2 h => hk e2 (List.mem_cons_of_mem _ h)
    have hfirst : s.QualityFromBufferLevel bl (e0 :: rest) mq fq =
        (BolaAbr.bufferLevelLoop s bl fq s.favorSsimPenalty rest
          (e0.1, s.entryScore bl fq e0)).1 := by
      simp only [BolaAbr.QualityFromBufferLevel, BolaAbr.bufferLevelLoop, BolaAbr.entryScore,
        true_or, if_true]
    obtain ⟨h1, h2, h3⟩ :=
      BolaAbr.bufferLevelLoop_max s bl fq rest e0.1 (s.entryScore bl fq e0) hk0 hkr
    rcases h3 with h3 | ⟨pre, e, post, hsplit, heq, hlt, hpre⟩
    · refine ⟨[], e0, rest, rfl, by rw [hfirst, h3], ?_, fun e2 he2 => absurd he2 (List.not_mem_nil e2)⟩
      rw [h3] at h1
      intro e2 he2
      rcases List.mem_cons.mp he2 with rfl | he2
      · exact le_refl _
      · exact h1 e2 he2
    · refine ⟨e0 :: pre, e, post, by rw [hsplit]; rfl, by rw [hfirst, heq], ?_, ?_⟩
      · rw [heq] at h1
        intro e2 he2
        rcases List.mem_cons.mp he2 with rfl | he2
        · exact le_of_lt hlt
        · exact h1 e2 he2
      · intro e2 he2
        rcases List.mem_cons.mp he2 with rfl | he2
        · exact hlt
        · exact hpre e2 he2

/-! ## BolaE: the claims -/

/-- C2 (evaluation at the failing input). On the map built for log utilities, whose
first key is `0`, and a buffer level of `4000`, the entry of key `0` has the strictly
larger score (`9/2000` against `3/1000`), yet `QualityFromBufferLevel` returns the key
`7/10`: after the first entry `best_ssim` is `0`, which the loop reads as "nothing
chosen yet", so the next entry is taken whatever its score. -/
theorem BolaAbr.QualityFromBufferLevel_zero_key :
    exBolaLog.QualityFromBufferLevel 4000 exMapLog 0 0 = 7 / 10 ∧
    exBolaLog.Score 4000 (250000 * 8) 0 = 9 / 2000 ∧
    exBolaLog.Score 4000 (500000 * 8) (7 / 10) = 3 / 1000 ∧
    exBolaLog.Score 4000 (500000 * 8) (7 / 10) < exBolaLog.Score 4000 (250000 * 8) 0 := by
  refine ⟨?_, ?_, ?_, ?_⟩
  · norm_num [BolaAbr.QualityFromBufferLevel, BolaAbr.bufferLevelLoop, exMapLog, exEntry,
      exBolaLog, BolaAbr.Score, BolaAbr.favorSsimPenalty]
  · norm_num [exBolaLog, BolaAbr.Score]
  · norm_num [exBolaLog, BolaAbr.Score]
  · norm_num [exBolaLog, BolaAbr.Score]

/-- The constructor gives `exBola` its `Vp` and `gp`, and `exBolaLog` the ones it has
for the utilities `[0, 7/10]`. -/
theorem BolaAbr.create_examples :
    (BolaAbr.create 4000 20000 [500, 1000, 2000] [4 / 5, 17 / 20, 9 / 10]).map
      (fun b => (b.vp_, b.gp_)) = some (exBola.vp_, exBola.gp_) ∧
    (BolaAbr.create 4000 20000 [500, 1000] [0, 7 / 10]).map
      (fun b => (b.vp_, b.gp_)) = some (exBolaLog.vp_, exBolaLog.gp_) := by
  constructor <;>
    norm_num [BolaAbr.create, vecAt, BolaAbr.kBufferLow, BolaAbr.kMinThreshold, exBola,
      exBolaLog]

/-- A call of `BolaE` reads `progress.in_progress` and nothing else of `progress`. -/
theorem BolaAbr.BolaE_progress_fields_unread (s : BolaAbr) (bl tp : ℚ) (m : SsimMap)
    (retry : Int) (p q : DownloadProgress) (h : p.in_progress = q.in_progress) :
    s.BolaE bl tp m retry p = s.BolaE bl tp m retry q := by
  unfold BolaAbr.BolaE
  simp only [BolaAbr.workingMap_eq, h]

/-- C4. After initialisation and on a non-empty map, a call of the map-based `BolaE`
with `progress.in_progress = true` returns and leaves `last_quality_`, `placeholder_`,
`ibr_safety_factor_`, `ibr_safety_factor_target_` and `buffer_level_` as they were. -/
theorem BolaAbr.BolaE_in_progress_frame (s : BolaAbr) (bl tp : ℚ) (m : SsimMap) (retry : Int)
    (p : DownloadProgress) (hlq : s.last_quality_ ≠ -1) (hne : m ≠ [])
    (hp : p.in_progress = true) :
    ∃ (ssim pause : ℚ) (s2 : BolaAbr),
      s.BolaE bl tp m retry p = some (ssim, pause, s2) ∧
      s2.last_quality_ = s.last_quality_ ∧
      s2.placeholder_ = s.placeholder_ ∧
      s2.ibr_safety_factor_ = s.ibr_safety_factor_ ∧
      s2.ibr_safety_factor_target_ = s.ibr_safety_factor_target_ ∧
      s2.buffer_level_ = s.buffer_level_ := by
  obtain ⟨pre, entry, post, _, _, hE⟩ := BolaAbr.BolaE_eq s bl tp m retry p hlq hne
  rw [if_pos hp] at hE
  exact ⟨_, 0, s, hE, rfl, rfl, rfl, rfl, rfl⟩

/-- Witness for C4: the in-progress call on `exBolaBusy`. -/
theorem BolaAbr.BolaE_in_progress_frame_witness :
    ∃ (ssim pause : ℚ) (s2 : BolaAbr),
      exBolaBusy.BolaE 2000 1000 exMap 0 exProgress = some (ssim, pause, s2) ∧
      s2.last_quality_ = exBolaBusy.last_quality_ ∧
      s2.placeholder_ = exBolaBusy.placeholder_ ∧
      s2.ibr_safety_factor_ = exBolaBusy.ibr_safety_factor_ ∧
      s2.ibr_safety_factor_target_ = exBolaBusy.ibr_safety_factor_target_ ∧
      s2.buffer_level_ = exBolaBusy.buffer_level_ :=
  BolaAbr.BolaE_in_progress_frame exBolaBusy 2000 1000 exMap 0 exProgress
    (by simp [exBolaBusy]) (by simp [exMap]) rfl

/-- C5 (evaluation at the failing input). With a download of quality `1` in progress,
`350000` bytes into its unreliable half, the remaining costs of the two entries of
quality `1` are `1` and `70000` bytes, and that is what the loop body computes in its
loop variable; the map `BolaE` works on still holds `400000` and `500000`.  On it the
call recommends the key `1/2` (quality `0`); on the map of remaining costs it would
recommend `17/20` (quality `1`). -/
theorem BolaAbr.BolaE_progress_sizes_unchanged :
    (exMap.map (BolaAbr.adjustedEntry exProgress)).map (fun e => (e.1, e.2.size)) =
      [(1 / 2, 100000), (4 / 5, 250000), (17 / 20, 1), (9 / 10, 70000)] ∧
    (BolaAbr.workingMap exProgress exMap).map (fun e => (e.1, e.2.size)) =
      [(1 / 2, 100000), (4 / 5, 250000), (17 / 20, 400000), (9 / 10, 500000)] ∧
    (exBolaBusy.BolaE 2000 1000 exMap 0 exProgress).map (fun r => r.1) = some (1 / 2) ∧
    (exBolaBusy.BolaE 2000 1000 (exMap.map (BolaAbr.adjustedEntry exProgress)) 0
      exProgress).map (fun r => r.1) = some (17 / 20) := by
  refine ⟨?_, ?_, ?_, ?_⟩
  · norm_num [exMap, exEntry, exProgress, BolaAbr.adjustedEntry, sizeSub]
  · rw [BolaAbr.workingMap_eq]
    simp [exMap, exEntry]
  · norm_num [BolaAbr.BolaE, BolaAbr.workingMap_eq, exBolaBusy, exBola, exMap, exEntry,
      exProgress, BolaAbr.QualityFromBufferLevel, BolaAbr.bufferLevelLoop, BolaAbr.Score,
      BolaAbr.favorSsimPenalty, findIter, BolaAbr.SafeDownloadSizeBits, toSizeT,
      BolaAbr.safeSizeWalk, BolaAbr.maxQualityLoop]
  · norm_num [BolaAbr.BolaE, BolaAbr.workingMap_eq, exBolaBusy, exBola, exMap, exEntry,
      exProgress, BolaAbr.QualityFromBufferLevel, BolaAbr.bufferLevelLoop, BolaAbr.Score,
      BolaAbr.favorSsimPenalty, findIter, BolaAbr.SafeDownloadSizeBits, toSizeT,
      BolaAbr.safeSizeWalk, BolaAbr.maxQualityLoop, BolaAbr.adjustedEntry, sizeSub]

/-- The loop of `QualityFromBufferLevel` reads `vp_` and `gp_` only. -/
theorem BolaAbr.bufferLevelLoop_congr (s t : BolaAbr) (hvp : t.vp_ = s.vp_) (hgp : t.gp_ = s.gp_)
    (bl : ℚ) (fq : Int) (pen : ℚ) :
    ∀ (m : SsimMap) (acc : ℚ × ℚ),
      BolaAbr.bufferLevelLoop t bl fq pen m acc = BolaAbr.bufferLevelLoop s bl fq pen m acc := by
  intro m
  induction m with
  | nil => intro acc; rfl
  | cons e rest ih =>
    intro acc
    obtain ⟨best, score⟩ := acc
    simp only [BolaAbr.bufferLevelLoop, BolaAbr.Score, hvp, hgp, ih]

/-- C6 (as amended). For every call of the map-based `BolaE` after initialisation, on a
non-empty map, the returned key is the key of an entry of the map, and the key, the
pause and the quality index recorded in `last_quality_` are the same for every bitrate
vector, hence for every bound `max(m, last_quality)` computed from it, just as
`QualityFromBufferLevel` returns the same key for every `max_quality`: no candidate is
excluded by that bound. -/
theorem BolaAbr.BolaE_ignores_max_quality (s : BolaAbr) (bl tp : ℚ) (m : SsimMap)
    (retry : Int) (p : DownloadProgress) (hlq : s.last_quality_ ≠ -1) (hne : m ≠ []) :
    (∃ (r : ℚ × ℚ × BolaAbr) (e : ℚ × SSIMBasedQuality),
      s.BolaE bl tp m retry p = some r ∧ e ∈ m ∧ e.1 = r.1) ∧
    (∀ R : List ℚ,
      (BolaAbr.BolaE { s with bitrates_ := R } bl tp m retry p).map
          (fun r => (r.1, r.2.1, r.2.2.last_quality_)) =
        (s.BolaE bl tp m retry p).map (fun r => (r.1, r.2.1, r.2.2.last_quality_))) ∧
    (∀ (x : ℚ) (mq1 mq2 fq : Int),
      s.QualityFromBufferLevel x m mq1 fq = s.QualityFromBufferLevel x m mq2 fq) := by
  refine ⟨?_, ?_, fun _ _ _ _ => rfl⟩
  · obtain ⟨pre, entry, post, hm, _, hE⟩ := BolaAbr.BolaE_eq s bl tp m retry p hlq hne
    obtain ⟨hwho, _, _⟩ := BolaAbr.safeSizeWalk_spec
      (toSizeT (s.SafeDownloadSizeBits (min bl (s.buffer_size_ - s.segment_duration_)) tp / 8))
      pre.reverse entry.1 entry.2.quality entry.2.size
    generalize BolaAbr.safeSizeWalk
      (toSizeT (s.SafeDownloadSizeBits (min bl (s.buffer_size_ - s.segment_duration_)) tp / 8))
      (entry.1, entry.2.quality, entry.2.size) pre.reverse = w at hE hwho
    have hr1 : (if p.in_progress = true then (w.1, (0 : ℚ), s)
        else (w.1, s.newDownloadUpdate bl w.1 w.2.1)).1 = w.1 := by
      split_ifs <;> rfl
    rcases hwho with h | ⟨e, he, h⟩
    · exact ⟨_, entry, hE, by rw [hm]; simp, by rw [hr1, h]⟩
    · exact ⟨_, e, hE, by rw [hm]; exact List.mem_append_left _ (List.mem_reverse.mp he),
        by rw [hr1, h]⟩
  · intro R
    have hQ : ∀ (x : ℚ) (mq fq : Int),
        BolaAbr.QualityFromBufferLevel { s with bitrates_ := R } x m mq fq =
          s.QualityFromBufferLevel x m 0 fq := by
      intro x mq fq
      unfold BolaAbr.QualityFromBufferLevel
      rw [BolaAbr.bufferLevelLoop_congr s { s with bitrates_ := R } rfl rfl]
      rfl
    have hQ0 : ∀ (x : ℚ) (mq fq : Int),
        s.QualityFromBufferLevel x m mq fq = s.QualityFromBufferLevel x m 0 fq :=
      fun _ _ _ => rfl
    unfold BolaAbr.BolaE
    simp only [BolaAbr.workingMap_eq, if_neg hlq, hQ, hQ0]
    cases findIter (s.QualityFromBufferLevel (bl + s.placeholder_) m 0 s.last_quality_) m [] with
    | none => rfl
    | some found =>
      by_cases hp : p.in_progress = true
      · simp [hp, BolaAbr.SafeDownloadSizeBits]
      · simp [hp, BolaAbr.SafeDownloadSizeBits, BolaAbr.newDownloadUpdate,
          BolaAbr.BufferLevelForZeroScore]

/-- Witness for C6 (as amended): the call of the counterexample returns an entry of
`exMapHigh`. -/
theorem BolaAbr.BolaE_ignores_max_quality_witness :
    ∃ (r : ℚ × ℚ × BolaAbr) (e : ℚ × SSIMBasedQuality),
      exBola.BolaE 8000 100 exMapHigh 0 kNewDownload = some r ∧ e ∈ exMapHigh ∧ e.1 = r.1 :=
  (BolaAbr.BolaE_ignores_max_quality exBola 8000 100 exMapHigh 0 kNewDownload
    (by simp [exBola]) (by simp [exMapHigh])).1

/-- C6 (counterexample). With the bitrates `[500, 1000, 2000]`, a throughput of `100`
and `last_quality_ = 0`, the lowest index whose bitrate is at least the throughput is
`0`, so the bound of the claim is `max(0, 0) = 0`; on `exMapHigh` the call returns the
key `19/20`, whose entry has the quality `2`, and records `2` in `last_quality_`. -/
theorem BolaAbr.BolaE_exceeds_max_quality :
    (exBola.BolaE 8000 100 exMapHigh 0 kNewDownload).map
      (fun r => (r.1, r.2.2.last_quality_)) = some (19 / 20, 2) ∧
    (mapAt exMapHigh (19 / 20)).map (fun e => e.quality) = some 2 ∧
    (100 : ℚ) ≤ exBola.bitrates_.getD 0 0 ∧
    exBola.last_quality_ = 0 ∧
    ¬ ((2 : Int) ≤ max 0 exBola.last_quality_) := by
  refine ⟨?_, ?_, ?_, ?_, ?_⟩
  · norm_num [BolaAbr.BolaE, BolaAbr.workingMap_eq, exBola, exMapHigh, exEntry,
      kNewDownload, BolaAbr.QualityFromBufferLevel, BolaAbr.bufferLevelLoop, BolaAbr.Score,
      BolaAbr.favorSsimPenalty, findIter, BolaAbr.SafeDownloadSizeBits, toSizeT,
      BolaAbr.safeSizeWalk, BolaAbr.maxQualityLoop, BolaAbr.newDownloadUpdate,
      BolaAbr.BufferLevelForZeroScore, BolaAbr.kSafetyFactor, BolaAbr.kBufferLow]
  · norm_num [mapAt, exMapHigh, exEntry]
  · norm_num [exBola]
  · rfl
  · norm_num [exBola]

/-- The estimate of a fresh `BPPMovingAverage` after one measurement of `150000` bytes
at `1500` ms, and after one of `50000` bytes at `1500` ms. -/
theorem BPPMovingAverage.GetThroughput_examples :
    (BPPMovingAverage.create.AddMeasurement 150000 ((1500 : Int) : ℚ)).GetThroughput powHalfFloor
      = 6400 / 7 ∧
    (BPPMovingAverage.create.AddMeasurement 50000 ((1500 : Int) : ℚ)).GetThroughput powHalfFloor
      = 6400 / 21 := by
  have hfloor : powHalfFloor 3 = 1 / 8 := by
    have h3 : (3 : ℚ) = ((3 : Int) : ℚ) := by norm_num
    have t3 : Int.toNat 3 = 3 := rfl
    unfold powHalfFloor
    rw [h3, Int.floor_intCast, t3]
    norm_num
  constructor <;>
    norm_num [BPPMovingAverage.AddMeasurement, BPPMovingAverage.create,
      BPPMovingAverage.GetThroughput, sizeSub, BPPMovingAverage.kHalfLife, hfloor]

/-- C12 (evaluation at the failing input). A tick `1500` ms into a request that started
with `1000` ms of buffer, `50000` of `340000` bytes received at quality `1`: the estimate
is `6400/21` kbps and the estimated remaining time `7612.5` ms.  The signed remaining
buffer is `-500` ms, which the estimated time is not below, so the claim has the early
exit not taken; `remaining_buffer` is a `uint32_t` and holds `4294966796`, which the
estimated time is below, and `BPPShouldAbandon` returns false without consulting `BolaE`
(`ret__ssim` keeps its `0`). -/
theorem QuicClientBase.BPPShouldAbandon_wrapped_remaining_buffer :
    (QuicClientBase.BPPShouldAbandon powHalfFloor BPPMovingAverage.create exBolaBusy 50000 1500
      exConfigDry).map (fun r => (r.1, r.2.2.2.ret__ssim)) = some (false, 0) ∧
    (500 : Int) < 1500 ∧ 50000 < exConfigDry.size ∧ 0 < exConfigDry.quality ∧
    (BPPMovingAverage.create.AddMeasurement 50000 ((1500 : Int) : ℚ)).GetThroughput powHalfFloor
      = 6400 / 21 ∧
    (((sizeSub exConfigDry.size 50000 * 8) % 2 ^ 64 : Nat) : ℚ) / (6400 / 21) = 15225 / 2 ∧
    exConfigDry.buffer_occ - 1500 = -500 ∧
    ¬ ((15225 / 2 : ℚ) < ((exConfigDry.buffer_occ - 1500 : Int) : ℚ)) ∧
    intToUInt32 (exConfigDry.buffer_occ - 1500) = 4294966796 ∧
    (15225 / 2 : ℚ) < ((intToUInt32 (exConfigDry.buffer_occ - 1500) : Nat) : ℚ) := by
  have hrb : intToUInt32 (exConfigDry.buffer_occ - 1500) = 4294966796 := by
    have t : Int.toNat 4294966796 = 4294966796 := rfl
    norm_num [exConfigDry, exConfig, intToUInt32, t]
  refine ⟨?_, by norm_num, by norm_num [exConfigDry, exConfig],
    by norm_num [exConfigDry, exConfig], BPPMovingAverage.GetThroughput_examples.2, ?_,
    by norm_num [exConfigDry, exConfig], by norm_num [exConfigDry, exConfig], hrb, ?_⟩
  · unfold QuicClientBase.BPPShouldAbandon
    simp only [BPPMovingAverage.GetThroughput_examples.2, hrb]
    norm_num [exConfigDry, exConfig, sizeSub, GRACE_TIME_THRESHOLD]
  · norm_num [exConfigDry, exConfig, sizeSub]
  · rw [hrb]; norm_num

/-- The early exit of `BPPShouldAbandon` once the request has outlived the buffer it
started with: for `elapsed > 500` ms, `received < size`, a non-zero estimate,
`buffer_occ < elapsed <= buffer_occ + 2^31` and an estimated remaining time below
`2^31` ms, the `uint32_t remaining_buffer` holds at least `2^31`, and the function
returns false without consulting `BolaE` and without touching the record. -/
theorem QuicClientBase.BPPShouldAbandon_outlived_buffer (pow_half : ℚ → ℚ)
    (avg : BPPMovingAverage) (bola : BolaAbr) (received : Nat) (time : Int)
    (dc : DownloadConfig) (ht : 500 < time) (hrec : received < dc.size)
    (hm : (avg.AddMeasurement received (time : ℚ)).GetThroughput pow_half ≠ 0)
    (hdry : dc.buffer_occ < time) (hwrap : time - dc.buffer_occ ≤ 2 ^ 31)
    (heta : (((sizeSub dc.size received * 8) % 2 ^ 64 : Nat) : ℚ)
        / (avg.AddMeasurement received (time : ℚ)).GetThroughput pow_half < 2 ^ 31) :
    (2 : ℚ) ^ 31 ≤ ((intToUInt32 (dc.buffer_occ - time) : Nat) : ℚ) ∧
    QuicClientBase.BPPShouldAbandon pow_half avg bola received time dc
      = some (false, avg.AddMeasurement received (time : ℚ), bola, dc) := by
  have hu : 2 ^ 31 ≤ intToUInt32 (dc.buffer_occ - time) := by
    unfold intToUInt32
    omega
  have hq : (2 : ℚ) ^ 31 ≤ ((intToUInt32 (dc.buffer_occ - time) : Nat) : ℚ) := by
    exact_mod_cast hu
  refine ⟨hq, ?_⟩
  unfold QuicClientBase.BPPShouldAbandon
  simp only [GRACE_TIME_THRESHOLD]
  rw [if_pos ⟨ht, hrec⟩, if_neg hm, if_pos (lt_of_lt_of_le heta hq)]

/-- The loop of the `no_drop` reshape on entries whose qualities index `temp_map` and
that all require a frame: it returns, and every slot of `temp_map` holds the
value-initialised pair as long as no entry of its quality was met, and afterwards an
entry of its quality with the largest `required_frames` met so far. -/
theorem reshapeLoop_spec (Q : Nat) (rest : List (ℚ × SSIMBasedQuality))
    (hq : ∀ e ∈ rest, 0 ≤ e.2.quality ∧ e.2.quality.toNat < Q)
    (hpos : ∀ e ∈ rest, 0 < e.2.required_frames) :
    ∀ (P temp : List (ℚ × SSIMBasedQuality)), temp.length = Q →
      (∀ q, q < Q → ∃ t, temp[q]? = some t ∧
        ((t.2.required_frames = 0 ∧ ∀ e ∈ P, e.2.quality ≠ (q : Int)) ∨
         (t ∈ P ∧ t.2.quality = (q : Int) ∧
           ∀ e ∈ P, e.2.quality = (q : Int) → e.2.required_frames ≤ t.2.required_frames))) →
      ∃ temp2, reshapeLoop rest temp = some temp2 ∧ temp2.length = Q ∧
        ∀ q, q < Q → ∃ t, temp2[q]? = some t ∧
          ((t.2.required_frames = 0 ∧ ∀ e ∈ P ++ rest, e.2.quality ≠ (q : Int)) ∨
           (t ∈ P ++ rest ∧ t.2.quality = (q : Int) ∧
             ∀ e ∈ P ++ rest, e.2.quality = (q : Int) →
               e.2.required_frames ≤ t.2.required_frames)) := by
  induction rest with
  | nil =>
    intro P temp hlen hinv
    exact ⟨temp, rfl, hlen, by simpa using hinv⟩
  | cons it rest ih =>
    intro P temp hlen hinv
    obtain ⟨hq0, hq1⟩ := hq it (List.mem_cons_self _ _)
    have hp0 := hpos it (List.mem_cons_self _ _)
    have hcast : ((it.2.quality.toNat : Nat) : Int) = it.2.quality := Int.toNat_of_nonneg hq0
    obtain ⟨t0, ht0, hcase0⟩ := hinv _ hq1
    have hgetD : (temp.getD it.2.quality.toNat
        (0, { size := 0, reliable_size := 0, quality := 0, required_frames := 0 })) = t0 := by
      rw [List.getD_eq_getElem?_getD, ht0]
      rfl
    have hstep : ∀ temp1, temp1.length = Q →
        (∀ q, q < Q → ∃ t, temp1[q]? = some t ∧
          ((t.2.required_frames = 0 ∧ ∀ e ∈ P ++ [it], e.2.quality ≠ (q : Int)) ∨
           (t ∈ P ++ [it] ∧ t.2.quality = (q : Int) ∧
             ∀ e ∈ P ++ [it], e.2.quality = (q : Int) →
               e.2.required_frames ≤ t.2.required_frames))) →
        ∃ temp2, reshapeLoop rest temp1 = some temp2 ∧ temp2.length = Q ∧
          ∀ q, q < Q → ∃ t, temp2[q]? = some t ∧
            ((t.2.required_frames = 0 ∧ ∀ e ∈ P ++ it :: rest, e.2.quality ≠ (q : Int)) ∨
             (t ∈ P ++ it :: rest ∧ t.2.quality = (q : Int) ∧
               ∀ e ∈ P ++ it :: rest, e.2.quality = (q : Int) →
                 e.2.required_frames ≤ t.2.required_frames)) := by
      intro temp1 hlen1 hinv1
      have := ih (fun e he => hq e (List.mem_cons_of_mem _ he))
        (fun e he => hpos e (List.mem_cons_of_mem _ he)) (P ++ [it]) temp1 hlen1 hinv1
      simpa [List.append_assoc] using this
    have hother : ∀ q, q < Q → q ≠ it.2.quality.toNat → ∀ t,
        ((t.2.required_frames = 0 ∧ ∀ e ∈ P, e.2.quality ≠ (q : Int)) ∨
         (t ∈ P ∧ t.2.quality = (q : Int) ∧
           ∀ e ∈ P, e.2.quality = (q : Int) → e.2.required_frames ≤ t.2.required_frames)) →
        ((t.2.required_frames = 0 ∧ ∀ e ∈ P ++ [it], e.2.quality ≠ (q : Int)) ∨
         (t ∈ P ++ [it] ∧ t.2.quality = (q : Int) ∧
           ∀ e ∈ P ++ [it], e.2.quality = (q : Int) →
             e.2.required_frames ≤ t.2.required_frames)) := by
      intro q _ hne t ht
      have hitq : it.2.quality ≠ (q : Int) := by
        intro h
        apply hne
        rw [h]
        simp
      rcases ht with ⟨h1, h2⟩ | ⟨h1, h2, h3⟩
      · left
        refine ⟨h1, fun e he => ?_⟩
        rcases List.mem_append.mp he with he | he
        · exact h2 e he
        · rw [List.mem_singleton] at he
          subst he
          exact hitq
      · right
        refine ⟨List.mem_append_left _ h1, h2, fun e he heq => ?_⟩
        rcases List.mem_append.mp he with he | he
        · exact h3 e he heq
        · rw [List.mem_singleton] at he
          subst he
          exact absurd heq hitq
    rw [reshapeLoop, if_pos ⟨hq0, by rw [hlen]; exact hq1⟩, hgetD]
    by_cases hlt : t0.2.required_frames < it.2.required_frames
    · rw [if_pos hlt]
      apply hstep _ (by rw [List.length_set]; exact hlen)
      intro q hqQ
      by_cases hqe : q = it.2.quality.toNat
      · subst hqe
        refine ⟨(it.1, it.2), by
          rw [List.getElem?_set_self (by rw [hlen]; exact hq1)], Or.inr ⟨by simp, hcast ▸ rfl, ?_⟩⟩
        intro e he heq
        rcases List.mem_append.mp he with he | he
        · rcases hcase0 with ⟨_, h2⟩ | ⟨_, _, h3⟩
          · exact absurd heq (h2 e he)
          · exact le_of_lt (lt_of_le_of_lt (h3 e he heq) hlt)
        · rw [List.mem_singleton] at he
          subst he
          exact le_refl _
      · obtain ⟨t, ht, hcase⟩ := hinv q hqQ
        refine ⟨t, by rw [List.getElem?_set_ne (Ne.symm hqe)]; exact ht,
          hother q hqQ hqe t hcase⟩
    · rw [if_neg hlt]
      apply hstep _ hlen
      intro q hqQ
      by_cases hqe : q = it.2.quality.toNat
      · subst hqe
        refine ⟨t0, ht0, ?_⟩
        rcases hcase0 with ⟨h1, _⟩ | ⟨h1, h2, h3⟩
        · omega
        · right
          refine ⟨List.mem_append_left _ h1, h2, fun e he heq => ?_⟩
          rcases List.mem_append.mp he with he | he
          · exact h3 e he heq
          · rw [List.mem_singleton] at he
            subst he
            exact not_lt.mp hlt
      · obtain ⟨t, ht, hcase⟩ := hinv q hqQ
        exact ⟨t, ht, hother q hqQ hqe t hcase⟩

/-- The entries of a map after an assignment `ssim_map[k] = v` under a key the map does
not hold: the new entry and the old ones, one more than before. -/
theorem mapInsert_fresh (k : ℚ) (v : SSIMBasedQuality) (m : SsimMap)
    (h : ∀ e ∈ m, e.1 ≠ k) :
    (mapInsert k v m).length = m.length + 1 ∧
    ∀ x, x ∈ mapInsert k v m ↔ x = (k, v) ∨ x ∈ m := by
  induction m with
  | nil => simp [mapInsert]
  | cons e rest ih =>
    have he : e.1 ≠ k := h e (List.mem_cons_self _ _)
    have ihr := ih (fun x hx => h x (List.mem_cons_of_mem _ hx))
    rw [mapInsert]
    by_cases h1 : k < e.1
    · rw [if_pos h1]
      simp
    · rw [if_neg h1, if_neg (fun hk => he hk.symm)]
      refine ⟨by simp [ihr.1], fun x => ?_⟩
      rw [List.mem_cons, ihr.2 x, List.mem_cons]
      tauto

/-- The map built by assigning the pairs of a list with distinct keys, none of them a
key of the map: its entries are the old ones and the pairs of the list. -/
theorem foldl_mapInsert_fresh (temp : List (ℚ × SSIMBasedQuality)) :
    ∀ (acc : SsimMap), temp.Pairwise (fun a b => a.1 ≠ b.1) →
      (∀ t ∈ temp, ∀ a ∈ acc, a.1 ≠ t.1) →
      (temp.foldl (fun m e => mapInsert e.1 e.2 m) acc).length = acc.length + temp.length ∧
      ∀ x, x ∈ temp.foldl (fun m e => mapInsert e.1 e.2 m) acc ↔ x ∈ acc ∨ x ∈ temp := by
  induction temp with
  | nil =>
    intro acc _ _
    simp
  | cons t rest ih =>
    intro acc hp hacc
    have hf := mapInsert_fresh t.1 t.2 acc (fun a ha => hacc t (List.mem_cons_self _ _) a ha)
    have hpc := List.pairwise_cons.mp hp
    obtain ⟨h1, h2⟩ := ih (mapInsert t.1 t.2 acc) hpc.2 (fun r hr a ha => by
      rcases (hf.2 a).mp ha with ha | ha
      · rw [ha]
        exact hpc.1 r hr
      · exact hacc r (List.mem_cons_of_mem _ hr) a ha)
    rw [List.foldl_cons]
    refine ⟨by rw [h1, hf.1, List.length_cons]; omega, fun x => ?_⟩
    rw [h2 x, hf.2 x, List.mem_cons]
    have : x = (t.1, t.2) ↔ x = t := by
      constructor <;> intro h <;> rw [h]
    rw [this]
    tauto

/-- On a segment SSIM map (keys ascending) whose entries have qualities `0..Q-1` and all
require at least one frame, each quality having an entry, the `no_drop` reshape returns
a map of exactly `Q` entries of the original map, one per quality, each with the largest
`required_frames` of its quality. -/
theorem noDropReshape_of_positive_frames (Q : Nat) (m : SsimMap)
    (hkeys : m.Pairwise (fun e1 e2 => e1.1 < e2.1))
    (hq : ∀ e ∈ m, 0 ≤ e.2.quality ∧ e.2.quality.toNat < Q)
    (hpos : ∀ e ∈ m, 0 < e.2.required_frames)
    (hall : ∀ q, q < Q → ∃ e ∈ m, e.2.quality = (q : Int)) :
    ∃ m2, noDropReshape Q m = some m2 ∧ m2.length = Q ∧ (∀ e ∈ m2, e ∈ m) ∧
      ∀ q, q < Q → ∃ e ∈ m2, e.2.quality = (q : Int) ∧
        (∀ e2 ∈ m, e2.2.quality = (q : Int) → e2.2.required_frames ≤ e.2.required_frames) ∧
        ∀ e3 ∈ m2, e3.2.quality = (q : Int) → e3 = e := by
  obtain ⟨temp, hloop, hlen, hinv⟩ := reshapeLoop_spec Q m.reverse
    (fun e he => hq e (List.mem_reverse.mp he)) (fun e he => hpos e (List.mem_reverse.mp he)) []
    (List.replicate Q (0, { size := 0, reliable_size := 0, quality := 0, required_frames := 0 }))
    (by simp)
    (fun q hqQ => ⟨_, List.getElem?_replicate_of_lt hqQ, Or.inl ⟨rfl, by simp⟩⟩)
  simp only [List.nil_append] at hinv
  have hslot : ∀ q, q < Q → ∃ t, temp[q]? = some t ∧ t ∈ m ∧ t.2.quality = (q : Int) ∧
      ∀ e ∈ m, e.2.quality = (q : Int) → e.2.required_frames ≤ t.2.required_frames := by
    intro q hqQ
    obtain ⟨t, ht, hcase⟩ := hinv q hqQ
    rcases hcase with ⟨_, h2⟩ | ⟨h1, h2, h3⟩
    · obtain ⟨e, he, heq⟩ := hall q hqQ
      exact absurd heq (h2 e (List.mem_reverse.mpr he))
    · exact ⟨t, ht, List.mem_reverse.mp h1, h2,
        fun e he heq => h3 e (List.mem_reverse.mpr he) heq⟩
  have hsame : ∀ a ∈ m, ∀ b ∈ m, a.1 = b.1 → a = b := by
    intro a ha b hb
    exact List.Pairwise.forall_of_forall (R := fun a b => a.1 = b.1 → a = b)
      (fun x y hxy he => (hxy he.symm).symm) (fun x _ _ => rfl)
      (hkeys.imp (fun hlt he => absurd he (ne_of_lt hlt))) ha hb
  have hpair : temp.Pairwise (fun a b => a.1 ≠ b.1) := by
    rw [List.pairwise_iff_getElem]
    intro i j hi hj hij hk
    obtain ⟨ti, hti, hmi, hqi, _⟩ := hslot i (by omega)
    obtain ⟨tj, htj, hmj, hqj, _⟩ := hslot j (by omega)
    rw [List.getElem?_eq_getElem hi] at hti
    rw [List.getElem?_eq_getElem hj] at htj
    have e1 := Option.some.inj hti
    have e2 := Option.some.inj htj
    rw [e1, e2] at hk
    have := hsame ti hmi tj hmj hk
    rw [this, hqj] at hqi
    omega
  obtain ⟨hlen2, hmem2⟩ := foldl_mapInsert_fresh temp [] hpair
    (fun _ _ a ha => absurd ha (List.not_mem_nil _))
  refine ⟨temp.foldl (fun m e => mapInsert e.1 e.2 m) [], ?_, by simpa [hlen] using hlen2, ?_, ?_⟩
  · unfold noDropReshape
    rw [hloop]
  · intro e he
    rcases (hmem2 e).mp he with he | he
    · exact absurd he (List.not_mem_nil _)
    · obtain ⟨n, hn⟩ := List.mem_iff_getElem?.mp he
      have hnQ : n < Q := by
        rw [← hlen]
        by_contra hcon
        rw [List.getElem?_eq_none (not_lt.mp hcon)] at hn
        exact absurd hn (by simp)
      obtain ⟨t, ht, hm, _⟩ := hslot n hnQ
      rw [hn] at ht
      rw [Option.some.inj ht]
      exact hm
  · intro q hqQ
    obtain ⟨t, ht, hm, hqt, hmax⟩ := hslot q hqQ
    refine ⟨t, (hmem2 t).mpr (Or.inr (List.mem_iff_getElem?.mpr ⟨q, ht⟩)), hqt, hmax, ?_⟩
    intro e3 he3 hq3
    rcases (hmem2 e3).mp he3 with he | he
    · exact absurd he (List.not_mem_nil _)
    · obtain ⟨n, hn⟩ := List.mem_iff_getElem?.mp he
      have hnQ : n < Q := by
        rw [← hlen]
        by_contra hcon
        rw [List.getElem?_eq_none (not_lt.mp hcon)] at hn
        exact absurd hn (by simp)
      obtain ⟨t2, ht2, _, hq2, _⟩ := hslot n hnQ
      rw [hn] at ht2
      have e32 := Option.some.inj ht2
      rw [e32, hq2] at hq3
      have hnq : n = q := by omega
      subst hnq
      rw [hn] at ht
      exact Option.some.inj ht

/-- C20 (evaluation at the failing input). On the map `exMapNoDrop` over two bitrates
the two entries of quality `1` collapse to the one that requires `70` frames, as the
claim has it; the only entry of quality `0` requires `0` frames, which is not above the
`0` of the value-initialised pair of `temp_map`, and the reshaped map holds that pair,
key `0.0` with an all-zero record, in place of the original entry of key `4/5`. -/
theorem noDropReshape_zero_required_frames :
    noDropReshape 2 exMapNoDrop =
      some [(0, { size := 0, reliable_size := 0, quality := 0, required_frames := 0 }),
        (19 / 20,
          { size := 500000, reliable_size := 60000, quality := 1, required_frames := 70 })] ∧
    (∀ q ∈ [(0 : Int), 1], ∃ e ∈ exMapNoDrop, e.2.quality = q) := by
  have t0 : Int.toNat 0 = 0 := rfl
  have t1 : Int.toNat 1 = 1 := rfl
  constructor
  · simp [noDropReshape, reshapeLoop, exMapNoDrop, t0, t1, mapInsert]
    norm_num
  · simp [exMapNoDrop]

/-! ## Strings: auxiliary facts -/

/-- The decimal digit characters: what `isspace`, `strtol` and the comparisons of the
code see of them. -/
theorem digitChar_facts (d : Nat) (hd : d < 10) :
    isSpace (Char.ofNat (48 + d)) = false ∧ digitValue (Char.ofNat (48 + d)) = some d ∧
    Char.ofNat (48 + d) ≠ '-' ∧ Char.ofNat (48 + d) ≠ '+' ∧ Char.ofNat (48 + d) ≠ ',' ∧
    Char.ofNat (48 + d) ≠ 'x' ∧ Char.ofNat (48 + d) ≠ 'X' ∧ Char.ofNat (48 + d) ≠ '=' ∧
    (Char.ofNat (48 + d) = '0' ↔ d = 0) := by
  interval_cases d <;> decide

/-- The characters of `natToString n` are decimal digits. -/
theorem natToString_digits (n : Nat) :
    ∀ c ∈ natToString n, ∃ d, d < 10 ∧ c = Char.ofNat (48 + d) := by
  intro c hc
  unfold natToString at hc
  split_ifs at hc with h0
  · exact ⟨0, by norm_num, by simpa using hc⟩
  · rw [List.mem_map] at hc
    obtain ⟨d, hd, rfl⟩ := hc
    exact ⟨d, Nat.digits_lt_base (by norm_num) (List.mem_reverse.mp hd), rfl⟩

/-- The text `natToString n` is not empty. -/
theorem natToString_ne_nil (n : Nat) : natToString n ≠ [] := by
  unfold natToString
  split_ifs with h0
  · simp
  · simp [Nat.digits_ne_nil_iff_ne_zero, h0]

/-- The characters `-`, `,` and `=` do not occur in `natToString n`. -/
theorem natToString_not_mem (n : Nat) :
    '-' ∉ natToString n ∧ ',' ∉ natToString n ∧ '=' ∉ natToString n := by
  refine ⟨fun h => ?_, fun h => ?_, fun h => ?_⟩ <;>
    obtain ⟨d, hd, hc⟩ := natToString_digits n _ h
  · exact (digitChar_facts d hd).2.2.1 hc.symm
  · exact (digitChar_facts d hd).2.2.2.2.1 hc.symm
  · exact (digitChar_facts d hd).2.2.2.2.2.2.2.1 hc.symm

/-- The digits of a text of decimal digits are read back by the loop of `strtol`. -/
theorem foldl_digitChar (base : Nat) (l : List Nat) (hl : ∀ d ∈ l, d < 10) (acc : Nat) :
    (l.map (fun d => Char.ofNat (48 + d))).foldl
        (fun acc c => acc * base + (digitValue c).getD 0) acc
      = l.foldl (fun acc d => acc * base + d) acc := by
  induction l generalizing acc with
  | nil => rfl
  | cons d rest ih =>
    simp only [List.map_cons, List.foldl_cons]
    rw [(digitChar_facts d (hl d (List.mem_cons_self _ _))).2.1]
    exact ih (fun x hx => hl x (List.mem_cons_of_mem _ hx)) _

/-- A text of decimal digits is a run of digits of base 10. -/
theorem takeWhile_digitChar (l : List Nat) (hl : ∀ d ∈ l, d < 10) :
    (l.map (fun d => Char.ofNat (48 + d))).takeWhile (isDigitOf 10)
      = l.map (fun d => Char.ofNat (48 + d)) := by
  rw [List.takeWhile_eq_self_iff]
  intro c hc
  rw [List.mem_map] at hc
  obtain ⟨d, hd, rfl⟩ := hc
  unfold isDigitOf
  rw [(digitChar_facts d (hl d hd)).2.1]
  simpa using hl d hd

/-- The value of the decimal digits of `n`, most significant first. -/
theorem foldl_digits_reverse (n : Nat) :
    (Nat.digits 10 n).reverse.foldl (fun acc d => acc * 10 + d) 0 = n := by
  rw [List.foldl_reverse]
  have h := Nat.ofDigits_digits 10 n
  rw [Nat.ofDigits_eq_foldr] at h
  have e : (fun (x y : Nat) => y * 10 + x) = (fun (x y : Nat) => (x : Nat) + 10 * y) := by
    funext x y
    ring
  rw [e]
  simpa using h

/-- The call `std::stoi` reads the decimal text of a value that fits `int` back, and
throws on the decimal text of a larger one. -/
theorem stoi_natToString (n : Nat) :
    stoi (natToString n) = if n ≤ 2147483647 then some (n : Int) else none := by
  by_cases h0 : n = 0
  · subst h0
    decide
  · have hne : Nat.digits 10 n ≠ [] := Nat.digits_ne_nil_iff_ne_zero.mpr h0
    have hlast : (Nat.digits 10 n).getLast hne ≠ 0 := Nat.getLast_digit_ne_zero 10 h0
    have hlt : ∀ d ∈ (Nat.digits 10 n).reverse, d < 10 := fun d hd =>
      Nat.digits_lt_base (by norm_num) (List.mem_reverse.mp hd)
    have hval := foldl_digits_reverse n
    have hnat : natToString n = (Nat.digits 10 n).reverse.map (fun d => Char.ofNat (48 + d)) := by
      unfold natToString
      rw [if_neg h0]
    have htw := takeWhile_digitChar _ hlt
    have hfold := foldl_digitChar 10 _ hlt 0
    rw [hnat]
    obtain ⟨d0, rest, hrev⟩ : ∃ d0 rest, (Nat.digits 10 n).reverse = d0 :: rest := by
      cases hr : (Nat.digits 10 n).reverse with
      | nil => exact absurd (List.reverse_eq_nil_iff.mp hr) hne
      | cons d0 rest => exact ⟨d0, rest, rfl⟩
    have hd0 : d0 ≠ 0 := by
      have : (Nat.digits 10 n).getLast hne = d0 := by
        have h1 : (Nat.digits 10 n).reverse.head? = some d0 := by rw [hrev]; rfl
        rw [List.head?_reverse] at h1
        rw [List.getLast?_eq_getLast _ hne] at h1
        exact Option.some.inj h1
      rw [← this]
      exact hlast
    rw [hrev] at hlt htw hfold hval ⊢
    have f0 := digitChar_facts d0 (hlt d0 (List.mem_cons_self _ _))
    have hc0 : Char.ofNat (48 + d0) ≠ '0' := fun h => hd0 (f0.2.2.2.2.2.2.2.2.mp h)
    have hhex : (match (d0 :: rest).map (fun d => Char.ofNat (48 + d)) with
        | c0 :: cx :: ch :: _ => decide (c0 = '0' ∧ (cx = 'x' ∨ cx = 'X') ∧ isDigitOf 16 ch = true)
        | _ => false) = false := by
      rcases rest with _ | ⟨d1, _ | ⟨d2, rest2⟩⟩
      · rfl
      · rfl
      · simp [hc0]
    unfold stoi
    simp only [List.map_cons] at htw hfold hhex ⊢
    have hds : List.dropWhile isSpace
        (Char.ofNat (48 + d0) :: List.map (fun d => Char.ofNat (48 + d)) rest)
        = Char.ofNat (48 + d0) :: List.map (fun d => Char.ofNat (48 + d)) rest := by
      rw [List.dropWhile_cons, f0.1]
      rfl
    simp only [hds, List.head?_cons, Option.some.injEq, f0.2.2.1, f0.2.2.2.1, hc0, or_self,
      if_false, hhex, decide_False, Bool.false_eq_true, htw, hfold, hval]
    have hnz : ¬ (Char.ofNat (48 + d0) :: List.map (fun d => Char.ofNat (48 + d)) rest = []) := by
      simp
    rw [if_neg hnz]
    by_cases hle : n ≤ 2147483647
    · rw [if_pos hle, if_neg]
      push_neg
      constructor <;> omega
    · rw [if_neg hle, if_pos]
      right
      omega

/-- Conversion to `int` of a value below `2^31`. -/
theorem toInt32_of_lt (n : Nat) (h : n < 2 ^ 31) : toInt32 n = (n : Int) := by
  unfold toInt32
  omega

/-- A value that fits `int` is not changed by the reduction to `int`. -/
theorem wrapInt_of_bounds (x : Int) (h1 : -2147483648 ≤ x) (h2 : x ≤ 2147483647) :
    wrapInt x = x := by
  unfold wrapInt
  omega

/-- The reduction to `int` of a sum does not depend on an earlier reduction of its first
term. -/
theorem wrapInt_add_left (a b : Int) : wrapInt (wrapInt a + b) = wrapInt (a + b) := by
  unfold wrapInt
  omega

/-- The reduction to `int` of a difference does not depend on an earlier reduction of
its first term. -/
theorem wrapInt_sub_left (a b : Int) : wrapInt (wrapInt a - b) = wrapInt (a - b) := by
  unfold wrapInt
  omega

/-- The lengths of byte ranges `a <= b` add up to a non-negative total. -/
theorem rangeLen_sum_nonneg (ranges : List (Nat × Nat)) (h : ∀ r ∈ ranges, r.1 ≤ r.2) :
    0 ≤ (ranges.map rangeLen).sum := by
  induction ranges with
  | nil => simp
  | cons r rest ih =>
    have hr := h r (List.mem_cons_self _ _)
    have := ih (fun x hx => h x (List.mem_cons_of_mem _ hx))
    have hlen : 0 < rangeLen r := by
      unfold rangeLen
      omega
    simp only [List.map_cons, List.sum_cons]
    omega

/-- Conversion to `size_t` of a non-negative value below `2^64`. -/
theorem intToSizeT_natCast (n : Nat) (h : n < 2 ^ 64) : intToSizeT (n : Int) = n := by
  unfold intToSizeT
  omega

/-- Conversion to `size_t` of a non-negative `int`. -/
theorem intToSizeT_of_nonneg (i : Int) (h0 : 0 ≤ i) (h : i < 2 ^ 64) :
    intToSizeT i = i.toNat := by
  unfold intToSizeT
  omega

/-- The decimal text of a value below `10^20` has at most twenty characters. -/
theorem natToString_length_le (n : Nat) (h : n < 10 ^ 20) : (natToString n).length ≤ 20 := by
  unfold natToString
  split_ifs with h0
  · simp
  · rw [List.length_map, List.length_reverse, Nat.digits_len 10 n (by norm_num) h0]
    exact Nat.log_lt_of_lt_pow h0 h

/-- The pieces `std::getline` reads up to a comma. -/
theorem getlineLoop_append_comma (p rest cur : List Char) (h : ',' ∉ p) :
    getlineLoop (p ++ ',' :: rest) cur = (cur.reverse ++ p) :: getlineLoop rest [] := by
  induction p generalizing cur with
  | nil => simp [getlineLoop]
  | cons c p ih =>
    have hc : c ≠ ',' := fun hc => h (hc ▸ List.mem_cons_self _ _)
    have hp : ',' ∉ p := fun hp => h (List.mem_cons_of_mem _ hp)
    rw [List.cons_append, getlineLoop, if_neg hc, ih _ hp]
    simp

/-- The last piece `std::getline` reads. -/
theorem getlineLoop_last (p cur : List Char) (h : ',' ∉ p) (hne : p ≠ [] ∨ cur ≠ []) :
    getlineLoop p cur = [cur.reverse ++ p] := by
  induction p generalizing cur with
  | nil =>
    have hcur : cur ≠ [] := by
      rcases hne with h1 | h1
      · exact absurd rfl h1
      · exact h1
    simp [getlineLoop, hcur]
  | cons c p ih =>
    have hc : c ≠ ',' := fun hc => h (hc ▸ List.mem_cons_self _ _)
    have hp : ',' ∉ p := fun hp => h (List.mem_cons_of_mem _ hp)
    rw [getlineLoop, if_neg hc, ih _ hp (Or.inr (List.cons_ne_nil _ _))]
    simp

/-- The text of a byte range holds no comma and is not empty. -/
theorem formatRange_facts (r : Nat × Nat) : ',' ∉ formatRange r ∧ formatRange r ≠ [] := by
  unfold formatRange
  refine ⟨?_, ?_⟩
  · intro h
    rcases List.mem_append.mp h with h1 | h1
    · exact (natToString_not_mem r.1).2.1 h1
    · rcases List.mem_cons.mp h1 with h2 | h2
      · exact absurd h2 (by decide)
      · exact (natToString_not_mem r.2).2.1 h2
  · simp

/-- The pieces `std::getline` reads from the text of a list of byte ranges. -/
theorem getlineLoop_formatRanges (ranges : List (Nat × Nat)) :
    getlineLoop (formatRanges ranges) [] = ranges.map formatRange := by
  induction ranges with
  | nil => rfl
  | cons r rest ih =>
    cases rest with
    | nil =>
      rw [formatRanges, getlineLoop_last _ _ (formatRange_facts r).1
        (Or.inl (formatRange_facts r).2)]
      rfl
    | cons r2 rest2 =>
      rw [formatRanges, getlineLoop_append_comma _ _ _ (formatRange_facts r).1, ih]
      rfl

/-- The two numbers the loops read from the text of a byte range. -/
theorem parseRange_formatRange (a b : Nat) (ha : a < 10 ^ 20) :
    parseRange (formatRange (a, b)) =
      if a ≤ 2147483647 ∧ b ≤ 2147483647 then some ((a : Int), (b : Int)) else none := by
  have hlen := natToString_length_le a ha
  have hfind : findSizeT '-' (formatRange (a, b)) = (natToString a).length := by
    unfold findSizeT formatRange
    rw [if_pos (by simp), List.indexOf_append_of_not_mem (natToString_not_mem a).1,
      List.indexOf_cons_self]
    rfl
  have hsep : toInt32 (findSizeT '-' (formatRange (a, b))) = ((natToString a).length : Int) := by
    rw [hfind]
    exact toInt32_of_lt _ (by omega)
  have h1 : substr (formatRange (a, b)) 0 (intToSizeT ((natToString a).length : Int))
      = some (natToString a) := by
    rw [intToSizeT_natCast _ (by omega)]
    unfold substr formatRange
    simp
  have h2 : substrFrom (formatRange (a, b))
      (intToSizeT (wrapInt (((natToString a).length : Int) + 1))) = some (natToString b) := by
    have : (((natToString a).length : Int) + 1) = (((natToString a).length + 1 : Nat) : Int) := by
      push_cast
      rfl
    rw [wrapInt_of_bounds _ (by omega) (by omega), this, intToSizeT_natCast _ (by omega)]
    unfold substrFrom formatRange
    rw [if_neg (by simp)]
    simp
  unfold parseRange
  rw [hsep]
  simp only [h1, h2, stoi_natToString, Option.bind_eq_bind, Option.some_bind]
  by_cases h3 : a ≤ 2147483647 <;> by_cases h4 : b ≤ 2147483647 <;> simp [h3, h4]

/-- The loop of `append_frame_order` on the texts of byte ranges `a <= b` that fit
`int`, where the positions relative to the offset and the running sum of the lengths
fit `int` too: no operation overflows, and the records are those of `frameOrderFrom`. -/
theorem appendLoop_formatRange (o : Int) (ranges : List (Nat × Nat))
    (h : ∀ r ∈ ranges, r.1 ≤ r.2 ∧ r.2 ≤ 2147483647 ∧ -2147483648 ≤ (r.1 : Int) - o ∧
      (r.2 : Int) - o ≤ 2147483647) (idx : Int) (hidx : 0 ≤ idx)
    (hsum : idx + (ranges.map rangeLen).sum ≤ 2147483647) (fo : List frame_order) :
    appendLoop o (ranges.map formatRange) idx fo = some (fo ++ frameOrderFrom o ranges idx) := by
  induction ranges generalizing idx fo with
  | nil => simp [appendLoop, frameOrderFrom]
  | cons r rest ih =>
    obtain ⟨a, b⟩ := r
    obtain ⟨hab, hb, hlo, hhi⟩ := h (a, b) (List.mem_cons_self _ _)
    simp only at hab hb hlo hhi
    have hrest := rangeLen_sum_nonneg rest (fun x hx => (h x (List.mem_cons_of_mem _ hx)).1)
    have hlen : rangeLen (a, b) = (b : Int) - (a : Int) + 1 := rfl
    simp only [List.map_cons, List.sum_cons] at hsum
    have ha : a < 10 ^ 20 := lt_of_le_of_lt (le_trans hab hb) (by norm_num)
    have hp := parseRange_formatRange a b ha
    rw [if_pos ⟨le_trans hab hb, hb⟩] at hp
    rw [List.map_cons, appendLoop, hp, Option.some_bind]
    simp only []
    have e1 : wrapInt ((a : Int) - o) = (a : Int) - o := wrapInt_of_bounds _ hlo (by omega)
    have e2 : wrapInt ((b : Int) - o) = (b : Int) - o := wrapInt_of_bounds _ (by omega) hhi
    have e3 : wrapInt ((b : Int) - o - ((a : Int) - o)) = (b : Int) - (a : Int) :=
      (wrapInt_of_bounds _ (by omega) (by omega)).trans (by ring)
    have e4 : wrapInt ((b : Int) - (a : Int) + 1) = rangeLen (a, b) :=
      wrapInt_of_bounds _ (by omega) (by omega)
    have e5 : wrapInt (idx + rangeLen (a, b)) = idx + rangeLen (a, b) :=
      wrapInt_of_bounds _ (by omega) (by omega)
    rw [e1, e2, e3, e4, e5, ih (fun x hx => h x (List.mem_cons_of_mem _ hx)) _ (by omega)
      (by omega)]
    simp [frameOrderFrom]

/-- The records of `frameOrderFrom`, one by one. -/
theorem frameOrderFrom_getElem? (o : Int) (ranges : List (Nat × Nat)) (idx : Int) (i : Nat) :
    (frameOrderFrom o ranges idx)[i]? =
      if i < ranges.length then
        some { to_st := ((ranges.getD i (0, 0)).1 : Int) - o,
               to_len := rangeLen (ranges.getD i (0, 0)),
               from_st := idx + ((ranges.take i).map rangeLen).sum,
               from_len := rangeLen (ranges.getD i (0, 0)) }
      else none := by
  induction ranges generalizing idx i with
  | nil => simp [frameOrderFrom]
  | cons r rest ih =>
    cases i with
    | zero => simp [frameOrderFrom]
    | succ j =>
      rw [frameOrderFrom, List.getElem?_cons_succ, ih]
      by_cases hj : j < rest.length
      · rw [if_pos hj, if_pos (by simpa using hj)]
        simp [add_assoc]
      · rw [if_neg hj, if_neg (by simpa using hj)]

/-- The frame order built with a running `idx` is the one the specification words. -/
theorem frameOrderFrom_eq_claimed (o : Int) (ranges : List (Nat × Nat)) :
    frameOrderFrom o ranges 0 = frameOrderClaimed ranges o := by
  apply List.ext_getElem?
  intro i
  rw [frameOrderFrom_getElem?]
  unfold frameOrderClaimed
  by_cases hi : i < ranges.length
  · rw [if_pos hi, List.getElem?_map, List.getElem?_range hi]
    simp
  · rw [if_neg hi, List.getElem?_eq_none (by simpa using hi)]

/-- C15 (as amended). For every list of byte ranges `(a_i, b_i)` with
`a_i <= b_i <= 2147483647` whose lengths add up to at most `2147483647`, and every `int`
offset `o` for which the positions `a_i - o` and `b_i - o` fit `int`, `append_frame_order` on
the text `a_1-b_1,a_2-b_2,...` returns, and appends to an empty vector exactly one
`frame_order` per range, in the same order, with `to_st = a_i - o`,
`to_len = from_len = b_i - a_i + 1` and `from_st` the sum of the lengths of the preceding
ranges. -/
theorem append_frame_order_formatRanges (ranges : List (Nat × Nat)) (o : Int)
    (_ho : -2147483648 ≤ o ∧ o ≤ 2147483647)
    (h : ∀ r ∈ ranges, r.1 ≤ r.2 ∧ r.2 ≤ 2147483647 ∧ -2147483648 ≤ (r.1 : Int) - o ∧
      (r.2 : Int) - o ≤ 2147483647)
    (hsum : (ranges.map rangeLen).sum ≤ 2147483647) :
    append_frame_order (formatRanges ranges) o [] = some (frameOrderClaimed ranges o) := by
  unfold append_frame_order
  rw [getlineLoop_formatRanges, appendLoop_formatRange o ranges h 0 (le_refl _) (by omega),
    frameOrderFrom_eq_claimed]
  rfl

/-- Witness for C15 (as amended): the ranges `100-199` and `300-349` with offset `100`. -/
theorem append_frame_order_formatRanges_witness :
    append_frame_order (formatRanges [(100, 199), (300, 349)]) 100 []
      = some (frameOrderClaimed [(100, 199), (300, 349)] 100) :=
  append_frame_order_formatRanges [(100, 199), (300, 349)] 100 (by norm_num)
    (by
      intro r hr
      simp only [List.mem_cons, List.mem_singleton, List.not_mem_nil, or_false] at hr
      rcases hr with hr | hr <;> subst hr <;> norm_num)
    (by norm_num [rangeLen])

/-- C15 (counterexample). The single byte range `2147483648-2147483747` satisfies
`0 <= a <= b`; `std::stoi` throws `std::out_of_range` on its first number, and
`append_frame_order` yields no frame order.  The single byte range `0-2147483647`
satisfies `0 <= a <= b` too and is read; its length `2147483648` does not fit `int`, and
the record holds `to_len = from_len = -2147483648`. -/
theorem append_frame_order_above_int_max :
    (2147483648 : Nat) ≤ 2147483747 ∧
    append_frame_order (formatRanges [(2147483648, 2147483747)]) 0 [] = none ∧
    (0 : Nat) ≤ 2147483647 ∧
    append_frame_order (formatRanges [(0, 2147483647)]) 0 []
      = some [{ to_st := 0, to_len := -2147483648, from_st := 0, from_len := -2147483648 }] := by
  refine ⟨by norm_num, ?_, by norm_num, ?_⟩
  · unfold append_frame_order
    rw [getlineLoop_formatRanges, List.map_cons, List.map_nil, appendLoop,
      parseRange_formatRange _ _ (by norm_num)]
    rfl
  · unfold append_frame_order
    rw [getlineLoop_formatRanges, List.map_cons, List.map_nil, appendLoop,
      parseRange_formatRange _ _ (by norm_num), if_pos (by norm_num), Option.some_bind]
    norm_num [appendLoop, wrapInt]

/-! ## Splicing -/

/-- A replacement of `len` characters by `len` characters inside both strings: the call
returns, the length is kept, and the characters `[pos, pos + len)` are those of `str`
from `subpos` on. -/
theorem stringReplace_splice (s str : List Char) (pos len subpos : Nat)
    (h1 : pos + len ≤ s.length) (h2 : subpos + len ≤ str.length) :
    ∃ b, stringReplace s pos len str subpos len = some b ∧ b.length = s.length ∧
      ∀ k, b[k]? = if pos ≤ k ∧ k < pos + len then str[subpos + (k - pos)]? else s[k]? := by
  have hmin : min len (s.length - pos) = len := Nat.min_eq_left (by omega)
  refine ⟨s.take pos ++ (str.drop subpos).take len ++ s.drop (pos + len), ?_, ?_, ?_⟩
  · unfold stringReplace
    rw [if_neg (by omega), hmin]
  · simp only [List.length_append, List.length_take, List.length_drop]
    omega
  · intro k
    have hA : (s.take pos).length = pos := by
      rw [List.length_take]
      omega
    have hP : ((str.drop subpos).take len).length = len := by
      rw [List.length_take, List.length_drop]
      omega
    by_cases hk1 : k < pos
    · rw [if_neg (by omega), List.append_assoc, List.getElem?_append_left (by omega),
        List.getElem?_take_of_lt hk1]
    · by_cases hk2 : k < pos + len
      · rw [if_pos ⟨by omega, hk2⟩, List.append_assoc,
          List.getElem?_append_right (by omega), hA,
          List.getElem?_append_left (by omega), List.getElem?_take_of_lt (by omega),
          List.getElem?_drop]
      · rw [if_neg (by omega), List.getElem?_append_right (by
          rw [List.length_append, hA, hP]
          omega), List.length_append, hA, hP, List.getElem?_drop]
        congr 1
        omega

/-- One round of `fill_segment_body` for a frame range that lies inside the body and
whose source range lies inside the response. -/
theorem fill_step (body resp : List Char) (f : frame_order)
    (hb : body.length < 2 ^ 64) (hr : resp.length < 2 ^ 64)
    (h0 : 0 ≤ f.to_st) (h1 : 0 ≤ f.to_len) (h2 : f.to_st + f.to_len ≤ body.length)
    (h3 : f.from_len = f.to_len) (h4 : 0 ≤ f.from_st)
    (h5 : f.from_st + f.from_len ≤ resp.length) :
    ∃ b, stringReplace body (intToSizeT f.to_st) (intToSizeT f.to_len) resp
        (intToSizeT f.from_st) (intToSizeT f.from_len) = some b ∧
      b.length = body.length ∧
      ∀ k, b[k]? = if f.to_st.toNat ≤ k ∧ k < f.to_st.toNat + f.to_len.toNat
        then resp[f.from_st.toNat + (k - f.to_st.toNat)]? else body[k]? := by
  have e1 : intToSizeT f.to_st = f.to_st.toNat :=
    intToSizeT_of_nonneg _ h0 (by
      have : (body.length : Int) < 2 ^ 64 := by exact_mod_cast hb
      omega)
  have e2 : intToSizeT f.to_len = f.to_len.toNat :=
    intToSizeT_of_nonneg _ h1 (by
      have : (body.length : Int) < 2 ^ 64 := by exact_mod_cast hb
      omega)
  have e3 : intToSizeT f.from_st = f.from_st.toNat :=
    intToSizeT_of_nonneg _ h4 (by
      have : (resp.length : Int) < 2 ^ 64 := by exact_mod_cast hr
      omega)
  rw [e1, h3, e2, e3]
  exact stringReplace_splice body resp _ _ _ (by omega) (by omega)

/-- C17 (as amended). For every `segment_body` and `response_body` (both shorter than
`2^64`) and every frame order whose records have `0 <= to_st`, `0 <= to_len`,
`to_st + to_len <= segment_body.size()`, `from_len = to_len`, `0 <= from_st` and
`from_st + from_len <= response_body.size()`, `fill_segment_body` returns and leaves the
length of `segment_body` unchanged. -/
theorem fill_segment_body_length (segment_body response_body : List Char)
    (frames_order : List frame_order)
    (hb : segment_body.length < 2 ^ 64) (hr : response_body.length < 2 ^ 64)
    (h : ∀ f ∈ frames_order, 0 ≤ f.to_st ∧ 0 ≤ f.to_len ∧
      f.to_st + f.to_len ≤ segment_body.length ∧ f.from_len = f.to_len ∧ 0 ≤ f.from_st ∧
      f.from_st + f.from_len ≤ response_body.length) :
    ∃ b, fill_segment_body segment_body response_body frames_order = some b ∧
      b.length = segment_body.length := by
  induction frames_order generalizing segment_body with
  | nil => exact ⟨segment_body, rfl, rfl⟩
  | cons f rest ih =>
    obtain ⟨h0, h1, h2, h3, h4, h5⟩ := h f (List.mem_cons_self _ _)
    obtain ⟨b1, hb1, hlen1, _⟩ := fill_step segment_body response_body f hb hr h0 h1 h2 h3 h4 h5
    obtain ⟨b2, hb2, hlen2⟩ := ih b1 (by rw [hlen1]; exact hb) (fun g hg => by
      rw [hlen1]
      exact h g (List.mem_cons_of_mem _ hg))
    refine ⟨b2, ?_, by rw [hlen2, hlen1]⟩
    rw [fill_segment_body, hb1]
    exact hb2

/-- Witness for C17 (as amended): the range `2..5` of an eight-character body is filled
from a four-character response. -/
theorem fill_segment_body_length_witness :
    ∃ b, fill_segment_body ['a', 'b', 'c', 'd', 'e', 'f', 'g', 'h'] ['w', 'x', 'y', 'z']
        [{ to_st := 2, to_len := 4, from_st := 0, from_len := 4 }] = some b ∧
      b.length = ['a', 'b', 'c', 'd', 'e', 'f', 'g', 'h'].length :=
  fill_segment_body_length ['a', 'b', 'c', 'd', 'e', 'f', 'g', 'h'] ['w', 'x', 'y', 'z']
    [{ to_st := 2, to_len := 4, from_st := 0, from_len := 4 }]
    (by norm_num) (by norm_num) (by
      intro f hf
      rw [List.mem_singleton] at hf
      subst hf
      norm_num)

/-- C17 (counterexample). The frame order of the range `2-5` lies inside an
eight-character body; with a response of two characters `fill_segment_body` leaves a
body of six characters. -/
theorem fill_segment_body_short_response :
    fill_segment_body ['a', 'b', 'c', 'd', 'e', 'f', 'g', 'h'] ['x', 'y']
        [{ to_st := 2, to_len := 4, from_st := 0, from_len := 4 }]
      = some ['a', 'b', 'x', 'y', 'g', 'h'] ∧
    append_frame_order (formatRanges [(2, 5)]) 0 []
      = some [{ to_st := 2, to_len := 4, from_st := 0, from_len := 4 }] := by
  constructor
  · have e2 : intToSizeT 2 = 2 := by decide
    have e4 : intToSizeT 4 = 4 := by decide
    have e0 : intToSizeT 0 = 0 := by decide
    simp [fill_segment_body, stringReplace, e2, e4, e0]
  · unfold append_frame_order
    rw [getlineLoop_formatRanges, appendLoop_formatRange 0 [(2, 5)] (by
      intro r hr
      rw [List.mem_singleton] at hr
      subst hr
      norm_num) 0 (le_refl _) (by norm_num [rangeLen])]
    norm_num [frameOrderFrom, rangeLen]

/-- The frame ranges of `frameOrderFrom` start at `idx` or later. -/
theorem frameOrderFrom_from_st (o : Int) (ranges : List (Nat × Nat))
    (h : ∀ r ∈ ranges, r.1 ≤ r.2) (idx : Int) :
    ∀ f ∈ frameOrderFrom o ranges idx, idx ≤ f.from_st ∧ 0 ≤ f.from_len := by
  induction ranges generalizing idx with
  | nil => exact fun f hf => absurd hf (List.not_mem_nil _)
  | cons r rest ih =>
    intro f hf
    have hr := h r (List.mem_cons_self _ _)
    have hlen : 0 < rangeLen r := by
      unfold rangeLen
      omega
    rw [frameOrderFrom] at hf
    rcases List.mem_cons.mp hf with hf | hf
    · subst hf
      exact ⟨le_refl _, le_of_lt hlen⟩
    · have := ih (fun x hx => h x (List.mem_cons_of_mem _ hx)) _ f hf
      exact ⟨by omega, this.2⟩

/-- A lost frame that ends before the frame ranges start, or has no length, has no
hole in them. -/
theorem holesClaimed_nil (fs : List frame_order) (offset p l c : Int)
    (h : ∀ f ∈ fs, c ≤ f.from_st ∧ 0 ≤ f.from_len) (hpl : p + l ≤ max p c) :
    holesClaimed fs offset p l = [] := by
  unfold holesClaimed
  rw [List.filterMap_eq_nil_iff]
  intro f hf
  have := h f hf
  rw [if_neg]
  rw [not_lt]
  rcases le_max_iff.mp hpl with h1 | h1
  · exact le_trans (min_le_left _ _) (le_trans h1 (le_max_left _ _))
  · exact le_trans (min_le_left _ _) (le_trans h1 (le_trans this.1 (le_max_right _ _)))

/-- The inner loop of `generate_loss_information` on the frame ranges from the current
one on, where the running sum of the lengths and the positions of the holes fit `int`:
it returns, and it appends the holes of the lost frame in these ranges. -/
theorem lossWhile_spec (o offset p l : Int) (ranges : List (Nat × Nat))
    (h : ∀ r ∈ ranges, r.1 ≤ r.2 ∧ -2147483648 ≤ offset + ((r.1 : Int) - o) ∧
      offset + ((r.2 : Int) - o) ≤ 2147483647) :
    ∀ (c rem : Int) (hole_range loss_report : List Char),
      0 ≤ c → c + (ranges.map rangeLen).sum ≤ 2147483647 →
      (∀ r, ranges.head? = some r → max p c < c + rangeLen r) →
      (0 < rem → rem = p + l - max p c) → (rem ≤ 0 → p + l ≤ max p c) →
      p + l ≤ c + (ranges.map rangeLen).sum →
      (lossWhile offset p (frameOrderFrom o ranges c) rem hole_range loss_report).map
          (fun out => (out.1, out.2.1)) =
        some (hole_range ++ holesText (holesClaimed (frameOrderFrom o ranges c) offset p l),
          loss_report ++ reportText (holesClaimed (frameOrderFrom o ranges c) offset p l)) := by
  induction ranges with
  | nil =>
    intro c rem hole_range loss_report _ _ _ h1 _ h3
    have hrem : ¬ rem > 0 := by
      intro hpos
      have := h1 hpos
      simp only [List.map_nil, List.sum_nil, add_zero] at h3
      have := le_max_right p c
      omega
    simp [frameOrderFrom, lossWhile, hrem, holesClaimed, holesText, reportText]
  | cons r rest ih =>
    intro c rem hole_range loss_report hc0 hcmax h0 h1 h2 h3
    obtain ⟨hr, hlo, hhi⟩ := h r (List.mem_cons_self _ _)
    have hrest : ∀ x ∈ rest, x.1 ≤ x.2 := fun x hx => (h x (List.mem_cons_of_mem _ hx)).1
    have hrsum := rangeLen_sum_nonneg rest hrest
    simp only [List.map_cons, List.sum_cons] at hcmax h3
    have hlen : 0 < rangeLen r := by
      unfold rangeLen
      omega
    have hlen2 : rangeLen r = (r.2 : Int) - (r.1 : Int) + 1 := rfl
    have hcur := h0 r rfl
    have hmc : c ≤ max p c := le_max_right p c
    have hmax : (if p > c then p else c) = max p c := by
      rcases le_total p c with hpc | hpc
      · rw [max_eq_right hpc, if_neg (not_lt.mpr hpc)]
      · rcases eq_or_lt_of_le hpc with he | hlt
        · rw [he, max_self, if_neg (lt_irrefl _)]
        · rw [max_eq_left hpc, if_pos hlt]
    rw [frameOrderFrom, lossWhile]
    simp only [hmax]
    by_cases hrem : rem > 0
    · rw [if_pos hrem]
      have hremeq := h1 hrem
      have hc' : max p (c + rangeLen r) = c + rangeLen r :=
        max_eq_right (le_of_lt (lt_of_le_of_lt (le_max_left p c) hcur))
      have hact : min rem (c + rangeLen r - max p c)
          = min (p + l) (c + rangeLen r) - max p c := by
        rw [hremeq]
        rcases le_total (p + l) (c + rangeLen r) with hle | hle
        · rw [min_eq_left hle, min_eq_left (by omega)]
        · rw [min_eq_right hle, min_eq_right (by omega)]
      have hpos : max p c < min (p + l) (c + rangeLen r) := by
        rw [lt_min_iff]
        exact ⟨by omega, hcur⟩
      have hA1 : 0 < min (p + l) (c + rangeLen r) - max p c := by omega
      have hA2 : min (p + l) (c + rangeLen r) - max p c ≤ c + rangeLen r - max p c := by
        have := min_le_right (p + l) (c + rangeLen r)
        omega
      have hA3 : min (p + l) (c + rangeLen r) - max p c ≤ rem := by
        have := min_le_left (p + l) (c + rangeLen r)
        omega
      have w1 : wrapInt (c + rangeLen r) = c + rangeLen r :=
        wrapInt_of_bounds _ (by omega) (by omega)
      have w2 : wrapInt (c + rangeLen r - max p c) = c + rangeLen r - max p c :=
        wrapInt_of_bounds _ (by omega) (by omega)
      have w3 : wrapInt (max p c - c) = max p c - c :=
        wrapInt_of_bounds _ (by omega) (by omega)
      have w4 : wrapInt (wrapInt (offset + ((r.1 : Int) - o)) + (max p c - c))
          = offset + ((r.1 : Int) - o) + (max p c - c) := by
        rw [wrapInt_add_left]
        exact wrapInt_of_bounds _ (by omega) (by omega)
      have w5 : wrapInt (wrapInt (offset + ((r.1 : Int) - o) + (max p c - c)
            + (min (p + l) (c + rangeLen r) - max p c)) - 1)
          = offset + ((r.1 : Int) - o) + (max p c - c)
            + (min (p + l) (c + rangeLen r) - max p c) - 1 := by
        rw [wrapInt_sub_left]
        exact wrapInt_of_bounds _ (by omega) (by omega)
      have w6 : wrapInt (rem - (min (p + l) (c + rangeLen r) - max p c))
          = rem - (min (p + l) (c + rangeLen r) - max p c) :=
        wrapInt_of_bounds _ (by omega) (by omega)
      rw [w1, w2, w3, w4, hact, w5, w6]
      rw [ih (fun x hx => h x (List.mem_cons_of_mem _ hx)) (c + rangeLen r) _ _ _
        (by omega) (by omega)
        (fun x _ => by
          rw [hc']
          have := hrest x (by
            cases rest with
            | nil => simp at *
            | cons y ys =>
              simp only [List.head?_cons, Option.some.injEq] at *
              subst_vars
              exact List.mem_cons_self _ _)
          unfold rangeLen
          omega)
        (fun hpos2 => by
          rw [hc']
          rcases le_total (p + l) (c + rangeLen r) with hle | hle
          · rw [min_eq_left hle] at hpos2 ⊢
            omega
          · rw [min_eq_right hle] at hpos2 ⊢
            omega)
        (fun hneg => by
          rw [hc']
          rcases le_total (p + l) (c + rangeLen r) with hle | hle
          · exact hle
          · rw [min_eq_right hle] at hneg
            omega)
        (by omega)]
      have hcl : holesClaimed
          ({ to_st := (r.1 : Int) - o, to_len := rangeLen r, from_st := c,
             from_len := rangeLen r } :: frameOrderFrom o rest (c + rangeLen r)) offset p l
          = (offset + ((r.1 : Int) - o) + (max p c - c),
              offset + ((r.1 : Int) - o) + (max p c - c)
                + (min (p + l) (c + rangeLen r) - max p c) - 1)
            :: holesClaimed (frameOrderFrom o rest (c + rangeLen r)) offset p l := by
        unfold holesClaimed
        rw [List.filterMap_cons]
        simp only [if_pos hpos]
      rw [hcl]
      simp only [holesText, reportText, formatHole, List.append_assoc, List.cons_append,
        List.nil_append, List.singleton_append]
      congr 4
      ring_nf
    · rw [if_neg hrem]
      have hpl := h2 (not_lt.mp hrem)
      have hnil := holesClaimed_nil
        ({ to_st := (r.1 : Int) - o, to_len := rangeLen r, from_st := c,
           from_len := rangeLen r } :: frameOrderFrom o rest (c + rangeLen r)) offset p l c
        (by
          have := frameOrderFrom_from_st o (r :: rest) (fun x hx => (h x hx).1) c
          rw [frameOrderFrom] at this
          exact this) hpl
      rw [hnil]
      simp [holesText, reportText]

/-- The loop over the frame ranges of `generate_loss_information` for one lost frame
that lies inside the request: it returns, and it appends the holes of the frame. -/
theorem lossFor_spec (o offset p l : Int) (ranges : List (Nat × Nat))
    (h : ∀ r ∈ ranges, r.1 ≤ r.2 ∧ -2147483648 ≤ offset + ((r.1 : Int) - o) ∧
      offset + ((r.2 : Int) - o) ≤ 2147483647) :
    ∀ (c : Int) (hole_range loss_report : List Char), 0 ≤ c →
      c + (ranges.map rangeLen).sum ≤ 2147483647 → c ≤ p →
      p + l ≤ c + (ranges.map rangeLen).sum →
      lossFor offset p l (frameOrderFrom o ranges c) hole_range loss_report =
        some (hole_range ++ holesText (holesClaimed (frameOrderFrom o ranges c) offset p l),
          loss_report ++ reportText (holesClaimed (frameOrderFrom o ranges c) offset p l)) := by
  induction ranges with
  | nil =>
    intro c hole_range loss_report _ _ _ _
    simp [frameOrderFrom, lossFor, holesClaimed, holesText, reportText]
  | cons r rest ih =>
    intro c hole_range loss_report hc0 hcmax hcp hsum
    have hr := (h r (List.mem_cons_self _ _)).1
    have hrest : ∀ x ∈ rest, x.1 ≤ x.2 := fun x hx => (h x (List.mem_cons_of_mem _ hx)).1
    have hrsum := rangeLen_sum_nonneg rest hrest
    have hlen : 0 < rangeLen r := by
      unfold rangeLen
      omega
    have hcmax2 := hcmax
    simp only [List.map_cons, List.sum_cons] at hcmax2
    have w1 : wrapInt (c + rangeLen r) = c + rangeLen r :=
      wrapInt_of_bounds _ (by omega) (by omega)
    by_cases hin : p < c + rangeLen r
    · have hw := lossWhile_spec o offset p l (r :: rest) h c l hole_range loss_report hc0 hcmax
        (fun x hx => by
          simp only [List.head?_cons, Option.some.injEq] at hx
          subst hx
          rw [max_eq_left hcp]
          exact hin)
        (fun _ => by rw [max_eq_left hcp]; ring)
        (fun hl => by rw [max_eq_left hcp]; omega) hsum
      rw [frameOrderFrom] at hw ⊢
      rw [lossFor]
      simp only [w1]
      rw [if_pos ⟨hcp, hin⟩]
      exact hw
    · have hge : c + rangeLen r ≤ p := not_lt.mp hin
      rw [frameOrderFrom, lossFor]
      simp only [w1]
      rw [if_neg (fun hc => hin hc.2),
        ih (fun x hx => h x (List.mem_cons_of_mem _ hx)) (c + rangeLen r) _ _ (by omega)
          (by omega) hge (by
          simp only [List.map_cons, List.sum_cons] at hsum
          omega)]
      have hcl : holesClaimed
          ({ to_st := (r.1 : Int) - o, to_len := rangeLen r, from_st := c,
             from_len := rangeLen r } :: frameOrderFrom o rest (c + rangeLen r)) offset p l
          = holesClaimed (frameOrderFrom o rest (c + rangeLen r)) offset p l := by
        unfold holesClaimed
        rw [List.filterMap_cons]
        have : ¬ (max p c < min (p + l) (c + rangeLen r)) := by
          rw [not_lt, max_eq_left hcp]
          exact le_trans (min_le_right _ _) hge
        simp only [if_neg this]
      rw [hcl]

/-- The texts of holes, each followed by a comma, and then of further holes. -/
theorem holesText_append (h1 h2 : List (Int × Int)) :
    holesText (h1 ++ h2) = holesText h1 ++ holesText h2 := by
  induction h1 with
  | nil => rfl
  | cons h rest ih => simp [holesText, ih]

/-- The entries of the loss report for holes and then for further holes. -/
theorem reportText_append (h1 h2 : List (Int × Int)) :
    reportText (h1 ++ h2) = reportText h1 ++ reportText h2 := by
  induction h1 with
  | nil => rfl
  | cons h rest ih => simp [reportText, ih]

/-- Removing the trailing comma leaves the text `first-last,first-last,...`. -/
theorem holesText_dropLast (holes : List (Int × Int)) :
    (if holesText holes ≠ [] then (holesText holes).dropLast else holesText holes)
      = formatHoles holes := by
  have key : ∀ (h : Int × Int) (rest : List (Int × Int)),
      holesText (h :: rest) = formatHoles (h :: rest) ++ [','] := by
    intro h rest
    induction rest generalizing h with
    | nil => simp [holesText, formatHoles]
    | cons h2 rest ih => rw [holesText, ih h2, formatHoles]; simp
  cases holes with
  | nil => simp [holesText, formatHoles]
  | cons h rest =>
    rw [key h rest, if_pos (by simp), List.dropLast_concat]

/-- The lengths of lost frames that are not negative add up to a total that is not
negative. -/
theorem lostSize_nonneg (timings : List (Nat × FrameTiming))
    (h : ∀ e ∈ timings, e.2.was_lost = true → 0 ≤ e.2.length) : 0 ≤ lostSize timings := by
  induction timings with
  | nil => simp [lostSize]
  | cons e rest ih =>
    have hr := ih (fun x hx => h x (List.mem_cons_of_mem _ hx))
    rw [lostSize]
    by_cases hl : e.2.was_lost = true
    · have := h e (List.mem_cons_self _ _) hl
      rw [if_pos hl]
      omega
    · rw [if_neg hl]
      omega

/-- The loop over the timing map of `generate_loss_information`, the lost frames lying
inside the request and their lengths adding up to a total that fits `int`: it returns,
and it appends the holes of the lost frames and adds up their lengths. -/
theorem lossFrames_spec (o offset : Int) (ranges : List (Nat × Nat))
    (h : ∀ r ∈ ranges, r.1 ≤ r.2 ∧ -2147483648 ≤ offset + ((r.1 : Int) - o) ∧
      offset + ((r.2 : Int) - o) ≤ 2147483647)
    (hsum : (ranges.map rangeLen).sum ≤ 2147483647)
    (first : Nat) (timings : List (Nat × FrameTiming))
    (hlost : ∀ e ∈ timings, e.2.was_lost = true →
      first ≤ e.1 ∧ e.1 < 2 ^ 64 ∧ e.1 - first < 2 ^ 31 ∧ 0 ≤ e.2.length ∧
      ((e.1 - first : Nat) : Int) + e.2.length ≤ (ranges.map rangeLen).sum) :
    ∀ (hole_range loss_report : List Char) (loss_size : Int), 0 ≤ loss_size →
      loss_size + lostSize timings ≤ 2147483647 →
      lossFrames first offset (frameOrderFrom o ranges 0) timings hole_range loss_report
          loss_size =
        some (hole_range ++ holesText (holesOfFrames (frameOrderFrom o ranges 0) offset first
            timings),
          loss_report ++ reportText (holesOfFrames (frameOrderFrom o ranges 0) offset first
            timings),
          loss_size + lostSize timings) := by
  induction timings with
  | nil =>
    intro hole_range loss_report loss_size _ _
    simp [lossFrames, holesOfFrames, lostSize, holesText, reportText]
  | cons e rest ih =>
    intro hole_range loss_report loss_size hs0 hsmax
    have hrestlost : ∀ x ∈ rest, x.2.was_lost = true → 0 ≤ x.2.length :=
      fun x hx hl => (hlost x (List.mem_cons_of_mem _ hx) hl).2.2.2.1
    have hrn := lostSize_nonneg rest hrestlost
    have ihr := ih (fun x hx => hlost x (List.mem_cons_of_mem _ hx))
    by_cases hl : e.2.was_lost = true
    · obtain ⟨h1, h2, h3, h4, h5⟩ := hlost e (List.mem_cons_self _ _) hl
      rw [lostSize, if_pos hl] at hsmax
      have hpos : toInt32 (sizeSub e.1 first) = (e.1 : Int) - (first : Int) := by
        have hs : sizeSub e.1 first = e.1 - first := by
          unfold sizeSub
          have hf : first < 2 ^ 64 := lt_of_le_of_lt h1 h2
          rw [Nat.mod_eq_of_lt h2, Nat.mod_eq_of_lt hf]
          omega
        rw [hs, toInt32_of_lt _ h3]
        omega
      have hcast : ((e.1 - first : Nat) : Int) = (e.1 : Int) - (first : Int) := by omega
      rw [hcast] at h5
      have wl : wrapInt e.2.length = e.2.length := wrapInt_of_bounds _ (by omega) (by omega)
      have ws : wrapInt (loss_size + e.2.length) = loss_size + e.2.length :=
        wrapInt_of_bounds _ (by omega) (by omega)
      rw [lossFrames, if_pos hl]
      simp only [hpos, wl, ws]
      rw [lossFor_spec o offset _ _ ranges h 0 _ _ (le_refl _) (by omega) (by omega) (by omega)]
      simp only []
      rw [ihr _ _ _ (by omega) (by omega)]
      simp only [holesOfFrames, lostSize, if_pos hl, holesText_append, reportText_append,
        List.append_assoc, add_assoc]
    · rw [lostSize, if_neg hl] at hsmax
      rw [lossFrames, if_neg hl, ihr _ _ _ hs0 (by omega)]
      simp only [holesOfFrames, lostSize, if_neg hl, List.nil_append, zero_add]

/-- The function `std::to_string(int)` on a non-negative value. -/
theorem intToString_natCast (n : Nat) : intToString (n : Int) = natToString n := by
  unfold intToString
  rw [if_neg (by omega), Int.toNat_natCast]

/-- The function `generate_loss_information` on the frame order of a list of byte
ranges, the lost frames lying inside the request: it returns the holes of the lost
frames, the loss report and the sum of the lost lengths. -/
theorem generate_loss_information_eq (ranges : List (Nat × Nat)) (o offset : Int)
    (e0 : Nat × FrameTiming) (timings : List (Nat × FrameTiming))
    (hole_range loss_report : List Char) (loss_size : Int)
    (hr : ∀ r ∈ ranges, r.1 ≤ r.2 ∧ -2147483648 ≤ offset + ((r.1 : Int) - o) ∧
      offset + ((r.2 : Int) - o) ≤ 2147483647)
    (hsum : (ranges.map rangeLen).sum ≤ 2147483647)
    (hlost : ∀ e ∈ e0 :: timings, e.2.was_lost = true →
      e0.1 ≤ e.1 ∧ e.1 < 2 ^ 64 ∧ e.1 - e0.1 < 2 ^ 31 ∧ 0 ≤ e.2.length ∧
      ((e.1 - e0.1 : Nat) : Int) + e.2.length ≤ (ranges.map rangeLen).sum)
    (hloss : lostSize (e0 :: timings) ≤ 2147483647) :
    generate_loss_information (e0 :: timings) offset (frameOrderFrom o ranges 0)
        hole_range loss_report loss_size =
      some (formatHoles (holesOfFrames (frameOrderFrom o ranges 0) offset e0.1 (e0 :: timings)),
        ['[', 'l', 'o', 's', 's', ']'] ++
          reportText (holesOfFrames (frameOrderFrom o ranges 0) offset e0.1 (e0 :: timings)),
        lostSize (e0 :: timings)) := by
  unfold generate_loss_information
  simp only []
  rw [lossFrames_spec o offset ranges hr hsum e0.1 (e0 :: timings) hlost _ _ 0 (le_refl _)
    (by omega)]
  simp only [stringClear, List.nil_append, zero_add]
  rw [holesText_dropLast]

/-- C19 (as amended). For every frame order that `append_frame_order` produces from a
list of byte ranges `a_i <= b_i` and every non-empty timing map whose lost frames lie
inside the request, where the `int` values of the code do not overflow (the two offsets, the `b_i`,
the positions relative to the offset of the request, the sum of the lengths of the
ranges, the sum of the lengths of the lost frames and the positions of the holes fit
`int`, and no lost frame has a negative length), `generate_loss_information` returns, and its `hole_range`
is the text `first-last,...` of the holes of the lost frames in map order: for each lost
frame at request-relative position `p` with length `l`, one hole per frame range that
`[p, p + l)` overlaps, in order, each being the overlap translated to
`offset + to_st + (position - from_st)`; `loss_size` is the sum of the lost lengths.
For a single requested range of `4000` bytes starting at `S` and losses at positions
`500` and `2000` of `500` bytes each, the `hole_range` is
`S+500-S+999,S+2000-S+2499`. -/
theorem generate_loss_information_holes (ranges : List (Nat × Nat)) (o offset : Int)
    (e0 : Nat × FrameTiming) (timings : List (Nat × FrameTiming))
    (hole_range loss_report : List Char) (loss_size : Int)
    (_ho : -2147483648 ≤ o ∧ o ≤ 2147483647)
    (_hoffset : -2147483648 ≤ offset ∧ offset ≤ 2147483647)
    (hr : ∀ r ∈ ranges, r.1 ≤ r.2 ∧ r.2 ≤ 2147483647 ∧ -2147483648 ≤ (r.1 : Int) - o ∧
      (r.2 : Int) - o ≤ 2147483647)
    (hsum : (ranges.map rangeLen).sum ≤ 2147483647)
    (hoff : ∀ r ∈ ranges, -2147483648 ≤ offset + ((r.1 : Int) - o) ∧
      offset + ((r.2 : Int) - o) ≤ 2147483647)
    (hlost : ∀ e ∈ e0 :: timings, e.2.was_lost = true →
      e0.1 ≤ e.1 ∧ e.1 < 2 ^ 64 ∧ e.1 - e0.1 < 2 ^ 31 ∧ 0 ≤ e.2.length ∧
      ((e.1 - e0.1 : Nat) : Int) + e.2.length ≤ (ranges.map rangeLen).sum)
    (hloss : lostSize (e0 :: timings) ≤ 2147483647) :
    (∃ fo, append_frame_order (formatRanges ranges) o [] = some fo ∧
      generate_loss_information (e0 :: timings) offset fo hole_range loss_report loss_size =
        some (formatHoles (holesOfFrames fo offset e0.1 (e0 :: timings)),
          ['[', 'l', 'o', 's', 's', ']'] ++
            reportText (holesOfFrames fo offset e0.1 (e0 :: timings)),
          lostSize (e0 :: timings))) ∧
    (∀ (S : Nat) (start : Int), S + 3999 ≤ 2147483647 → -2147483648 ≤ start →
      start ≤ 2147483647 → -2147483648 ≤ (S : Int) - start →
      (S : Int) + 3999 - start ≤ 2147483647 →
      ∃ fo, append_frame_order (formatRanges [(S, S + 3999)]) start [] = some fo ∧
        (generate_loss_information exTimings start fo hole_range loss_report loss_size).map
            (fun out => out.1) =
          some (natToString (S + 500) ++ '-' :: natToString (S + 999) ++ ',' ::
            natToString (S + 2000) ++ '-' :: natToString (S + 2499))) := by
  have hafo : ∀ (rs : List (Nat × Nat)) (st : Int),
      (∀ r ∈ rs, r.1 ≤ r.2 ∧ r.2 ≤ 2147483647 ∧ -2147483648 ≤ (r.1 : Int) - st ∧
        (r.2 : Int) - st ≤ 2147483647) → (rs.map rangeLen).sum ≤ 2147483647 →
      append_frame_order (formatRanges rs) st [] = some (frameOrderFrom st rs 0) := by
    intro rs st hrs hrsum
    unfold append_frame_order
    rw [getlineLoop_formatRanges, appendLoop_formatRange st rs hrs 0 (le_refl _) (by omega)]
    rfl
  constructor
  · exact ⟨_, hafo ranges o hr hsum, generate_loss_information_eq ranges o offset e0 timings
      hole_range loss_report loss_size (fun r hr1 => ⟨(hr r hr1).1, hoff r hr1⟩) hsum hlost
      hloss⟩
  · intro S start hS _ _ hlo hhi
    have hrs : ∀ r ∈ [(S, S + 3999)], r.1 ≤ r.2 ∧ r.2 ≤ 2147483647 ∧
        -2147483648 ≤ (r.1 : Int) - start ∧ (r.2 : Int) - start ≤ 2147483647 := by
      intro r hr1
      rw [List.mem_singleton] at hr1
      subst hr1
      refine ⟨by simp, hS, hlo, ?_⟩
      push_cast
      omega
    have hlen : rangeLen (S, S + 3999) = 4000 := by
      unfold rangeLen
      push_cast
      ring
    have hrsum : ([(S, S + 3999)].map rangeLen).sum ≤ 2147483647 := by
      simp only [List.map_cons, List.map_nil, List.sum_cons, List.sum_nil, hlen]
      norm_num
    refine ⟨_, hafo _ start hrs hrsum, ?_⟩
    unfold exTimings
    rw [generate_loss_information_eq [(S, S + 3999)] start start _ _ hole_range loss_report
      loss_size (fun r hr1 => by
        rw [List.mem_singleton] at hr1
        subst hr1
        refine ⟨by simp, ?_, ?_⟩
        · simp only
          omega
        · push_cast
          omega) hrsum (by
        intro e he hl
        simp only [List.mem_cons, List.mem_singleton, List.not_mem_nil, or_false] at he
        rcases he with he | he | he | he | he <;> subst he <;>
          simp [hlen] at hl ⊢) (by norm_num [lostSize])]
    have e1 : (S : Int) + 500 = ((S + 500 : Nat) : Int) := by
      push_cast
      ring
    have e2 : (S : Int) + 500 + 500 - 1 = ((S + 999 : Nat) : Int) := by
      push_cast
      ring
    have e3 : (S : Int) + 2000 = ((S + 2000 : Nat) : Int) := by
      push_cast
      ring
    have e4 : (S : Int) + 2000 + 500 - 1 = ((S + 2499 : Nat) : Int) := by
      push_cast
      ring
    simp [holesOfFrames, holesClaimed, frameOrderFrom, hlen, formatHoles, formatHole]
    rw [e2, e4, e1, e3, intToString_natCast, intToString_natCast, intToString_natCast,
      intToString_natCast]

/-- Witness for C19 (as amended): the range `1000-4999` requested at segment start
`1000`, and the timing map `exTimings`. -/
theorem generate_loss_information_holes_witness :
    ∃ fo, append_frame_order (formatRanges [(1000, 4999)]) 1000 [] = some fo ∧
      generate_loss_information
          ((0, { length := 500, was_lost := false }) ::
            [(500, { length := 500, was_lost := true }),
             (1000, { length := 1000, was_lost := false }),
             (2000, { length := 500, was_lost := true }),
             (2500, { length := 1500, was_lost := false })]) 1000 fo [] [] 0 =
        some (formatHoles (holesOfFrames fo 1000 0 exTimings),
          ['[', 'l', 'o', 's', 's', ']'] ++ reportText (holesOfFrames fo 1000 0 exTimings),
          lostSize exTimings) :=
  (generate_loss_information_holes [(1000, 4999)] 1000 1000
    (0, { length := 500, was_lost := false })
    [(500, { length := 500, was_lost := true }),
     (1000, { length := 1000, was_lost := false }),
     (2000, { length := 500, was_lost := true }),
     (2500, { length := 1500, was_lost := false })] [] [] 0
    (by norm_num) (by norm_num) (by simp) (by norm_num [rangeLen]) (by simp)
    (by
      intro e he hl
      simp only [List.mem_cons, List.mem_singleton, List.not_mem_nil, or_false] at he
      rcases he with he | he | he | he | he <;> subst he <;>
        simp [rangeLen] at hl ⊢)
    (by norm_num [lostSize])).1

/-- C19 (counterexample). The single byte range `0-2147483647` is read by
`append_frame_order`, which computes its length `2147483648` in an `int`: the record
holds `from_len = -2147483648`.  A lost frame of `100` bytes at position `0` lies inside
the request and overlaps that frame range, so the claim has the hole `0-99`; the test
`loss_pos < from_st + from_len` fails, and `generate_loss_information` emits no hole. -/
theorem generate_loss_information_wrapped_length :
    ∃ fo, append_frame_order (formatRanges [(0, 2147483647)]) 0 [] = some fo ∧
      generate_loss_information [(0, { length := 100, was_lost := true })] 0 fo [] [] 0
        = some ([], ['[', 'l', 'o', 's', 's', ']'], 100) ∧
      ((0 : Int) + 100 ≤ rangeLen (0, 2147483647)) ∧
      holesClaimed (frameOrderClaimed [(0, 2147483647)] 0) 0 0 100 = [(0, 99)] := by
  have hafo : append_frame_order (formatRanges [(0, 2147483647)]) 0 []
      = some [{ to_st := 0, to_len := -2147483648, from_st := 0, from_len := -2147483648 }] := by
    unfold append_frame_order
    rw [getlineLoop_formatRanges, List.map_cons, List.map_nil, appendLoop,
      parseRange_formatRange _ _ (by norm_num), if_pos (by norm_num), Option.some_bind]
    norm_num [appendLoop, wrapInt]
  refine ⟨_, hafo, ?_, by norm_num [rangeLen], ?_⟩
  · norm_num [generate_loss_information, lossFrames, lossFor, stringClear, wrapInt, toInt32,
      sizeSub]
  · decide

/-- C18. The outputs `hole_range`, `loss_report` and `loss_size` of
`generate_loss_information` do not depend on the previous contents of the three output
variables, and a second run on the outputs of a first run returns the same outputs. -/
theorem generate_loss_information_fresh_outputs (response_timings : List (Nat × FrameTiming))
    (offset : Int) (frames_order : List frame_order) (hole_range1 loss_report1 : List Char)
    (loss_size1 : Int) (hole_range2 loss_report2 : List Char) (loss_size2 : Int) :
    generate_loss_information response_timings offset frames_order hole_range1 loss_report1
        loss_size1 =
      generate_loss_information response_timings offset frames_order hole_range2 loss_report2
        loss_size2 ∧
    ∀ out, generate_loss_information response_timings offset frames_order hole_range1
        loss_report1 loss_size1 = some out →
      generate_loss_information response_timings offset frames_order out.1 out.2.1 out.2.2
        = some out := by
  have h : ∀ (a1 b1 : List Char) (c1 : Int) (a2 b2 : List Char) (c2 : Int),
      generate_loss_information response_timings offset frames_order a1 b1 c1 =
        generate_loss_information response_timings offset frames_order a2 b2 c2 := by
    intro a1 b1 c1 a2 b2 c2
    cases response_timings with
    | nil => rfl
    | cons e rest => rfl
  refine ⟨h _ _ _ _ _ _, fun out hout => ?_⟩
  rw [h out.1 out.2.1 out.2.2 hole_range1 loss_report1 loss_size1]
  exact hout

/-! ## Process exits and timings -/

/-- C22 (as amended). For every response header block whose `:status` is `404` and for
either value of `keep`, `check_404` terminates the process, and the exit code is
`-1`. -/
theorem check_404_exit (shb : List (String × String)) (keep : Bool) (st : String × String)
    (hfind : shb.find? (fun e => e.1 == ":status") = some st) (h404 : st.2 = "404") :
    check_404 shb keep = Except.error (-1) := by
  unfold check_404
  simp only [hfind, h404, if_true]

/-- Witness for C22 (as amended): a header block with `:status` `404`. -/
theorem check_404_exit_witness :
    check_404 [(":status", "404"), ("content-length", "0")] false = Except.error (-1) :=
  check_404_exit [(":status", "404"), ("content-length", "0")] false (":status", "404")
    (by decide) rfl

/-- C22 (counterexample). On a header block with `:status` `404` the function
`check_404` exits with the code `-1`, which is not `1`, with `keep` set and unset. -/
theorem check_404_code_not_one :
    check_404 [(":status", "404")] true = Except.error (-1) ∧
    check_404 [(":status", "404")] false = Except.error (-1) ∧
    (Except.error (-1) : Except Int Unit) ≠ Except.error 1 := by
  refine ⟨by simp [check_404], by simp [check_404], fun h => ?_⟩
  exact absurd (Except.error.inj h) (by decide)

/-- The method `BolaAbr::PreUpdate` and its variant with the exit code agree. -/
theorem BolaAbr.PreUpdateCode_toOption (s : BolaAbr) (pause : ℚ) (walltime : Nat)
    (retry : Int) :
    s.PreUpdate pause walltime retry = (s.PreUpdateCode pause walltime retry).toOption := by
  unfold BolaAbr.PreUpdate BolaAbr.PreUpdateCode
  split_ifs <;> rfl

/-- C23 (as amended). `BolaAbr::PreUpdate` called with `buffer_level < -100000` ms
terminates the process with exit code `-4`, and called with
`-100000 <= buffer_level < 0` it returns with the level clamped to `0` and, when
`retry` is `0`, raised by the segment duration.  `ThroughputAbr::PreUpdate` and
`MpcAbr::PreUpdate` return for every negative level, below `-100000` too, with the
level clamped to `0` and raised by the segment duration. -/
theorem PreUpdate_negative_level (sb : BolaAbr) (st : ThroughputAbr) (sm : MpcAbr)
    (pause : ℚ) (walltime : Nat) (retry : Int) (segment_size : ℚ) :
    (sb.buffer_level_ < -100000 →
      sb.PreUpdateCode pause walltime retry = Except.error (-4)) ∧
    (-100000 ≤ sb.buffer_level_ → sb.buffer_level_ < 0 →
      ∃ sb2, sb.PreUpdateCode pause walltime retry = Except.ok sb2 ∧
        sb2.buffer_level_ = (if retry = 0 then 0 + sb.segment_duration_ else 0)) ∧
    (st.buffer_level_ < 0 →
      (st.PreUpdate pause walltime).buffer_level_ = 0 + st.segment_duration_) ∧
    (sm.buffer_level_ < 0 →
      (sm.PreUpdate pause walltime segment_size).buffer_level_ = 0 + sm.segment_duration_) := by
  refine ⟨fun h => ?_, fun h1 h2 => ?_, fun h => ?_, fun h => ?_⟩
  · unfold BolaAbr.PreUpdateCode
    rw [if_pos ⟨by linarith, h⟩]
  · unfold BolaAbr.PreUpdateCode
    rw [if_neg (fun hc => absurd hc.2 (not_lt.mpr h1))]
    exact ⟨_, rfl, by simp only [if_pos h2]⟩
  · unfold ThroughputAbr.PreUpdate
    simp only [if_pos h]
  · unfold MpcAbr.PreUpdate
    simp only [if_pos h]

/-- Witness for C23 (as amended): the policies at a level of `-200000` ms. -/
theorem PreUpdate_negative_level_witness :
    ({ exBola with buffer_level_ := -200000 } : BolaAbr).PreUpdateCode 0 0 0
      = Except.error (-4) ∧
    (exTput.PreUpdate 0 0).buffer_level_ = 0 + exTput.segment_duration_ ∧
    (exMpc.PreUpdate 0 1000 500000).buffer_level_ = 0 + exMpc.segment_duration_ :=
  have h := PreUpdate_negative_level { exBola with buffer_level_ := -200000 } exTput exMpc
    0 0 0 500000
  ⟨h.1 (by norm_num), (PreUpdate_negative_level { exBola with buffer_level_ := -200000 }
      exTput exMpc 0 0 0 500000).2.2.1 (by norm_num [exTput]),
    (PreUpdate_negative_level { exBola with buffer_level_ := -200000 } exTput exMpc
      0 1000 0 500000).2.2.2 (by norm_num [exMpc])⟩

/-- C23 (counterexample). With a buffer level of `-200000` ms, below `-100000`,
`ThroughputAbr::PreUpdate` and `MpcAbr::PreUpdate` do not terminate the process: they
return with the level at the segment duration of `4000` ms. -/
theorem PreUpdate_returns_below_limit :
    exTput.buffer_level_ < -100000 ∧ (exTput.PreUpdate 0 0).buffer_level_ = 4000 ∧
    exMpc.buffer_level_ < -100000 ∧ (exMpc.PreUpdate 0 1000 500000).buffer_level_ = 4000 := by
  refine ⟨by norm_num [exTput], by norm_num [exTput, ThroughputAbr.PreUpdate],
    by norm_num [exMpc], by norm_num [exMpc, MpcAbr.PreUpdate]⟩

/-- C24 (evaluation at the failing input). In the coarse mode (`fine_` unset) with a
wall-clock duration of `0` ms the divisor `time_` of the throughput is `time_rough`,
which is `0`: the floor to `1` ms goes to the member `time_rough_`, which the division
does not read.  In the fine mode, and in the coarse mode with a duration of at least
`1` ms, the function returns with a divisor of at least `1`. -/
theorem recordTiming_coarse_zero (measured received_size body_size : Nat) :
    recordTiming false 0 measured received_size body_size = none ∧
    (∀ time_rough, ∃ t, recordTiming true time_rough measured received_size body_size
      = some t ∧ 1 ≤ t.time_ ∧ 1 ≤ t.time_rough_) ∧
    (∀ time_rough, 1 ≤ time_rough → ∃ t,
      recordTiming false time_rough measured received_size body_size = some t ∧
        1 ≤ t.time_) := by
  refine ⟨rfl, fun time_rough => ?_, fun time_rough h => ?_⟩
  · unfold recordTiming
    by_cases hm : measured = 0
    · subst hm
      by_cases hr : time_rough = 0
      · subst hr
        exact ⟨_, rfl, le_refl _, le_refl _⟩
      · simp only [if_neg hr]
        exact ⟨_, rfl, le_refl _, Nat.one_le_iff_ne_zero.mpr hr⟩
    · simp only [if_neg hm]
      refine ⟨_, rfl, Nat.one_le_iff_ne_zero.mpr hm, ?_⟩
      simp only []
      split_ifs <;> omega
  · unfold recordTiming
    have hr : time_rough ≠ 0 := by omega
    simp only [if_neg hr, if_true]
    exact ⟨_, rfl, h⟩

/-! ## The constants of BolaAbr -/

/-- On a non-empty `ssims`, and with an exact rounding, the constructor on both branches
is the constructor `create`. -/
theorem BolaAbr.createWith_eq_create (fl log : ℚ → ℚ) (hfl : ∀ x, fl x = x) (D B : ℚ)
    (bitrates ssims : List ℚ) (h : ssims ≠ []) :
    BolaAbr.create D B bitrates ssims = some (BolaAbr.createWith fl log D B bitrates ssims) := by
  have he : ssims.isEmpty = false := by
    cases ssims with
    | nil => exact absurd rfl h
    | cons a l => rfl
  unfold BolaAbr.create BolaAbr.createWith BolaAbr.utilitiesOf BolaAbr.alphaOf
    BolaAbr.bufferTargetOf
  simp only [he, Bool.false_eq_true, if_false, hfl]

/-- The state of a `MovingAverage` fed with the same throughput `tp` in every sample,
for a `pow_half` that turns sums into products: both averages are `tp` times the
zero factor of the cumulative time. -/
theorem MovingAverage.addAll_const {K : Type} [LinearOrderedField K] (pow_half : K → K)
    (hadd : ∀ x y, pow_half (x + y) = pow_half x * pow_half y) (tp : K) (dts : List K) :
    ∀ (s : MovingAverage K),
      s.throughput_slow_ = tp * (1 - pow_half (s.cumulative_time_ / MovingAverage.kHalfLifeSlow)) →
      s.throughput_fast_ = tp * (1 - pow_half (s.cumulative_time_ / MovingAverage.kHalfLifeFast)) →
      (MovingAverage.addAll pow_half tp s dts).throughput_slow_
        = tp * (1 - pow_half ((MovingAverage.addAll pow_half tp s dts).cumulative_time_
            / MovingAverage.kHalfLifeSlow)) ∧
      (MovingAverage.addAll pow_half tp s dts).throughput_fast_
        = tp * (1 - pow_half ((MovingAverage.addAll pow_half tp s dts).cumulative_time_
            / MovingAverage.kHalfLifeFast)) ∧
      (MovingAverage.addAll pow_half tp s dts).cumulative_time_
        = s.cumulative_time_ + dts.sum := by
  induction dts with
  | nil =>
    intro s h1 h2
    exact ⟨h1, h2, by simp [MovingAverage.addAll]⟩
  | cons dt rest ih =>
    intro s h1 h2
    have hs : MovingAverage.addAll pow_half tp s (dt :: rest)
        = MovingAverage.addAll pow_half tp (MovingAverage.AddMeasurement pow_half s tp dt)
            rest := rfl
    obtain ⟨i1, i2, i3⟩ := ih (MovingAverage.AddMeasurement pow_half s tp dt)
      (by
        simp only [MovingAverage.AddMeasurement]
        rw [h1, add_div, hadd]
        ring)
      (by
        simp only [MovingAverage.AddMeasurement]
        rw [h2, add_div, hadd]
        ring)
    rw [hs]
    refine ⟨i1, i2, ?_⟩
    rw [i3]
    simp only [MovingAverage.AddMeasurement, List.sum_cons]
    ring

/-- C30. For every throughput `tp` and every non-empty sequence of strictly positive
sample durations, over the reals and with `std::pow(0.5, x)` the real power: after
`AddMeasurement(tp, dt_i)` for every sample, `GetThroughput` returns `tp`. -/
theorem MovingAverage.GetThroughput_const (tp : ℝ) (dts : List ℝ) (hne : dts ≠ [])
    (hpos : ∀ dt ∈ dts, 0 < dt) :
    MovingAverage.GetThroughput (fun x : ℝ => (1 / 2 : ℝ) ^ x)
      (MovingAverage.addAll (fun x : ℝ => (1 / 2 : ℝ) ^ x) tp MovingAverage.create dts) = tp := by
  have hadd : ∀ x y : ℝ, (fun x : ℝ => (1 / 2 : ℝ) ^ x) (x + y)
      = (fun x : ℝ => (1 / 2 : ℝ) ^ x) x * (fun x : ℝ => (1 / 2 : ℝ) ^ x) y := by
    intro x y
    exact Real.rpow_add (by norm_num) x y
  obtain ⟨h1, h2, h3⟩ := MovingAverage.addAll_const (fun x : ℝ => (1 / 2 : ℝ) ^ x) hadd tp dts
    MovingAverage.create (by simp [MovingAverage.create]) (by simp [MovingAverage.create])
  have hsum : 0 < dts.sum := by
    cases dts with
    | nil => exact absurd rfl hne
    | cons d rest =>
      rw [List.sum_cons]
      have hd := hpos d (List.mem_cons_self _ _)
      have hr : 0 ≤ rest.sum :=
        List.sum_nonneg (fun x hx => le_of_lt (hpos x (List.mem_cons_of_mem _ hx)))
      linarith
  have hT : 0 < (MovingAverage.addAll (fun x : ℝ => (1 / 2 : ℝ) ^ x) tp
      MovingAverage.create dts).cumulative_time_ := by
    rw [h3]
    simpa [MovingAverage.create] using hsum
  have hz : ∀ k : ℝ, 0 < k → (1 : ℝ) - (1 / 2 : ℝ) ^ ((MovingAverage.addAll
      (fun x : ℝ => (1 / 2 : ℝ) ^ x) tp MovingAverage.create dts).cumulative_time_ / k) ≠ 0 := by
    intro k hk
    have : (1 / 2 : ℝ) ^ ((MovingAverage.addAll (fun x : ℝ => (1 / 2 : ℝ) ^ x) tp
        MovingAverage.create dts).cumulative_time_ / k) < 1 :=
      Real.rpow_lt_one (by norm_num) (by norm_num) (div_pos hT hk)
    linarith
  unfold MovingAverage.GetThroughput
  rw [if_neg (not_le.mpr hT)]
  simp only []
  rw [h1, h2, mul_div_assoc, mul_div_assoc,
    div_self (hz _ (by norm_num [MovingAverage.kHalfLifeSlow])),
    div_self (hz _ (by norm_num [MovingAverage.kHalfLifeFast])), mul_one, min_self]

/-- Witness for C30: the throughput `1000` in two samples of `100` and `250` ms. -/
theorem MovingAverage.GetThroughput_const_witness :
    MovingAverage.GetThroughput (fun x : ℝ => (1 / 2 : ℝ) ^ x)
      (MovingAverage.addAll (fun x : ℝ => (1 / 2 : ℝ) ^ x) 1000 MovingAverage.create
        [100, 250]) = 1000 :=
  MovingAverage.GetThroughput_const 1000 [100, 250] (by simp) (by
    intro dt hdt
    simp only [List.mem_cons, List.mem_singleton, List.not_mem_nil, or_false] at hdt
    rcases hdt with h | h <;> rw [h] <;> norm_num)

/-! ## QualityFromBufferLevel: monotonicity -/

/-- An entry that outscores a smaller one at a buffer level still does so at every
higher level: the score of the smaller entry falls at least as fast. -/
theorem BolaAbr.entryScore_gap_mono (s : BolaAbr) (fq : Int) (e1 e2 : ℚ × SSIMBasedQuality)
    (b1 b2 : ℚ) (h2 : 0 < e2.2.size) (hle : e2.2.size ≤ e1.2.size) (hb : b1 ≤ b2)
    (hlt : s.entryScore b1 fq e2 < s.entryScore b1 fq e1) :
    s.entryScore b2 fq e2 < s.entryScore b2 fq e1 := by
  unfold BolaAbr.entryScore BolaAbr.Score at hlt ⊢
  generalize s.vp_ * ((if e1.2.quality < fq then e1.1 - s.favorSsimPenalty else e1.1) + s.gp_)
    = A1 at hlt ⊢
  generalize s.vp_ * ((if e2.2.quality < fq then e2.1 - s.favorSsimPenalty else e2.1) + s.gp_)
    = A2 at hlt ⊢
  have hs2 : (0 : ℚ) < (e2.2.size : ℚ) * 8 := by
    have : (0 : ℚ) < (e2.2.size : ℚ) := by exact_mod_cast h2
    linarith
  have hs12 : (e2.2.size : ℚ) * 8 ≤ (e1.2.size : ℚ) * 8 := by
    have : (e2.2.size : ℚ) ≤ (e1.2.size : ℚ) := by exact_mod_cast hle
    linarith
  generalize (e1.2.size : ℚ) * 8 = S1 at hlt hs12 ⊢
  generalize (e2.2.size : ℚ) * 8 = S2 at hlt hs2 hs12 ⊢
  have hs1 : 0 < S1 := lt_of_lt_of_le hs2 hs12
  rw [div_lt_div_iff₀ hs2 hs1] at hlt ⊢
  nlinarith [mul_nonneg (sub_nonneg.mpr hb) (sub_nonneg.mpr hs12)]

/-- In exact arithmetic, for every non-empty SSIM map (keys ascending) with strictly
positive keys and positive sizes that are non-decreasing in key order, and every fixed
`favor_quality`, the key returned by `QualityFromBufferLevel` is non-decreasing in
`buffer_level`. -/
theorem BolaAbr.exact_monotone_QualityFromBufferLevel (s : BolaAbr) (m : SsimMap) (mq fq : Int)
    (b1 b2 : ℚ) (hne : m ≠ []) (hkeys : m.Pairwise (fun a b => a.1 < b.1))
    (hpos : ∀ e ∈ m, 0 < e.1) (hsize : ∀ e ∈ m, 0 < e.2.size)
    (hmono : m.Pairwise (fun a b => a.2.size ≤ b.2.size)) (hb : b1 ≤ b2) :
    s.QualityFromBufferLevel b1 m mq fq ≤ s.QualityFromBufferLevel b2 m mq fq := by
  have hk : ∀ e ∈ m, e.1 ≠ 0 := fun e he => ne_of_gt (hpos e he)
  obtain ⟨pre1, e1, post1, hm1, hr1, _, hpre1⟩ :=
    BolaAbr.QualityFromBufferLevel_argmax_of_nonzero_keys s b1 m mq fq hne hk hsize
  obtain ⟨pre2, e2, post2, hm2, hr2, hmax2, _⟩ :=
    BolaAbr.QualityFromBufferLevel_argmax_of_nonzero_keys s b2 m mq fq hne hk hsize
  rw [hr1, hr2]
  by_contra hcon
  have hlt : e2.1 < e1.1 := not_le.mp hcon
  have he1 : e1 ∈ m := by rw [hm1]; simp
  have he2 : e2 ∈ m := by rw [hm2]; simp
  have hin : e2 ∈ pre1 := by
    rw [hm1] at he2 hkeys
    rcases List.mem_append.mp he2 with h | h
    · exact h
    · exfalso
      rcases List.mem_cons.mp h with h | h
      · rw [h] at hlt
        exact lt_irrefl _ hlt
      · have := (List.pairwise_cons.mp (List.pairwise_append.mp hkeys).2.1).1 e2 h
        exact lt_irrefl _ (lt_trans hlt this)
  have hsz : e2.2.size ≤ e1.2.size := by
    rw [hm1] at hmono
    exact (List.pairwise_append.mp hmono).2.2 e2 hin e1 (List.mem_cons_self _ _)
  have h1 := hpre1 e2 hin
  have h2 := BolaAbr.entryScore_gap_mono s fq e1 e2 b1 b2 (hsize e2 he2) hsz hb h1
  exact absurd (hmax2 e1 he1) (not_le.mpr h2)

/-- With an exact rounding, the loop of `QualityFromBufferLevelFl` is the loop of
`QualityFromBufferLevel`. -/
theorem BolaAbr.bufferLevelLoopFl_exact (fl : ℚ → ℚ) (hfl : ∀ x, fl x = x) (s : BolaAbr)
    (b : ℚ) (fq : Int) (pen : ℚ) (m : SsimMap) : ∀ acc : ℚ × ℚ,
      BolaAbr.bufferLevelLoopFl fl s b fq pen m acc = BolaAbr.bufferLevelLoop s b fq pen m acc := by
  induction m with
  | nil =>
    intro acc
    rfl
  | cons e rest ih =>
    intro acc
    obtain ⟨best, score⟩ := acc
    simp only [BolaAbr.bufferLevelLoopFl, BolaAbr.bufferLevelLoop, BolaAbr.ScoreFl,
      BolaAbr.Score, hfl, ih]

/-- With an exact rounding, `QualityFromBufferLevelFl` is `QualityFromBufferLevel`. -/
theorem BolaAbr.QualityFromBufferLevelFl_exact (fl : ℚ → ℚ) (hfl : ∀ x, fl x = x)
    (s : BolaAbr) (b : ℚ) (m : SsimMap) (mq fq : Int) :
    BolaAbr.QualityFromBufferLevelFl fl s b m mq fq = s.QualityFromBufferLevel b m mq fq := by
  have hp : BolaAbr.favorSsimPenaltyFl fl s = s.favorSsimPenalty := by
    unfold BolaAbr.favorSsimPenaltyFl BolaAbr.favorSsimPenalty
    simp only [hfl]
  unfold BolaAbr.QualityFromBufferLevelFl BolaAbr.QualityFromBufferLevel
  rw [BolaAbr.bufferLevelLoopFl_exact fl hfl, hp]

/-- C27 (as amended). In exact arithmetic (the rounding `fl` is the identity), for every
non-empty SSIM map (keys ascending) with strictly positive keys and positive sizes that
are non-decreasing in key order, and every fixed `favor_quality`, the key returned by
`QualityFromBufferLevel` is non-decreasing in `buffer_level`. -/
theorem BolaAbr.QualityFromBufferLevel_mono (s : BolaAbr) (m : SsimMap) (mq fq : Int)
    (b1 b2 : ℚ) (hne : m ≠ []) (hkeys : m.Pairwise (fun a b => a.1 < b.1))
    (hpos : ∀ e ∈ m, 0 < e.1) (hsize : ∀ e ∈ m, 0 < e.2.size)
    (hmono : m.Pairwise (fun a b => a.2.size ≤ b.2.size)) (hb : b1 ≤ b2) :
    BolaAbr.QualityFromBufferLevelFl id s b1 m mq fq
      ≤ BolaAbr.QualityFromBufferLevelFl id s b2 m mq fq := by
  rw [BolaAbr.QualityFromBufferLevelFl_exact id (fun _ => rfl),
    BolaAbr.QualityFromBufferLevelFl_exact id (fun _ => rfl)]
  exact BolaAbr.exact_monotone_QualityFromBufferLevel s m mq fq b1 b2 hne hkeys hpos hsize hmono hb

/-- Witness for C27 (as amended): the map `exMap` at the buffer levels `2000` and `9000`
ms. -/
theorem BolaAbr.QualityFromBufferLevel_mono_witness :
    BolaAbr.QualityFromBufferLevelFl id exBola 2000 exMap 3 0
      ≤ BolaAbr.QualityFromBufferLevelFl id exBola 9000 exMap 3 0 :=
  BolaAbr.QualityFromBufferLevel_mono exBola exMap 3 0 2000 9000 (by simp [exMap])
    (by norm_num [exMap]) (by
      intro e he
      simp only [exMap, List.mem_cons, List.mem_singleton, List.not_mem_nil, or_false] at he
      rcases he with h | h | h | h <;> rw [h] <;> norm_num)
    (by
      intro e he
      simp only [exMap, List.mem_cons, List.mem_singleton, List.not_mem_nil, or_false] at he
      rcases he with h | h | h | h <;> rw [h] <;> norm_num [exEntry])
    (by norm_num [exMap, exEntry]) (by norm_num)

/-- C27 (counterexample). In the arithmetic of `double`, on the state `exBolaDouble` and
the map `exMapTie` (keys `0.6` and `0.65`, both entries of `150000` bytes) with
`favor_quality = 1`: the penalty is `0.04999999999999999`, and the entry of key `0.65`,
of quality `0`, scores as the ssim `0.6000000000000001`.  At the buffer level `23500` it
outscores the entry of key `0.6`, and `QualityFromBufferLevel` returns `0.65`; at the
buffer level `23750` the two scores round to the same `double`, and it returns `0.6`. -/
theorem BolaAbr.QualityFromBufferLevel_rounded_tie :
    exMapTie ≠ [] ∧ exMapTie.Pairwise (fun a b => a.1 < b.1) ∧ (∀ e ∈ exMapTie, 0 < e.1) ∧
    (∀ e ∈ exMapTie, 0 < e.2.size) ∧ exMapTie.Pairwise (fun a b => a.2.size ≤ b.2.size) ∧
    (23500 : ℚ) ≤ 23750 ∧
    BolaAbr.QualityFromBufferLevelFl roundDouble exBolaDouble 23500 exMapTie 2 1
      = 5854679515581645 / 9007199254740992 ∧
    BolaAbr.QualityFromBufferLevelFl roundDouble exBolaDouble 23750 exMapTie 2 1
      = 5404319552844595 / 9007199254740992 ∧
    (5404319552844595 / 9007199254740992 : ℚ) < 5854679515581645 / 9007199254740992 := by
  have t1 : roundDouble (900719925474099 / 9007199254740992) = 900719925474099 / 9007199254740992 := by
    rw [roundDouble_eq (900719925474099 / 9007199254740992) 7205759403792792 (-56) (by norm_num) (by norm_num)
      (by rw [abs_lt]; constructor <;> norm_num)]
    norm_num
  have t2 : roundDouble 2 = 2 := by
    rw [roundDouble_eq 2 4503599627370496 (-51) (by norm_num) (by norm_num)
      (by rw [abs_lt]; constructor <;> norm_num)]
    norm_num
  have t3 : roundDouble (900719925474099 / 18014398509481984) = 900719925474099 / 18014398509481984 := by
    rw [roundDouble_eq (900719925474099 / 18014398509481984) 7205759403792792 (-57) (by norm_num) (by norm_num)
      (by rw [abs_lt]; constructor <;> norm_num)]
    norm_num
  have t4 : roundDouble 150000 = 150000 := by
    rw [roundDouble_eq 150000 5153960755200000 (-35) (by norm_num) (by norm_num)
      (by rw [abs_lt]; constructor <;> norm_num)]
    norm_num
  have t5 : roundDouble 1200000 = 1200000 := by
    rw [roundDouble_eq 1200000 5153960755200000 (-32) (by norm_num) (by norm_num)
      (by rw [abs_lt]; constructor <;> norm_num)]
    norm_num
  have t6 : roundDouble (4951760157141519099364943645901 / 1237940039285380274899124224) = 2199023255551999 / 549755813888 := by
    rw [roundDouble_eq (4951760157141519099364943645901 / 1237940039285380274899124224) 8796093022207996 (-41) (by norm_num) (by norm_num)
      (by rw [abs_lt]; constructor <;> norm_num)]
    norm_num
  have t7 : roundDouble (-(10720238370816001 / 549755813888)) = -19500 := by
    rw [roundDouble_neg_tie (-(10720238370816001 / 549755813888)) 5360119185408000 (-38) (by norm_num) (by norm_num) (by norm_num)]
    norm_num
  have t8 : roundDouble (-(13 / 800)) = -(1170935903116329 / 72057594037927936) := by
    rw [roundDouble_neg_eq (-(13 / 800)) 4683743612465316 (-58) (by norm_num) (by norm_num)
      (by rw [abs_lt]; constructor <;> norm_num)]
    norm_num
  have t9 : roundDouble (10808639105689191 / 18014398509481984) = 1351079888211149 / 2251799813685248 := by
    rw [roundDouble_tie (10808639105689191 / 18014398509481984) 5404319552844595 (-53) (by norm_num) (by norm_num) (by norm_num)]
    norm_num
  have t10 : roundDouble (225179981368525 / 2251799813685248) = 225179981368525 / 2251799813685248 := by
    rw [roundDouble_eq (225179981368525 / 2251799813685248) 7205759403792800 (-56) (by norm_num) (by norm_num)
      (by rw [abs_lt]; constructor <;> norm_num)]
    norm_num
  have t11 : roundDouble (1237940039285381149230770631475 / 309485009821345068724781056) = 4398046511104003 / 1099511627776 := by
    rw [roundDouble_eq (1237940039285381149230770631475 / 309485009821345068724781056) 8796093022208006 (-41) (by norm_num) (by norm_num)
      (by rw [abs_lt]; constructor <;> norm_num)]
    norm_num
  have t12 : roundDouble (-(21440476741631997 / 1099511627776)) = -(5360119185407999 / 274877906944) := by
    rw [roundDouble_neg_eq (-(21440476741631997 / 1099511627776)) 5360119185407999 (-38) (by norm_num) (by norm_num)
      (by rw [abs_lt]; constructor <;> norm_num)]
    norm_num
  have t13 : roundDouble (-(5360119185407999 / 329853488332800000)) = -(4683743612465315 / 288230376151711744) := by
    rw [roundDouble_neg_eq (-(5360119185407999 / 329853488332800000)) 4683743612465315 (-58) (by norm_num) (by norm_num)
      (by rw [abs_lt]; constructor <;> norm_num)]
    norm_num
  have t14 : roundDouble (-(10857677324288001 / 549755813888)) = -19750 := by
    rw [roundDouble_neg_tie (-(10857677324288001 / 549755813888)) 5428838662144000 (-38) (by norm_num) (by norm_num) (by norm_num)]
    norm_num
  have t15 : roundDouble (-(79 / 4800)) = -(2371895803748461 / 144115188075855872) := by
    rw [roundDouble_neg_eq (-(79 / 4800)) 4743791607496922 (-58) (by norm_num) (by norm_num)
      (by rw [abs_lt]; constructor <;> norm_num)]
    norm_num
  have t16 : roundDouble (-(21715354648575997 / 1099511627776)) = -(5428838662143999 / 274877906944) := by
    rw [roundDouble_neg_eq (-(21715354648575997 / 1099511627776)) 5428838662143999 (-38) (by norm_num) (by norm_num)
      (by rw [abs_lt]; constructor <;> norm_num)]
    norm_num
  have t17 : roundDouble (-(1809612887381333 / 109951162777600000)) = -(2371895803748461 / 144115188075855872) := by
    rw [roundDouble_neg_eq (-(1809612887381333 / 109951162777600000)) 4743791607496922 (-58) (by norm_num) (by norm_num)
      (by rw [abs_lt]; constructor <;> norm_num)]
    norm_num
  have hpen : BolaAbr.favorSsimPenaltyFl roundDouble exBolaDouble = 900719925474099 / 18014398509481984 := by
    norm_num [BolaAbr.favorSsimPenaltyFl, exBolaDouble, exSsimsDouble, t1, t2, t3, t4, t5, t6, t7, t8, t9, t10, t11, t12, t13, t14, t15, t16, t17]
  refine ⟨by simp [exMapTie], by norm_num [exMapTie], ?_, ?_, by norm_num [exMapTie],
    by norm_num, ?_, ?_, by norm_num⟩
  · intro e he
    simp only [exMapTie, List.mem_cons, List.mem_singleton, List.not_mem_nil, or_false] at he
    rcases he with h | h <;> rw [h] <;> norm_num
  · intro e he
    simp only [exMapTie, List.mem_cons, List.mem_singleton, List.not_mem_nil, or_false] at he
    rcases he with h | h <;> rw [h] <;> norm_num
  · rw [BolaAbr.QualityFromBufferLevelFl, hpen]
    norm_num [exMapTie, BolaAbr.bufferLevelLoopFl, BolaAbr.ScoreFl, exBolaDouble,
      t1, t2, t3, t4, t5, t6, t7, t8, t9, t10, t11, t12, t13, t14, t15, t16, t17]
  · rw [BolaAbr.QualityFromBufferLevelFl, hpen]
    norm_num [exMapTie, BolaAbr.bufferLevelLoopFl, BolaAbr.ScoreFl, exBolaDouble,
      t1, t2, t3, t4, t5, t6, t7, t8, t9, t10, t11, t12, t13, t14, t15, t16, t17]

/-! ## Loss accounting: coverage -/

/-- The holes of a lost frame of non-negative length in the frame order of byte ranges
cover the overlap of the frame with the request. -/
theorem holesClaimed_sum (o offset p l : Int) (hl : 0 ≤ l) (ranges : List (Nat × Nat))
    (h : ∀ r ∈ ranges, r.1 ≤ r.2) :
    ∀ c : Int,
      ((holesClaimed (frameOrderFrom o ranges c) offset p l).map (fun x => x.2 - x.1 + 1)).sum
        = max 0 (min (p + l) (c + (ranges.map rangeLen).sum) - max p c) := by
  induction ranges with
  | nil =>
    intro c
    simp only [frameOrderFrom, holesClaimed, List.filterMap_nil, List.map_nil, List.sum_nil,
      add_zero]
    omega
  | cons r rest ih =>
    intro c
    have hr := h r (List.mem_cons_self _ _)
    have hrest : ∀ x ∈ rest, x.1 ≤ x.2 := fun x hx => h x (List.mem_cons_of_mem _ hx)
    have hlen : 0 < rangeLen r := by
      unfold rangeLen
      omega
    have hsum := rangeLen_sum_nonneg rest hrest
    have ihc := ih hrest (c + rangeLen r)
    rw [frameOrderFrom]
    unfold holesClaimed at ihc ⊢
    rw [List.filterMap_cons]
    simp only [List.map_cons, List.sum_cons]
    generalize (List.map rangeLen rest).sum = S at hsum ihc ⊢
    generalize rangeLen r = len at hlen ihc ⊢
    by_cases hc : max p c < min (p + l) (c + len)
    · simp only [if_pos hc, List.map_cons, List.sum_cons]
      rw [ihc]
      omega
    · simp only [if_neg hc]
      rw [ihc]
      omega

/-- The records of the frame order of byte ranges come from the ranges. -/
theorem frameOrderFrom_mem (o : Int) (ranges : List (Nat × Nat)) :
    ∀ (c : Int) (f : frame_order), f ∈ frameOrderFrom o ranges c →
      ∃ r ∈ ranges, f.to_st = (r.1 : Int) - o ∧ f.from_len = rangeLen r := by
  induction ranges with
  | nil =>
    intro c f hf
    exact absurd hf (List.not_mem_nil _)
  | cons r rest ih =>
    intro c f hf
    rw [frameOrderFrom] at hf
    rcases List.mem_cons.mp hf with hf | hf
    · subst hf
      exact ⟨r, List.mem_cons_self _ _, rfl, rfl⟩
    · obtain ⟨r2, hr2, h1, h2⟩ := ih _ f hf
      exact ⟨r2, List.mem_cons_of_mem _ hr2, h1, h2⟩

/-- Every hole of a lost frame lies inside one of the byte ranges of the request, when
the loss accounting uses the offset of the request. -/
theorem holesClaimed_inside (o p l : Int) (ranges : List (Nat × Nat)) (c : Int) :
    ∀ x ∈ holesClaimed (frameOrderFrom o ranges c) o p l,
      x.1 ≤ x.2 ∧ ∃ r ∈ ranges, (r.1 : Int) ≤ x.1 ∧ x.2 ≤ (r.2 : Int) := by
  intro x hx
  unfold holesClaimed at hx
  rw [List.mem_filterMap] at hx
  obtain ⟨f, hf, hx⟩ := hx
  obtain ⟨r, hr, h1, h2⟩ := frameOrderFrom_mem o ranges c f hf
  by_cases hc : max p f.from_st < min (p + l) (f.from_st + f.from_len)
  · rw [if_pos hc] at hx
    have hx' := (Option.some.inj hx).symm
    rw [hx']
    simp only
    rw [h1]
    rw [h2] at hc ⊢
    unfold rangeLen at hc ⊢
    refine ⟨by omega, r, hr, by omega, by omega⟩
  · rw [if_neg hc] at hx
    exact absurd hx (by simp)

/-- The holes of the lost frames of a timing map, each frame of non-negative length and
inside the request: they cover the sum of the lost lengths, and each lies inside one of
the byte ranges of the request. -/
theorem holesOfFrames_cover (o : Int) (ranges : List (Nat × Nat))
    (h : ∀ r ∈ ranges, r.1 ≤ r.2) (first : Nat) (timings : List (Nat × FrameTiming))
    (hlost : ∀ e ∈ timings, e.2.was_lost = true →
      first ≤ e.1 ∧ 0 ≤ e.2.length ∧
      ((e.1 - first : Nat) : Int) + e.2.length ≤ (ranges.map rangeLen).sum) :
    ((holesOfFrames (frameOrderFrom o ranges 0) o first timings).map
        (fun x => x.2 - x.1 + 1)).sum = lostSize timings ∧
    ∀ x ∈ holesOfFrames (frameOrderFrom o ranges 0) o first timings,
      x.1 ≤ x.2 ∧ ∃ r ∈ ranges, (r.1 : Int) ≤ x.1 ∧ x.2 ≤ (r.2 : Int) := by
  induction timings with
  | nil => simp [holesOfFrames, lostSize]
  | cons e rest ih =>
    obtain ⟨i1, i2⟩ := ih (fun x hx => hlost x (List.mem_cons_of_mem _ hx))
    by_cases hl : e.2.was_lost = true
    · obtain ⟨h1, h2, h3⟩ := hlost e (List.mem_cons_self _ _) hl
      have hcast : ((e.1 - first : Nat) : Int) = (e.1 : Int) - (first : Int) := by omega
      rw [hcast] at h3
      have hs := holesClaimed_sum o o ((e.1 : Int) - (first : Int)) e.2.length h2 ranges h 0
      simp only [holesOfFrames, lostSize, if_pos hl, List.map_append, List.sum_append]
      refine ⟨?_, fun x hx => ?_⟩
      · rw [hs, i1]
        omega
      · rcases List.mem_append.mp hx with hx | hx
        · exact holesClaimed_inside o _ _ ranges 0 x hx
        · exact i2 x hx
    · simp only [holesOfFrames, lostSize, if_neg hl, List.nil_append, zero_add]
      exact ⟨i1, i2⟩

/-- C28 (as amended). For every frame order that `append_frame_order` produces from a
list of byte ranges `a_i <= b_i` at the offset of the request, and every non-empty timing
map all of whose lost frames lie inside the request, where the `int` values of the code do not
overflow (the offset, the `b_i`, the positions relative to the offset, the sum of the
lengths of the ranges and the sum of the lengths of the lost frames fit `int`, and no
lost frame has a negative length), `generate_loss_information` returns; the byte ranges it writes to
`hole_range` cover in total exactly `loss_size` bytes, `loss_size` being the sum of the
lengths of the lost frames, and each of them lies inside one of the requested ranges. -/
theorem generate_loss_information_cover (ranges : List (Nat × Nat)) (o : Int)
    (e0 : Nat × FrameTiming) (timings : List (Nat × FrameTiming))
    (hole_range loss_report : List Char) (loss_size : Int)
    (_ho : -2147483648 ≤ o ∧ o ≤ 2147483647)
    (hr : ∀ r ∈ ranges, r.1 ≤ r.2 ∧ r.2 ≤ 2147483647 ∧ -2147483648 ≤ (r.1 : Int) - o ∧
      (r.2 : Int) - o ≤ 2147483647)
    (hsum : (ranges.map rangeLen).sum ≤ 2147483647)
    (hlost : ∀ e ∈ e0 :: timings, e.2.was_lost = true →
      e0.1 ≤ e.1 ∧ e.1 < 2 ^ 64 ∧ e.1 - e0.1 < 2 ^ 31 ∧ 0 ≤ e.2.length ∧
      ((e.1 - e0.1 : Nat) : Int) + e.2.length ≤ (ranges.map rangeLen).sum)
    (hloss : lostSize (e0 :: timings) ≤ 2147483647) :
    ∃ (fo : List frame_order) (holes : List (Int × Int)) (report : List Char),
      append_frame_order (formatRanges ranges) o [] = some fo ∧
      generate_loss_information (e0 :: timings) o fo hole_range loss_report loss_size
        = some (formatHoles holes, report, lostSize (e0 :: timings)) ∧
      (holes.map (fun x => x.2 - x.1 + 1)).sum = lostSize (e0 :: timings) ∧
      ∀ x ∈ holes, x.1 ≤ x.2 ∧ ∃ r ∈ ranges, (r.1 : Int) ≤ x.1 ∧ x.2 ≤ (r.2 : Int) := by
  have hafo : append_frame_order (formatRanges ranges) o []
      = some (frameOrderFrom o ranges 0) := by
    unfold append_frame_order
    rw [getlineLoop_formatRanges, appendLoop_formatRange o ranges hr 0 (le_refl _) (by omega)]
    rfl
  have hcov := holesOfFrames_cover o ranges (fun r hr1 => (hr r hr1).1) e0.1 (e0 :: timings)
    (fun e he hl => ⟨(hlost e he hl).1, (hlost e he hl).2.2.2.1, (hlost e he hl).2.2.2.2⟩)
  exact ⟨_, _, _, hafo, generate_loss_information_eq ranges o o e0 timings hole_range
    loss_report loss_size (fun r hr1 => by
      have := hr r hr1
      exact ⟨this.1, by omega, by omega⟩) hsum hlost hloss, hcov.1, hcov.2⟩

/-- Witness for C28 (as amended): the range `1000-4999` requested at segment start
`1000`, and the timing map `exTimings`. -/
theorem generate_loss_information_cover_witness :
    ∃ (fo : List frame_order) (holes : List (Int × Int)) (report : List Char),
      append_frame_order (formatRanges [(1000, 4999)]) 1000 [] = some fo ∧
      generate_loss_information
          ((0, { length := 500, was_lost := false }) ::
            [(500, { length := 500, was_lost := true }),
             (1000, { length := 1000, was_lost := false }),
             (2000, { length := 500, was_lost := true }),
             (2500, { length := 1500, was_lost := false })]) 1000 fo [] [] 0
        = some (formatHoles holes, report, lostSize exTimings) ∧
      (holes.map (fun x => x.2 - x.1 + 1)).sum = lostSize exTimings ∧
      ∀ x ∈ holes, x.1 ≤ x.2 ∧
        ∃ r ∈ [((1000 : Nat), (4999 : Nat))], (r.1 : Int) ≤ x.1 ∧ x.2 ≤ (r.2 : Int) :=
  generate_loss_information_cover [(1000, 4999)] 1000
    (0, { length := 500, was_lost := false })
    [(500, { length := 500, was_lost := true }),
     (1000, { length := 1000, was_lost := false }),
     (2000, { length := 500, was_lost := true }),
     (2500, { length := 1500, was_lost := false })] [] [] 0
    (by norm_num) (by simp) (by norm_num [rangeLen])
    (by
      intro e he hl
      simp only [List.mem_cons, List.mem_singleton, List.not_mem_nil, or_false] at he
      rcases he with he | he | he | he | he <;> subst he <;>
        simp [rangeLen] at hl ⊢)
    (by norm_num [lostSize])

/-- C28 (counterexample). For the single byte range `0-2147483647`, whose length
`2147483648` does not fit `int`, and a timing map whose only lost frame has `250` bytes
at position `500`, inside the request: `generate_loss_information` returns
`loss_size = 250` and an empty `hole_range`, which covers no byte. -/
theorem generate_loss_information_covers_nothing :
    ∃ fo, append_frame_order (formatRanges [(0, 2147483647)]) 0 [] = some fo ∧
      generate_loss_information
          [(0, { length := 500, was_lost := false }), (500, { length := 250, was_lost := true })]
          0 fo [] [] 0
        = some ([], ['[', 'l', 'o', 's', 's', ']'], 250) ∧
      ((500 : Int) + 250 ≤ rangeLen (0, 2147483647)) ∧
      lostSize [(0, { length := 500, was_lost := false }),
        (500, { length := 250, was_lost := true })] = 250 := by
  have hafo : append_frame_order (formatRanges [(0, 2147483647)]) 0 []
      = some [{ to_st := 0, to_len := -2147483648, from_st := 0, from_len := -2147483648 }] := by
    unfold append_frame_order
    rw [getlineLoop_formatRanges, List.map_cons, List.map_nil, appendLoop,
      parseRange_formatRange _ _ (by norm_num), if_pos (by norm_num), Option.some_bind]
    norm_num [appendLoop, wrapInt]
  refine ⟨_, hafo, ?_, by norm_num [rangeLen], by norm_num [lostSize]⟩
  norm_num [generate_loss_information, lossFrames, lossFor, stringClear, wrapInt, toInt32,
    sizeSub]

/-! ## Loss accounting: the splitting loop -/

/-- The facts behind a frame order with contiguous from-offsets. -/
theorem contiguousFrom_cons (c : Int) (f : frame_order) (rest : List frame_order)
    (h : contiguousFrom c (f :: rest) = true) :
    f.from_st = c ∧ 0 ≤ f.from_len ∧ contiguousFrom (c + f.from_len) rest = true := by
  rw [contiguousFrom] at h
  simp only [Bool.and_eq_true, decide_eq_true_eq] at h
  exact ⟨h.1.1, h.1.2, h.2⟩

/-- The total length of a frame order with contiguous from-offsets is not negative. -/
theorem requestedLength_nonneg (fs : List frame_order) :
    ∀ c, contiguousFrom c fs = true → 0 ≤ requestedLength fs := by
  induction fs with
  | nil =>
    intro c _
    simp [requestedLength]
  | cons f rest ih =>
    intro c h
    obtain ⟨_, h2, h3⟩ := contiguousFrom_cons c f rest h
    have := ih _ h3
    unfold requestedLength at this ⊢
    simp only [List.map_cons, List.sum_cons]
    omega

/-- The splitting loop on frame ranges with contiguous from-offsets whose running sum
fits `int`, started in the range that holds the position or behind the position, with a
remaining loss that the ranges can take: every access is in bounds, and the loop ends
with `rem_loss = 0`. -/
theorem lossWhile_rem (offset p : Int) (fs : List frame_order) :
    ∀ (c rem : Int) (hr lr : List Char), contiguousFrom c fs = true → 0 ≤ c →
      c + requestedLength fs ≤ 2147483647 →
      (p ≤ c ∨ ∃ f rest, fs = f :: rest ∧ p < c + f.from_len) → 0 ≤ rem →
      rem ≤ c + requestedLength fs - max p c →
      ∃ hr2 lr2 its, lossWhile offset p fs rem hr lr = some (hr2, lr2, 0, its) := by
  induction fs with
  | nil =>
    intro c rem hr lr _ _ _ _ h0 hcap
    have hrem : rem = 0 := by
      simp only [requestedLength, List.map_nil, List.sum_nil, add_zero] at hcap
      have := le_max_right p c
      omega
    subst hrem
    exact ⟨hr, lr, [], rfl⟩
  | cons f rest ih =>
    intro c rem hr lr hc hc0 hcmax hpos h0 hcap
    obtain ⟨hst, hlen, hrest⟩ := contiguousFrom_cons c f rest hc
    have hsum := requestedLength_nonneg rest _ hrest
    have hreq : requestedLength (f :: rest) = f.from_len + requestedLength rest := by
      simp [requestedLength]
    rw [hreq] at hcap hcmax
    have hmc : c ≤ max p c := le_max_right p c
    have hpc : max p c < c + f.from_len ∨ max p c = c := by
      rcases hpos with h | ⟨f2, rest2, he, h⟩
      · exact Or.inr (max_eq_right h)
      · have := (List.cons.inj he).1
        subst this
        rcases le_total p c with h1 | h1
        · exact Or.inr (max_eq_right h1)
        · exact Or.inl (by rw [max_eq_left h1]; exact h)
    rw [lossWhile]
    by_cases hrem : rem > 0
    · simp only [if_pos hrem, hst]
      have hmax : (if p > c then p else c) = max p c := by
        rcases le_total p c with hpc2 | hpc2
        · rw [max_eq_right hpc2, if_neg (not_lt.mpr hpc2)]
        · rcases eq_or_lt_of_le hpc2 with he | hlt
          · rw [he, max_self, if_neg (lt_irrefl _)]
          · rw [max_eq_left hpc2, if_pos hlt]
      have w1 : wrapInt (c + f.from_len) = c + f.from_len :=
        wrapInt_of_bounds _ (by omega) (by omega)
      have w2 : wrapInt (c + f.from_len - max p c) = c + f.from_len - max p c :=
        wrapInt_of_bounds _ (by omega) (by omega)
      have hmin1 := min_le_left rem (c + f.from_len - max p c)
      have hmin2 := min_le_right rem (c + f.from_len - max p c)
      have hmin3 : 0 ≤ min rem (c + f.from_len - max p c) := le_min h0 (by omega)
      have w3 : wrapInt (rem - min rem (c + f.from_len - max p c))
          = rem - min rem (c + f.from_len - max p c) :=
        wrapInt_of_bounds _ (by omega) (by omega)
      rw [hmax, w1, w2, w3]
      apply ih (c + f.from_len) _ _ _ hrest (by omega) (by omega) (Or.inl (by omega))
        (by omega)
      have hc2 : max p (c + f.from_len) = max (max p c) (c + f.from_len) := by
        rw [max_assoc, max_eq_right (by omega : c ≤ c + f.from_len)]
      rcases le_total rem (c + f.from_len - max p c) with hle | hle
      · rw [min_eq_left hle, sub_self]
        have := le_max_right p (c + f.from_len)
        have : max p (c + f.from_len) ≤ c + f.from_len := by
          rw [hc2]
          exact max_le (by omega) (le_refl _)
        omega
      · rw [min_eq_right hle]
        have : max p (c + f.from_len) ≤ c + f.from_len := by
          rw [hc2]
          exact max_le (by omega) (le_refl _)
        omega
    · simp only [if_neg hrem]
      have : rem = 0 := by omega
      subst this
      exact ⟨hr, lr, f :: rest, rfl⟩

/-- The part of a frame order with contiguous from-offsets from one of its records
on. -/
theorem contiguousFrom_append (pre : List frame_order) (it : frame_order)
    (rest : List frame_order) :
    ∀ c, contiguousFrom c (pre ++ it :: rest) = true →
      contiguousFrom it.from_st (it :: rest) = true ∧ c ≤ it.from_st ∧
      c + requestedLength (pre ++ it :: rest) = it.from_st + requestedLength (it :: rest) := by
  induction pre with
  | nil =>
    intro c h
    have e := (contiguousFrom_cons c it rest h).1
    subst e
    exact ⟨h, le_refl _, rfl⟩
  | cons f pre ih =>
    intro c h
    rw [List.cons_append] at h ⊢
    obtain ⟨_, h2, h3⟩ := contiguousFrom_cons c f _ h
    obtain ⟨i1, i2, i3⟩ := ih _ h3
    refine ⟨i1, by omega, ?_⟩
    rw [← i3]
    simp only [requestedLength, List.map_cons, List.sum_cons]
    ring

/-- The loop over the frame ranges for one lost frame, on a frame order with contiguous
from-offsets whose running sum fits `int`: the frame ranges that end at or before the
position are passed over. -/
theorem lossFor_skip (offset p l : Int) (pre : List frame_order) (it : frame_order)
    (rest : List frame_order) (hr lr : List Char) :
    ∀ c, contiguousFrom c (pre ++ it :: rest) = true → 0 ≤ c →
      c + requestedLength (pre ++ it :: rest) ≤ 2147483647 → it.from_st ≤ p →
      lossFor offset p l (pre ++ it :: rest) hr lr = lossFor offset p l (it :: rest) hr lr := by
  induction pre with
  | nil =>
    intro c _ _ _ _
    rfl
  | cons f pre ih =>
    intro c h hc0 hcmax hp
    rw [List.cons_append] at h hcmax ⊢
    obtain ⟨hst, hlen, h3⟩ := contiguousFrom_cons c f _ h
    obtain ⟨_, i2, _⟩ := contiguousFrom_append pre it rest _ h3
    have hsum := requestedLength_nonneg _ _ h3
    have hreq : requestedLength (f :: (pre ++ it :: rest))
        = f.from_len + requestedLength (pre ++ it :: rest) := by
      simp [requestedLength]
    rw [hreq] at hcmax
    have w1 : wrapInt (f.from_st + f.from_len) = f.from_st + f.from_len :=
      wrapInt_of_bounds _ (by omega) (by omega)
    rw [lossFor, w1, if_neg (fun hcon => by omega)]
    exact ih _ h3 (by omega) (by omega) hp

/-- C29. In `generate_loss_information`, for every `int` offset and every frame order
of `int` values with contiguous from-offsets (starting at `0`, no negative length) whose
total requested length fits `int`, and every lost frame at a position `p >= 0` with a
length `l >= 0` such that `p + l` does not exceed the total requested length: the loop
over the frame ranges returns, and the splitting loop, which it starts at the frame range that holds `p`,
makes every frame-range access in bounds, ends with the remaining loss equal to `0`, and
hands the texts it has written back to the loop over the frame ranges. -/
theorem lossWhile_in_bounds (offset p l : Int) (frames_order : List frame_order)
    (hole_range loss_report : List Char)
    (_hoffset : -2147483648 ≤ offset ∧ offset ≤ 2147483647)
    (_hto : ∀ f ∈ frames_order, -2147483648 ≤ f.to_st ∧ f.to_st ≤ 2147483647)
    (hc : contiguousFrom 0 frames_order = true)
    (hmax : requestedLength frames_order ≤ 2147483647) (hp : 0 ≤ p) (hl : 0 ≤ l)
    (hin : p + l ≤ requestedLength frames_order) :
    (∃ r, lossFor offset p l frames_order hole_range loss_report = some r) ∧
    ∀ (pre : List frame_order) (it : frame_order) (rest : List frame_order),
      frames_order = pre ++ it :: rest → it.from_st ≤ p → p < it.from_st + it.from_len →
      ∃ hr2 lr2 its,
        lossWhile offset p (it :: rest) l hole_range loss_report = some (hr2, lr2, 0, its) ∧
        lossFor offset p l frames_order hole_range loss_report = some (hr2, lr2) := by
  have key : ∀ (pre : List frame_order) (it : frame_order) (rest : List frame_order),
      frames_order = pre ++ it :: rest → it.from_st ≤ p → p < it.from_st + it.from_len →
      ∃ hr2 lr2 its,
        lossWhile offset p (it :: rest) l hole_range loss_report = some (hr2, lr2, 0, its) ∧
        lossFor offset p l frames_order hole_range loss_report = some (hr2, lr2) := by
    intro pre it rest hsplit h1 h2
    have hc' := hc
    have hmax' := hmax
    have hin' := hin
    rw [hsplit] at hc' hmax' hin'
    obtain ⟨hc2, hle, hsum⟩ := contiguousFrom_append pre it rest 0 hc'
    obtain ⟨_, hlen, hrest⟩ := contiguousFrom_cons _ it rest hc2
    have hrsum := requestedLength_nonneg rest _ hrest
    have hreq : requestedLength (it :: rest) = it.from_len + requestedLength rest := by
      simp [requestedLength]
    obtain ⟨hr2, lr2, its, hs⟩ := lossWhile_rem offset p (it :: rest) it.from_st l
      hole_range loss_report hc2 hle (by omega) (Or.inr ⟨it, rest, rfl, h2⟩) hl (by
        rw [max_eq_left h1]
        omega)
    refine ⟨hr2, lr2, its, hs, ?_⟩
    have w1 : wrapInt (it.from_st + it.from_len) = it.from_st + it.from_len :=
      wrapInt_of_bounds _ (by omega) (by omega)
    rw [hsplit, lossFor_skip offset p l pre it rest _ _ 0 hc' (le_refl _) (by omega) h1,
      lossFor, w1, if_pos ⟨h1, h2⟩, hs]
    rfl
  refine ⟨?_, key⟩
  -- the loop over the frame ranges returns whether or not a range holds the position
  have hret : ∀ (fs : List frame_order) (c : Int) (hr lr : List Char),
      contiguousFrom c fs = true → 0 ≤ c → c + requestedLength fs ≤ 2147483647 → c ≤ p →
      p + l ≤ c + requestedLength fs → ∃ r, lossFor offset p l fs hr lr = some r := by
    intro fs
    induction fs with
    | nil =>
      intro c hr lr _ _ _ _ _
      exact ⟨_, rfl⟩
    | cons f rest ih =>
      intro c hr lr hcf hc0 hcmax hcp hcap
      obtain ⟨hst, hlen, hrest⟩ := contiguousFrom_cons c f rest hcf
      have hrsum := requestedLength_nonneg rest _ hrest
      have hreq : requestedLength (f :: rest) = f.from_len + requestedLength rest := by
        simp [requestedLength]
      rw [hreq] at hcap hcmax
      have w1 : wrapInt (f.from_st + f.from_len) = f.from_st + f.from_len :=
        wrapInt_of_bounds _ (by omega) (by omega)
      rw [lossFor, w1]
      by_cases hin2 : f.from_st ≤ p ∧ p < f.from_st + f.from_len
      · rw [if_pos hin2]
        obtain ⟨hr2, lr2, its, hs⟩ := lossWhile_rem offset p (f :: rest) c l hr lr hcf hc0
          (by rw [hreq]; omega) (Or.inr ⟨f, rest, rfl, by rw [← hst]; exact hin2.2⟩) hl (by
            rw [max_eq_left hcp, hreq]
            omega)
        rw [hs]
        exact ⟨_, rfl⟩
      · rw [if_neg hin2]
        have hge : c + f.from_len ≤ p := by
          rw [hst] at hin2
          by_contra hcon
          exact hin2 ⟨hcp, not_le.mp hcon⟩
        exact ih _ hr lr hrest (by omega) (by omega) hge (by omega)
  exact hret frames_order 0 _ _ hc (le_refl _) (by omega) hp (by omega)

/-- Witness for C29: two frame ranges of `300` and `700` bytes and a lost frame of
`400` bytes at position `200`, which straddles them. -/
theorem lossWhile_in_bounds_witness :
    ∃ hr2 lr2 its,
      lossWhile 1000 200
        ({ to_st := 0, to_len := 300, from_st := 0, from_len := 300 } ::
          [{ to_st := 500, to_len := 700, from_st := 300, from_len := 700 }]) 400 [] []
        = some (hr2, lr2, 0, its) ∧
      lossFor 1000 200 400
        [{ to_st := 0, to_len := 300, from_st := 0, from_len := 300 },
         { to_st := 500, to_len := 700, from_st := 300, from_len := 700 }] [] []
        = some (hr2, lr2) :=
  (lossWhile_in_bounds 1000 200 400
    [{ to_st := 0, to_len := 300, from_st := 0, from_len := 300 },
     { to_st := 500, to_len := 700, from_st := 300, from_len := 700 }] [] []
    (by norm_num)
    (by
      intro f hf
      simp only [List.mem_cons, List.mem_singleton, List.not_mem_nil, or_false] at hf
      rcases hf with hf | hf <;> subst hf <;> norm_num)
    (by decide) (by norm_num [requestedLength]) (by norm_num) (by norm_num)
    (by norm_num [requestedLength])).2 []
    { to_st := 0, to_len := 300, from_st := 0, from_len := 300 }
    [{ to_st := 500, to_len := 700, from_st := 300, from_len := 700 }] rfl
    (by norm_num) (by norm_num)

/-! ## Required and optional frame ranges -/

/-- The comma-joined text of a list with a first text and further ones. -/
theorem joinComma_cons (p : List Char) (rest : List (List Char)) (h : rest ≠ []) :
    joinComma (p :: rest) = p ++ ',' :: joinComma rest := by
  cases rest with
  | nil => exact absurd rfl h
  | cons q r => rfl

/-- The first `k > 0` members of a non-empty list are a non-empty list. -/
theorem take_ne_nil_of_pos {α : Type} (l : List α) (k : Nat) (hk : 0 < k) (hl : l ≠ []) :
    l.take k ≠ [] := by
  cases l with
  | nil => exact absurd rfl hl
  | cons a t =>
    cases k with
    | zero => exact absurd hk (lt_irrefl _)
    | succ j => simp

/-- The members of a list behind its first `k` ones are a non-empty list when the list
has more than `k` members. -/
theorem drop_ne_nil_of_lt {α : Type} (l : List α) (k : Nat) (hk : k < l.length) :
    l.drop k ≠ [] := by
  intro h
  have := congrArg List.length h
  rw [List.length_drop, List.length_nil] at this
  omega

/-- A comma-joined text is the join of its first `k` texts, a comma, and the join of
the others. -/
theorem joinComma_take_drop (pieces : List (List Char)) :
    ∀ k, 0 < k → k < pieces.length →
      joinComma pieces = joinComma (pieces.take k) ++ ',' :: joinComma (pieces.drop k) := by
  induction pieces with
  | nil =>
    intro k _ h
    simp at h
  | cons p rest ih =>
    intro k hk hlt
    have hrest : rest ≠ [] := by
      intro h
      rw [h] at hlt
      simp at hlt
      omega
    obtain ⟨j, rfl⟩ : ∃ j, k = j + 1 := ⟨k - 1, by omega⟩
    rw [List.take_succ_cons, List.drop_succ_cons, joinComma_cons p rest hrest]
    by_cases hj : j = 0
    · subst hj
      simp [joinComma]
    · have hjl : j < rest.length := by simpa using hlt
      have htake : rest.take j ≠ [] := take_ne_nil_of_pos rest j (by omega) hrest
      rw [joinComma_cons p _ htake, ih j (by omega) hjl]
      simp

/-- The search for a comma from the start of a text that holds none, a comma
following. -/
theorem findFromSizeT_comma (pre p tail : List Char) (h : ',' ∉ p) :
    findFromSizeT ',' (pre ++ (p ++ ',' :: tail)) pre.length = pre.length + p.length := by
  unfold findFromSizeT
  rw [List.drop_left, if_pos (by simp), List.indexOf_append_of_not_mem h,
    List.indexOf_cons_self]
  rfl

/-- The search for a comma from the start of the last text, which holds none. -/
theorem findFromSizeT_none (pre p : List Char) (h : ',' ∉ p) :
    findFromSizeT ',' (pre ++ p) pre.length = 2 ^ 64 - 1 := by
  unfold findFromSizeT
  rw [List.drop_left, if_neg h]

/-- The loop of `get_subrange` on the comma-joined text of non-empty texts without
commas, `pos` standing at the start of one of them: it finds the `k` ranges asked for,
and `pos` ends behind the comma that follows them, or at the end of the text. -/
theorem subrangeLoop_joinComma :
    ∀ (k : Nat) (rest : List (List Char)) (pre : List Char) (found : Nat),
      (∀ p ∈ rest, p ≠ [] ∧ ',' ∉ p) → k ≤ rest.length →
      (pre ++ joinComma rest).length < 2 ^ 64 →
      subrangeLoop (pre ++ joinComma rest) k pre.length found =
        ((pre ++ joinComma (rest.take k)).length
          + (if k = 0 ∨ k = rest.length then 0 else 1), found + k) := by
  intro k
  induction k with
  | zero =>
    intro rest pre found _ _ _
    simp [subrangeLoop, joinComma]
  | succ k ih =>
    intro rest pre found hp hk hlen
    cases rest with
    | nil => simp at hk
    | cons p rest2 =>
      have hpp := hp p (List.mem_cons_self _ _)
      have hp2 : ∀ x ∈ rest2, x ≠ [] ∧ ',' ∉ x := fun x hx => hp x (List.mem_cons_of_mem _ hx)
      have hplen : 0 < p.length := List.length_pos.mpr hpp.1
      have hk2 : k ≤ rest2.length := by simpa using hk
      cases rest2 with
      | nil =>
        have hk0 : k = 0 := by simpa using hk2
        subst hk0
        have hj : joinComma [p] = p := rfl
        rw [hj] at hlen ⊢
        rw [subrangeLoop, if_pos (by rw [List.length_append]; omega),
          findFromSizeT_none pre p hpp.2]
        simp [subrangeLoop, joinComma]
      | cons q rest3 =>
        have hj : joinComma (p :: q :: rest3) = p ++ ',' :: joinComma (q :: rest3) := rfl
        rw [hj] at hlen ⊢
        have hlen2 : (pre ++ (p ++ ',' :: joinComma (q :: rest3))).length
            = pre.length + p.length + 1 + (joinComma (q :: rest3)).length := by
          simp only [List.length_append, List.length_cons]
          omega
        have hnext : pre.length + p.length ≠ 2 ^ 64 - 1 := by omega
        have hmod : (pre.length + p.length + 1) % 2 ^ 64 = pre.length + p.length + 1 :=
          Nat.mod_eq_of_lt (by omega)
        rw [subrangeLoop, if_pos (by omega), findFromSizeT_comma pre p _ hpp.2]
        simp only [if_neg hnext, hmod]
        have hassoc : pre ++ (p ++ ',' :: joinComma (q :: rest3))
            = (pre ++ p ++ [',']) ++ joinComma (q :: rest3) := by simp
        have hprelen : pre.length + p.length + 1 = (pre ++ p ++ [',']).length := by
          simp only [List.length_append, List.length_cons, List.length_nil]
        rw [hassoc, hprelen, ih (q :: rest3) (pre ++ p ++ [',']) (found + 1) hp2 hk2
          (by rw [← hassoc]; exact hlen)]
        have hfound : found + 1 + k = found + (k + 1) := by omega
        rw [hfound, List.take_succ_cons]
        congr 1
        by_cases hk0 : k = 0
        · subst hk0
          simp [joinComma]
          omega
        · have htake : (q :: rest3).take k ≠ [] :=
            take_ne_nil_of_pos _ k (by omega) (List.cons_ne_nil _ _)
          rw [joinComma_cons p _ htake]
          by_cases hkl : k = (q :: rest3).length
          · rw [if_pos (Or.inr hkl), if_pos (Or.inr (by simp [hkl]))]
            simp
          · rw [if_neg (by
              intro h
              rcases h with h | h
              · exact hk0 h
              · exact hkl h), if_neg (by
              intro h
              rcases h with h | h
              · omega
              · apply hkl
                simpa using h)]
            simp only [List.length_append, List.length_cons, List.length_nil]
            omega

/-- C21. For every comma-separated list of `n >= 1` non-empty byte ranges (shorter than
`2^64` as a text) and every `count` with `0 <= count <= n`, `get_subrange` returns the
first `count` ranges joined by commas, and the optional range `main` derives from it is
the remaining `n - count` ranges, so that for `0 < count < n` the required range, a
comma and the optional range make up the original list. -/
theorem get_subrange_split (pieces : List (List Char)) (count : Nat) (hne : pieces ≠ [])
    (hp : ∀ p ∈ pieces, p ≠ [] ∧ ',' ∉ p) (hcount : count ≤ pieces.length)
    (hlen : (joinComma pieces).length < 2 ^ 64) :
    get_subrange (joinComma pieces) count = some (joinComma (pieces.take count)) ∧
    optionalRange (joinComma pieces) (joinComma (pieces.take count))
      = some (joinComma (pieces.drop count)) ∧
    (0 < count → count < pieces.length →
      joinComma (pieces.take count) ++ ',' :: joinComma (pieces.drop count)
        = joinComma pieces) := by
  have hloop := subrangeLoop_joinComma count pieces [] 0 hp hcount (by simpa using hlen)
  simp only [List.nil_append, List.length_nil, zero_add] at hloop
  have hnonempty : ∀ l : List (List Char), l ≠ [] → (∀ p ∈ l, p ≠ [] ∧ ',' ∉ p) →
      0 < (joinComma l).length := by
    intro l hl hpl
    cases l with
    | nil => exact absurd rfl hl
    | cons p rest =>
      have hpp := List.length_pos.mpr (hpl p (List.mem_cons_self _ _)).1
      cases rest with
      | nil => exact hpp
      | cons q r =>
        rw [joinComma, List.length_append]
        omega
  by_cases hc0 : count = 0
  · subst hc0
    have hpos := hnonempty pieces hne hp
    refine ⟨by simp [get_subrange, joinComma], ?_, fun h => absurd h (lt_irrefl _)⟩
    unfold optionalRange
    simp [joinComma, hpos]
  · by_cases hcn : count = pieces.length
    · subst hcn
      rw [List.take_length, List.drop_length]
      refine ⟨?_, ?_, fun _ h => absurd h (lt_irrefl _)⟩
      · unfold get_subrange
        rw [if_neg hc0]
        simp only [hloop, List.take_length, or_true, if_true, add_zero, lt_irrefl, if_false]
      · unfold optionalRange
        simp [joinComma]
    · have hlt : count < pieces.length := lt_of_le_of_ne hcount hcn
      have hsplit := joinComma_take_drop pieces count (Nat.pos_of_ne_zero hc0) hlt
      have hdrop : pieces.drop count ≠ [] := drop_ne_nil_of_lt pieces count hlt
      have hdpos := hnonempty (pieces.drop count) hdrop
        (fun p hpm => hp p (List.mem_of_mem_drop hpm))
      have htake : pieces.take count ≠ [] :=
        take_ne_nil_of_pos pieces count (Nat.pos_of_ne_zero hc0) hne
      have htpos := hnonempty (pieces.take count) htake
        (fun p hpm => hp p (List.mem_of_mem_take hpm))
      have htotal : (joinComma pieces).length
          = (joinComma (pieces.take count)).length + 1 + (joinComma (pieces.drop count)).length := by
        rw [hsplit]
        simp only [List.length_append, List.length_cons]
        omega
      refine ⟨?_, ?_, fun _ _ => hsplit.symm⟩
      · unfold get_subrange
        rw [if_neg hc0]
        simp only [hloop, if_neg (fun h : count = 0 ∨ count = pieces.length =>
          h.elim hc0 hcn), lt_irrefl, if_false]
        rw [if_neg (by omega)]
        have hsub : sizeSub ((joinComma (pieces.take count)).length + 1) 1
            = (joinComma (pieces.take count)).length := by
          unfold sizeSub
          omega
        rw [hsub]
        unfold substr
        rw [if_neg (by omega)]
        rw [hsplit, List.drop_zero, List.take_left]
      · unfold optionalRange
        simp only []
        rw [if_pos (by omega)]
        have hemp : (joinComma (pieces.take count)).isEmpty = false := by
          cases hj : joinComma (pieces.take count) with
          | nil => rw [hj] at htpos; simp at htpos
          | cons a l => rfl
        rw [hemp]
        simp only [Bool.false_eq_true, if_false]
        unfold substr
        rw [if_neg (by omega)]
        have hd : (joinComma pieces).drop ((joinComma (pieces.take count)).length + 1)
            = joinComma (pieces.drop count) := by
          rw [hsplit]
          have : joinComma (pieces.take count) ++ ',' :: joinComma (pieces.drop count)
              = (joinComma (pieces.take count) ++ [',']) ++ joinComma (pieces.drop count) := by
            simp
          rw [this]
          exact List.drop_left' (by simp)
        rw [hd, List.take_of_length_le (by omega)]

/-- Witness for C21: the first two of the three ranges `0-9`, `20-29`, `40-49`. -/
theorem get_subrange_split_witness :
    get_subrange (joinComma [['0', '-', '9'], ['2', '0', '-', '2', '9'],
        ['4', '0', '-', '4', '9']]) 2
      = some (joinComma ([['0', '-', '9'], ['2', '0', '-', '2', '9'],
        ['4', '0', '-', '4', '9']].take 2)) ∧
    optionalRange (joinComma [['0', '-', '9'], ['2', '0', '-', '2', '9'],
        ['4', '0', '-', '4', '9']])
        (joinComma ([['0', '-', '9'], ['2', '0', '-', '2', '9'],
          ['4', '0', '-', '4', '9']].take 2))
      = some (joinComma ([['0', '-', '9'], ['2', '0', '-', '2', '9'],
        ['4', '0', '-', '4', '9']].drop 2)) :=
  have h := get_subrange_split [['0', '-', '9'], ['2', '0', '-', '2', '9'],
    ['4', '0', '-', '4', '9']] 2 (by simp) (by decide) (by decide) (by
      simp [joinComma])
  ⟨h.1, h.2.1⟩

/-! ## The entries of the SSIM maps -/

/-- A key of the map at `x` counts among the keys from `x` on, and not among those from
`x + 1/1000000000` on. -/
theorem countP_key_lt (x : ℚ) (m : SsimMap) (h : ∃ e ∈ m, e.1 = x) :
    m.countP (fun e => decide (x + 1 / 1000000000 ≤ e.1))
      < m.countP (fun e => decide (x ≤ e.1)) := by
  induction m with
  | nil =>
    obtain ⟨e, he, _⟩ := h
    exact absurd he (List.not_mem_nil _)
  | cons a t ih =>
    rw [List.countP_cons, List.countP_cons]
    have hmono : t.countP (fun e => decide (x + 1 / 1000000000 ≤ e.1))
        ≤ t.countP (fun e => decide (x ≤ e.1)) := by
      apply List.countP_mono_left
      intro e _ he
      simp only [decide_eq_true_eq] at he ⊢
      linarith
    by_cases ha : a.1 = x
    · have h1 : ¬ (x + 1 / 1000000000 ≤ a.1) := by
        rw [ha]
        norm_num
      have h2 : x ≤ a.1 := by rw [ha]
      simp only [h1, h2, decide_True, decide_False, if_true, Bool.false_eq_true, if_false]
      omega
    · obtain ⟨e, he, hex⟩ := h
      have het : e ∈ t := by
        rcases List.mem_cons.mp he with h3 | h3
        · rw [h3] at hex
          exact absurd hex ha
        · exact h3
      have := ih ⟨e, het, hex⟩
      by_cases h1 : x + 1 / 1000000000 ≤ a.1
      · have h2 : x ≤ a.1 := by linarith
        simp only [h1, h2, decide_True, if_true]
        omega
      · simp only [h1, decide_False, Bool.false_eq_true, if_false]
        split_ifs <;> omega

/-- The lookup of a key fails exactly when no entry has the key. -/
theorem mapAt_isSome_iff (m : SsimMap) (k : ℚ) :
    (mapAt m k).isSome = true ↔ ∃ e ∈ m, e.1 = k := by
  unfold mapAt
  rw [Option.isSome_map', List.find?_isSome]
  simp

/-- The loop that raises a duplicate key ends, within the rounds the embedding gives it,
on a key the map does not hold. -/
theorem BolaAbr.freshKey_fresh (m : SsimMap) :
    ∀ (fuel : Nat) (x : ℚ), m.countP (fun e => decide (x ≤ e.1)) < fuel →
      ∀ e ∈ m, e.1 ≠ BolaAbr.freshKey m fuel x := by
  intro fuel
  induction fuel with
  | zero =>
    intro x h
    exact absurd h (Nat.not_lt_zero _)
  | succ fuel ih =>
    intro x h
    rw [BolaAbr.freshKey]
    by_cases hs : (mapAt m x).isSome = true
    · rw [if_pos hs]
      have := countP_key_lt x m ((mapAt_isSome_iff m x).mp hs)
      exact ih _ (by omega)
    · rw [if_neg hs]
      intro e he hk
      exact hs ((mapAt_isSome_iff m x).mpr ⟨e, he, hk⟩)

/-- The map the vector-based `BolaE` builds holds one entry per utility. -/
theorem BolaAbr.fillLoop_length (s : BolaAbr) (sizes : List ℚ) :
    ∀ (us : List ℚ) (q : Nat) (m : SsimMap),
      (BolaAbr.fillLoop s sizes us q m).length = m.length + us.length := by
  intro us
  induction us with
  | nil =>
    intro q m
    simp [BolaAbr.fillLoop]
  | cons u rest ih =>
    intro q m
    rw [BolaAbr.fillLoop, ih]
    have hfresh := BolaAbr.freshKey_fresh m (m.length + 1) u
      (Nat.lt_succ_of_le (List.countP_le_length _))
    rw [(mapInsert_fresh _ _ m hfresh).1, List.length_cons]
    omega

/-- The loop over the triples of a segment whose `ssim` values are pairwise distinct
and are not keys of the map of the segment: it returns, and the map of the segment
gains one entry per triple. -/
theorem ssimsLoop_length (rel_size : Int) (bw curr : Nat) (triples : List (ℚ × Nat × Nat)) :
    ∀ (maps : List SsimMap), curr ≤ maps.length →
      triples.Pairwise (fun a b => a.1 ≠ b.1) →
      (∀ t ∈ triples, ∀ e ∈ maps.getD curr [], e.1 ≠ t.1) →
      ∃ maps2, ssimsLoop rel_size bw curr triples maps = some maps2 ∧
        (maps2.getD curr []).length = (maps.getD curr []).length + triples.length := by
  induction triples with
  | nil =>
    intro maps _ _ _
    exact ⟨maps, rfl, by simp⟩
  | cons t rest ih =>
    intro maps hcurr hp hold
    have hpc := List.pairwise_cons.mp hp
    rw [ssimsLoop]
    simp only []
    have hmaps1 : ∃ maps1, (if maps.length < curr + 1 then maps ++ [[]] else maps) = maps1 ∧
        curr < maps1.length ∧ maps1.getD curr [] = maps.getD curr [] ∧
        ¬ (maps.length < curr + 1 ∧ maps1.length ≠ curr + 1) := by
      by_cases hlt : maps.length < curr + 1
      · have he : maps.length = curr := by omega
        refine ⟨maps ++ [[]], by rw [if_pos hlt], ?_, ?_, ?_⟩
        · rw [List.length_append, List.length_singleton]
          omega
        · rw [List.getD_eq_getElem?_getD, List.getD_eq_getElem?_getD,
            List.getElem?_append_right (by omega), List.getElem?_eq_none (l := maps) (by omega),
            he, Nat.sub_self]
          rfl
        · intro h
          apply h.2
          rw [List.length_append, List.length_singleton]
          omega
      · exact ⟨maps, by rw [if_neg hlt], by omega, rfl, fun h => hlt h.1⟩
    obtain ⟨maps1, hm1, hlen1, hget1, hno⟩ := hmaps1
    rw [hm1, if_neg hno, hget1]
    have hfresh := mapInsert_fresh t.1
      ({ size := (t.2.2 + intToSizeT rel_size) % 2 ^ 64, reliable_size := intToSizeT rel_size,
         quality := toInt32 bw, required_frames := t.2.1 } : SSIMBasedQuality)
      (maps.getD curr []) (fun e he => hold t (List.mem_cons_self _ _) e he)
    have hset : (maps1.set curr (mapInsert t.1
        ({ size := (t.2.2 + intToSizeT rel_size) % 2 ^ 64, reliable_size := intToSizeT rel_size,
           quality := toInt32 bw, required_frames := t.2.1 } : SSIMBasedQuality)
        (maps.getD curr []))).getD curr []
        = mapInsert t.1
          ({ size := (t.2.2 + intToSizeT rel_size) % 2 ^ 64, reliable_size := intToSizeT rel_size,
             quality := toInt32 bw, required_frames := t.2.1 } : SSIMBasedQuality)
          (maps.getD curr []) := by
      rw [List.getD_eq_getElem?_getD, List.getElem?_set_self hlen1]
      rfl
    obtain ⟨maps2, h1, h2⟩ := ih (maps1.set curr (mapInsert t.1
        ({ size := (t.2.2 + intToSizeT rel_size) % 2 ^ 64, reliable_size := intToSizeT rel_size,
           quality := toInt32 bw, required_frames := t.2.1 } : SSIMBasedQuality)
        (maps.getD curr []))) (by simp only [List.length_set]; omega) hpc.2 (by
      intro t2 ht2 e he
      rw [hset] at he
      rcases (hfresh.2 e).mp he with h3 | h3
      · rw [h3]
        exact hpc.1 t2 ht2
      · exact hold t2 (List.mem_cons_of_mem _ ht2) e h3)
    refine ⟨maps2, h1, ?_⟩
    rw [h2, hset, hfresh.1, List.length_cons]
    omega

/-- C25 (as amended). The map the vector-based `BolaE` synthesises from the utilities
holds exactly one entry per utility, duplicates included (a duplicate is raised by
steps of `0.000000001` until its key is free).  The loop of `main` over the
`ssim:frames:size` triples of a segment assigns every triple under its `ssim`: when the
`ssim` values of the triples are pairwise distinct and are not keys of the map of the
segment, the map gains exactly one entry per triple. -/
theorem ssim_map_entries (s : BolaAbr) (sizes : List ℚ) (rel_size : Int) (bw curr : Nat)
    (triples : List (ℚ × Nat × Nat)) (maps : List SsimMap) (hcurr : curr ≤ maps.length)
    (hdistinct : triples.Pairwise (fun a b => a.1 ≠ b.1))
    (hnew : ∀ t ∈ triples, ∀ e ∈ maps.getD curr [], e.1 ≠ t.1) :
    (BolaAbr.fillLoop s sizes s.utilities_ 0 []).length = s.utilities_.length ∧
    ∃ maps2, ssimsLoop rel_size bw curr triples maps = some maps2 ∧
      (maps2.getD curr []).length = (maps.getD curr []).length + triples.length := by
  refine ⟨?_, ssimsLoop_length rel_size bw curr triples maps hcurr hdistinct hnew⟩
  rw [BolaAbr.fillLoop_length]
  simp

/-- Witness for C25 (as amended): two triples with the `ssim` values `0.9` and `0.95`
for the first segment of a manifest. -/
theorem ssim_map_entries_witness :
    (BolaAbr.fillLoop exBola [] exBola.utilities_ 0 []).length = exBola.utilities_.length ∧
    ∃ maps2, ssimsLoop 1000 500 0 [(9 / 10, 40, 20000), (19 / 20, 70, 30000)] []
        = some maps2 ∧
      (maps2.getD 0 []).length
        = (([] : List SsimMap).getD 0 []).length
          + [((9 / 10 : ℚ), (40 : Nat), (20000 : Nat)), (19 / 20, 70, 30000)].length :=
  ssim_map_entries exBola [] 1000 500 0 [(9 / 10, 40, 20000), (19 / 20, 70, 30000)] []
    (by simp) (by norm_num) (by simp)

/-- C25 (counterexample). The triple `0.9:40:20000` of the representation `500` and the
triple `0.9:70:30000` of the representation `1000`, both for the first segment: the
second assignment replaces the entry of the first, and the map of the segment holds one
entry for the two triples. -/
theorem ssimsLoop_duplicate_replaced :
    ((ssimsLoop 1000 500 0 [(9 / 10, 40, 20000)] []).bind
        (fun maps => ssimsLoop 1000 1000 0 [(9 / 10, 70, 30000)] maps)).map
      (fun maps => (maps.getD 0 []).map (fun e => (e.1, e.2.quality, e.2.required_frames)))
      = some [(9 / 10, 1000, 70)] := by
  have t : intToSizeT 1000 = 1000 := by decide
  have q1 : toInt32 500 = 500 := by decide
  have q2 : toInt32 1000 = 1000 := by decide
  simp [ssimsLoop, mapInsert, t, q1, q2]

end Voxel
